import Mathlib

/-!
# Type grammar, type registry and tensor ownership

A shallow embedding of `core/graph/utils.cc` (namespace `LotusIR::Utils`: the cursor
`StringRange`, the element-type table, the type grammar `ToString` / `FromString`, the
type string of a value `ToAttrTypeString`, the interning registry `ToType`) and of `onnxruntime/core/framework/tensor.cc` (`Tensor`).

Conventions of the embedding.

* A `std::string` is a `List Char`.
* A failed `assert`, an out-of-range protobuf index, and a read outside the character
  range a cursor was built on are all modelled by `none`: the reference behaviour there is
  a fatal contract violation.
* A cursor `StringRange` holds four pointers/sizes `m_data`, `m_size`, `m_start`, `m_end`.
  Every member function keeps `m_end == m_data`, so a cursor is represented by the `m_size`
  characters starting at `m_data` (field `m_data`) and by the characters of
  `[m_start, m_end)` that lie immediately before them (field `m_capture`).
* A member function that mutates the cursor and returns `bool` becomes a function to
  `Bool × StringRange`.
-/

namespace LotusIR
namespace Utils

/-! ## Characters -/

/-- C-locale `isspace` of `<cctype>`: the space and the control characters
`\t \n \v \f \r` (codes 9 to 13). -/
def isspace (c : Char) : Bool :=
  c.toNat == 32 || (decide (9 ≤ c.toNat) && decide (c.toNat ≤ 13))

/-! ## StringRange (utils.cc 449-631) -/

/-- Cursor over a borrowed character range. `m_data` lists the `m_size` characters at the
pointer `m_data`; `m_capture` lists the characters of `[m_start, m_end)`. -/
structure StringRange where
  m_data : List Char
  m_capture : List Char
deriving DecidableEq, Repr

namespace StringRange

/-- `StringRange::Data`, read together with `Size`: the characters of the view. -/
def Data (s : StringRange) : List Char := s.m_data

/-- `StringRange::Size`. -/
def Size (s : StringRange) : Nat := s.m_data.length

/-- `StringRange::Empty`. -/
def Empty (s : StringRange) : Bool := s.Size == 0

/-- `StringRange::StartsWith`: `m_size >= p_str.m_size` and `memcmp` over the first
`p_str.m_size` characters. -/
def StartsWith (s p_str : StringRange) : Bool :=
  decide (s.Size ≥ p_str.Size) && (s.m_data.take p_str.Size == p_str.m_data)

/-- `StringRange::EndsWith`. -/
def EndsWith (s p_str : StringRange) : Bool :=
  decide (s.Size ≥ p_str.Size) && (s.m_data.drop (s.Size - p_str.Size) == p_str.m_data)

/-- `StringRange::LStrip(size_t)`: advances `m_data` and `m_end` by `p_size`. -/
def LStrip_n (s : StringRange) (p_size : Nat) : Bool × StringRange :=
  if p_size ≤ s.Size then
    (true, { m_data := s.m_data.drop p_size,
             m_capture := s.m_capture ++ s.m_data.take p_size })
  else (false, s)

/-- `StringRange::LStrip()`: counts the leading whitespace, then `LStrip(count)`. -/
def LStrip (s : StringRange) : Bool × StringRange :=
  let count := (s.m_data.takeWhile isspace).length
  if count > 0 then s.LStrip_n count else (false, s)

/-- `StringRange::LStrip(StringRange)`. -/
def LStrip_str (s p_str : StringRange) : Bool × StringRange :=
  if s.StartsWith p_str then s.LStrip_n p_str.Size else (false, s)

/-- `StringRange::RStrip(size_t)`: only `m_size` shrinks. -/
def RStrip_n (s : StringRange) (p_size : Nat) : Bool × StringRange :=
  if s.Size ≥ p_size then
    (true, { s with m_data := s.m_data.take (s.Size - p_size) })
  else (false, s)

/-- `StringRange::RStrip()`: counts the trailing whitespace, then `RStrip(count)`. -/
def RStrip (s : StringRange) : Bool × StringRange :=
  let count := (s.m_data.reverse.takeWhile isspace).length
  if count > 0 then s.RStrip_n count else (false, s)

/-- `StringRange::RStrip(StringRange)`. -/
def RStrip_str (s p_str : StringRange) : Bool × StringRange :=
  if s.EndsWith p_str then s.RStrip_n p_str.Size else (false, s)

/-- `StringRange::LAndRStrip`. -/
def LAndRStrip (s : StringRange) : Bool × StringRange :=
  let l := s.LStrip
  let r := l.2.RStrip
  (l.1 || r.1, r.2)

/-- `StringRange::StringRange(const std::string&)` and `StringRange(const char*)`:
`m_start = m_end = m_data`, then `LAndRStrip`. -/
def ofString (p_str : List Char) : StringRange :=
  (LAndRStrip { m_data := p_str, m_capture := [] }).2

/-- `StringRange::StringRange(const char*, size_t)` applied to the data pointer of a view
whose characters are `p_data`, with `p_size` at most their number. -/
def ofData (p_data : List Char) (p_size : Nat) : StringRange :=
  ofString (p_data.take p_size)

/-- `StringRange::ParensWhitespaceStrip`. -/
def ParensWhitespaceStrip (s : StringRange) : StringRange :=
  let s := s.LStrip.2
  let s := (s.LStrip_str (ofString "(".toList)).2
  let s := s.LAndRStrip.2
  let s := (s.RStrip_str (ofString ")".toList)).2
  s.RStrip.2

/-- The scan of `StringRange::Find` over a character list. -/
def findIdx (p_ch : Char) : List Char → Option Nat
  | [] => none
  | c :: cs => if c = p_ch then some 0 else (findIdx p_ch cs).map (fun i => i + 1)

/-- `StringRange::Find`: the first index of `p_ch`; `none` stands for
`std::string::npos`. -/
def Find (s : StringRange) (p_ch : Char) : Option Nat := findIdx p_ch s.m_data

/-- `StringRange::RestartCapture`. -/
def RestartCapture (s : StringRange) : StringRange := { s with m_capture := [] }

/-- `StringRange::GetCaptured`: `StringRange(m_start, m_end - m_start)`. -/
def GetCaptured (s : StringRange) : StringRange := ofData s.m_capture s.m_capture.length

end StringRange

/-! ## Wire descriptors (graph.pb.h, consumed through their accessors) -/

/-- Modelled from the spec: the enumeration `TensorProto::DataType` is declared in the
generated header graph.pb.h; the data model gives it as the closed set of fifteen scalar
element codes. -/
inductive DataType
  | BOOL | STRING | FLOAT16 | FLOAT | DOUBLE
  | INT8 | INT16 | INT32 | INT64
  | UINT8 | UINT16 | UINT32 | UINT64
  | COMPLEX64 | COMPLEX128
deriving DecidableEq, Repr

/-- Modelled from the spec: one entry of `TensorShapeProto.dim`, read by the code only
through `dim_value()`. -/
structure Dimension where
  dim_value : Int
deriving DecidableEq, Repr

mutual
/-- Modelled from the spec: the type descriptor `TypeProto` with its `value_case`
discriminant. `VALUE_NOT_SET` is the state after `Clear()`. A tensor type carries the
list `shape().dim`. -/
inductive TypeProto
  | VALUE_NOT_SET
  | tensor_type (elem_type : DataType) (shape : List Dimension)
  | sparse_tensor_type (elem_type : DataType)
  | seq_type (elem_type : TypeProto)
  | map_type (key_type : DataType) (value_type : TypeProto)
  | record_type (field : List ValueInfoProto)
  | union_type (choice : List ValueInfoProto)
/-- Modelled from the spec: a named entry of a record or union, `name()` and `type()`. -/
inductive ValueInfoProto
  | mk (name : List Char) (type : TypeProto)
end

/-- A default-constructed `TypeProto` has no variant set. -/
instance : Inhabited TypeProto := ⟨TypeProto.VALUE_NOT_SET⟩

/-- Accessor `ValueInfoProto::name`. -/
def ValueInfoProto.name : ValueInfoProto → List Char
  | .mk n _ => n

/-- Accessor `ValueInfoProto::type`. -/
def ValueInfoProto.type : ValueInfoProto → TypeProto
  | .mk _ t => t

/-- Modelled from the spec: the tensor value `TensorProto`, read by the code only through
`dims()` and `data_type()`. -/
structure TensorProto where
  dims : List Int
  data_type : DataType
deriving DecidableEq, Repr

/-- Modelled from the spec: the sparse tensor value `SparseTensorProto`, read by the code
only through `values()`. -/
structure SparseTensorProto where
  values : TensorProto
deriving DecidableEq, Repr

/-- Modelled from the spec: the discriminant `key_case` of the key of a pair of a general
map. -/
inductive KeyCase
  | kS | kI32 | kI64 | kUi64 | KEY_NOT_SET
deriving DecidableEq, Repr

mutual
/-- Modelled from the spec: the value descriptor `ValueProto` with its `value_case`
discriminant: dense tensor, sparse tensor, sequence, scalar map, general map, record and
union, the last with an optional choice (`has_choice`). -/
inductive ValueProto
  | VALUE_NOT_SET
  | dense_tensor (dense_tensor : TensorProto)
  | sparse_tensor (sparse_tensor : SparseTensorProto)
  | seq (elems : List ValueProto)
  | scalar_map (keys : List TensorProto) (values : List TensorProto)
  | map (key_value_pairs : List KeyValuePairProto)
  | record (fields : List NameValuePairProto)
  | union_ (choice : Option NameValuePairProto)
/-- Modelled from the spec: a pair of a general map, `key_case()` and `value()`. -/
inductive KeyValuePairProto
  | mk (key_case : KeyCase) (value : ValueProto)
/-- Modelled from the spec: a named value of a record or union, `key()` and `value()`. -/
inductive NameValuePairProto
  | mk (key : List Char) (value : ValueProto)
end

namespace OpUtils

/-! ## Element-type table (utils.cc 116-155, 336-341, 378-447) -/

/-- `OpUtils::ToString(const TensorProto::DataType&)`. The name constants `c_bool`, ...
of `TypesWrapper` are declared in constants.h; their values are those of the grammar. -/
def ToString_DataType : DataType → List Char
  | .BOOL => "bool".toList
  | .STRING => "string".toList
  | .FLOAT16 => "float16".toList
  | .FLOAT => "float".toList
  | .DOUBLE => "double".toList
  | .INT8 => "int8".toList
  | .INT16 => "int16".toList
  | .INT32 => "int32".toList
  | .INT64 => "int64".toList
  | .UINT8 => "uint8".toList
  | .UINT16 => "uint16".toList
  | .UINT32 => "uint32".toList
  | .UINT64 => "uint64".toList
  | .COMPLEX64 => "complex64".toList
  | .COMPLEX128 => "complex128".toList

/-- Modelled from the spec: `TypesWrapper::GetAllowedDataTypes`, the set of the fifteen
element-type names. -/
def GetAllowedDataTypes : List (List Char) :=
  ["bool".toList, "string".toList, "float16".toList, "float".toList, "double".toList,
   "int8".toList, "int16".toList, "int32".toList, "int64".toList,
   "uint8".toList, "uint16".toList, "uint32".toList, "uint64".toList,
   "complex64".toList, "complex128".toList]

/-- `OpUtils::IsValidDataTypeString`. -/
def IsValidDataTypeString (p_dataType : List Char) : Bool :=
  GetAllowedDataTypes.contains p_dataType

/-- `OpUtils::FromString(const std::string&, TensorProto::DataType&)`: the membership
assertion, then the chain of comparisons in source order. -/
def FromString_DataType (p_typeStr : List Char) : Option DataType :=
  if ¬ IsValidDataTypeString p_typeStr then none
  else if p_typeStr = "bool".toList then some .BOOL
  else if p_typeStr = "float".toList then some .FLOAT
  else if p_typeStr = "float16".toList then some .FLOAT16
  else if p_typeStr = "double".toList then some .DOUBLE
  else if p_typeStr = "int8".toList then some .INT8
  else if p_typeStr = "int16".toList then some .INT16
  else if p_typeStr = "int32".toList then some .INT32
  else if p_typeStr = "int64".toList then some .INT64
  else if p_typeStr = "string".toList then some .STRING
  else if p_typeStr = "uint8".toList then some .UINT8
  else if p_typeStr = "uint16".toList then some .UINT16
  else if p_typeStr = "uint32".toList then some .UINT32
  else if p_typeStr = "uint64".toList then some .UINT64
  else if p_typeStr = "complex64".toList then some .COMPLEX64
  else if p_typeStr = "complex128".toList then some .COMPLEX128
  else none

/-! ## Serializer (utils.cc 52-114) -/

mutual
/-- `OpUtils::ToString(const TypeProto&)`. The `default:` case asserts. -/
def ToString : TypeProto → Option (List Char)
  | .VALUE_NOT_SET => none
  | .tensor_type elem_type shape =>
      if shape.length = 1 ∧ (shape.map Dimension.dim_value).head? = some 0 then
        some (ToString_DataType elem_type)
      else
        some ("tensor(".toList ++ ToString_DataType elem_type ++ ")".toList)
  | .sparse_tensor_type elem_type =>
      some ("sparse(".toList ++ ToString_DataType elem_type ++ ")".toList)
  | .seq_type elem_type =>
      (ToString elem_type).map (fun e => "seq(".toList ++ e ++ ")".toList)
  | .map_type key_type value_type =>
      (ToString value_type).map
        (fun v => "map(".toList ++ ToString_DataType key_type ++ ",".toList ++ v ++ ")".toList)
  | .record_type field => (ToStringEntries field).map (fun b => "record(".toList ++ b)
  | .union_type choice => (ToStringEntries choice).map (fun b => "union(".toList ++ b)
/-- The two-part loop of the record and union cases: entries `0 .. size-2` each followed
by a comma, then entry `size-1` followed by the closing parenthesis. With `size == 0`
the access `field(size-1)` is out of range. -/
def ToStringEntries : List ValueInfoProto → Option (List Char)
  | [] => none
  | [.mk name type] =>
      (ToString type).map (fun t => name ++ ":".toList ++ t ++ ")".toList)
  | (.mk name type) :: g :: rest =>
      match ToString type, ToStringEntries (g :: rest) with
      | some t, some r => some (name ++ ":".toList ++ t ++ ",".toList ++ r)
      | _, _ => none
end

/-! ## Type string of a value (utils.cc 157-251) -/

/-- The inner `switch` of the map case of `ToAttrTypeString`: the name assigned to
`key_str`; the `default:` case asserts. -/
def key_str : KeyCase → Option (List Char)
  | .kS => some "string".toList
  | .kI32 => some "int32".toList
  | .kI64 => some "int64".toList
  | .kUi64 => some "uint64".toList
  | .KEY_NOT_SET => none

mutual
/-- `OpUtils::ToAttrTypeString`. The assertions on the sizes, on `has_choice` and the
`default:` cases make the result `none`. -/
def ToAttrTypeString : ValueProto → Option (List Char)
  | .VALUE_NOT_SET => none
  | .dense_tensor t =>
      if t.dims.length = 1 ∧ t.dims.head? = some 0 then
        some (ToString_DataType t.data_type)
      else
        some ("tensor(".toList ++ ToString_DataType t.data_type ++ ")".toList)
  | .sparse_tensor t =>
      some ("sparse(".toList ++ ToString_DataType t.values.data_type ++ ")".toList)
  | .seq [] => none
  | .seq (e :: _) => (ToAttrTypeString e).map (fun s => "seq(".toList ++ s ++ ")".toList)
  | .scalar_map keys values =>
      if keys.length > 0 ∧ values.length > 0 ∧ keys.length = values.length then
        match keys.head?, values.head? with
        | some k, some v =>
          some ("map(".toList ++ ToString_DataType k.data_type ++ ",".toList
            ++ "tensor(".toList ++ ToString_DataType v.data_type ++ "))".toList)
        | _, _ => none
      else none
  | .map [] => none
  | .map (.mk key_case value :: _) =>
      match key_str key_case, ToAttrTypeString value with
      | some k, some v => some ("map(".toList ++ k ++ ",".toList ++ v ++ ")".toList)
      | _, _ => none
  | .record fields => (ToAttrTypeStringFields fields).map (fun b => "record(".toList ++ b)
  | .union_ none => none
  | .union_ (some (.mk key value)) =>
      (ToAttrTypeString value).map
        (fun s => "union(".toList ++ key ++ ":".toList ++ s ++ ")".toList)
/-- The two-part loop of the record case: fields `0 .. fields_size-2` each followed by a
comma, then the last field followed by the closing parenthesis. -/
def ToAttrTypeStringFields : List NameValuePairProto → Option (List Char)
  | [] => none
  | [.mk key value] =>
      (ToAttrTypeString value).map (fun t => key ++ ":".toList ++ t ++ ")".toList)
  | (.mk key value) :: g :: rest =>
      match ToAttrTypeString value, ToAttrTypeStringFields (g :: rest) with
      | some t, some r => some (key ++ ":".toList ++ t ++ ",".toList ++ r)
      | _, _ => none
end

/-! ## Parser (utils.cc 253-376) -/

/-- The `while (p_src.Size() > 0)` loop of `OpUtils::SplitRecords`; the state is the
cursor, the counter `parens` and the vector `p_records`. Each round strips one character,
so `fuel = Size()` rounds reach the exit. The `int` counter is an unbounded integer here:
it leaves the range of `int` only after more than 2^31 unmatched parentheses. -/
def SplitRecordsLoop :
    Nat → StringRange → Int → List StringRange → StringRange × Int × List StringRange
  | 0, p_src, parens, p_records => (p_src, parens, p_records)
  | fuel + 1, p_src, parens, p_records =>
    if p_src.Size > 0 then
      if p_src.StartsWith (StringRange.ofString ",".toList) then
        if parens = 0 then
          let p_records := p_records ++ [p_src.GetCaptured]
          let p_src := (p_src.LStrip_str (StringRange.ofString ",".toList)).2
          let p_src := p_src.RestartCapture
          SplitRecordsLoop fuel p_src parens p_records
        else
          SplitRecordsLoop fuel (p_src.LStrip_str (StringRange.ofString ",".toList)).2
            parens p_records
      else if (p_src.LStrip_str (StringRange.ofString "(".toList)).1 then
        SplitRecordsLoop fuel (p_src.LStrip_str (StringRange.ofString "(".toList)).2
          (parens + 1) p_records
      else if (p_src.LStrip_str (StringRange.ofString ")".toList)).1 then
        SplitRecordsLoop fuel (p_src.LStrip_str (StringRange.ofString ")".toList)).2
          (parens - 1) p_records
      else
        SplitRecordsLoop fuel (p_src.LStrip_n 1).2 parens p_records
    else (p_src, parens, p_records)

/-- `OpUtils::SplitRecords`: returns the final cursor and the extended vector. -/
def SplitRecords (p_src : StringRange) (p_records : List StringRange) :
    StringRange × List StringRange :=
  let p_src := p_src.RestartCapture
  let r := SplitRecordsLoop p_src.Size p_src 0 p_records
  (r.1, r.2.2 ++ [r.1.GetCaptured])

/-- Body of the `for (auto& f : fields)` loop of the record and union branches of
`FromString`: name before the first `:`, type parsed from the rest by `parse`. When `Find`
returns `npos`, `StringRange n(f.Data(), npos)` is built over more characters than the
buffer holds. -/
def parseEntry (parse : List Char → Option TypeProto) (f : StringRange) :
    Option ValueInfoProto :=
  match f.Find ':' with
  | none => none
  | some name_size =>
    let n := StringRange.ofData f.Data name_size
    let name := n.Data
    let f := (f.LStrip_n name_size).2
    let f := (f.LStrip_str (StringRange.ofString ":".toList)).2
    (parse f.Data).map (fun t => ValueInfoProto.mk name t)

/-- The `for (auto& f : fields)` loop: entries are appended in vector order. -/
def parseEntries (parse : List Char → Option TypeProto) :
    List StringRange → Option (List ValueInfoProto)
  | [] => some []
  | f :: rest =>
    match parseEntry parse f, parseEntries parse rest with
    | some v, some vs => some (v :: vs)
    | _, _ => none

/-- Body of `OpUtils::FromString(const std::string&, TypeProto&)`; the recursive calls
are made through the parameter `FromString`, and a call that asserts makes the whole
parse `none`. In the record and union branches `SplitRecords` returns at least one field,
so the loop body, which selects the variant with `mutable_record_type()` or
`mutable_union_type()`, runs at least once. When `Find` returns `npos` in the map branch,
`StringRange k(s.Data(), npos)` is built over more characters than the buffer holds. -/
def FromStringBody (FromString : List Char → Option TypeProto) (p_src : List Char) :
    Option TypeProto :=
  let s := StringRange.ofString p_src
  if (s.LStrip_str (StringRange.ofString "seq".toList)).1 then
    let s := (s.LStrip_str (StringRange.ofString "seq".toList)).2
    let s := s.ParensWhitespaceStrip
    (FromString s.Data).map TypeProto.seq_type
  else if (s.LStrip_str (StringRange.ofString "map".toList)).1 then
    let s := (s.LStrip_str (StringRange.ofString "map".toList)).2
    let s := s.ParensWhitespaceStrip
    match s.Find ',' with
    | none => none
    | some key_size =>
      let k := StringRange.ofData s.Data key_size
      let key := k.Data
      let s := (s.LStrip_n key_size).2
      let s := (s.LStrip_str (StringRange.ofString ",".toList)).2
      let v := StringRange.ofData s.Data s.Size
      match FromString_DataType key with
      | none => none
      | some key_type =>
        (FromString v.Data).map (TypeProto.map_type key_type)
  else if (s.LStrip_str (StringRange.ofString "record".toList)).1 then
    let s := (s.LStrip_str (StringRange.ofString "record".toList)).2
    let s := s.ParensWhitespaceStrip
    let fields := (SplitRecords s []).2
    (parseEntries FromString fields).map TypeProto.record_type
  else if (s.LStrip_str (StringRange.ofString "union".toList)).1 then
    let s := (s.LStrip_str (StringRange.ofString "union".toList)).2
    let s := s.ParensWhitespaceStrip
    let choices := (SplitRecords s []).2
    (parseEntries FromString choices).map TypeProto.union_type
  else if (s.LStrip_str (StringRange.ofString "sparse".toList)).1 then
    let s := (s.LStrip_str (StringRange.ofString "sparse".toList)).2
    let s := s.ParensWhitespaceStrip
    (FromString_DataType s.Data).map TypeProto.sparse_tensor_type
  else if (s.LStrip_str (StringRange.ofString "tensor".toList)).1 then
    let s := (s.LStrip_str (StringRange.ofString "tensor".toList)).2
    let s := s.ParensWhitespaceStrip
    (FromString_DataType s.Data).map (fun e => TypeProto.tensor_type e [])
  else
    (FromString_DataType s.Data).map (fun e => TypeProto.tensor_type e [⟨0⟩])

/-- `OpUtils::FromString(const std::string&, TypeProto&)` with a bound on the recursion
depth; `none` at depth 0. -/
def FromStringFuel : Nat → List Char → Option TypeProto
  | 0, _ => none
  | fuel + 1, p_src => FromStringBody (FromStringFuel fuel) p_src

/-- `OpUtils::FromString(const std::string&, TypeProto&)`. Every recursive call is made on
a shorter string, so a depth of `p_src.length + 1` is never exhausted. -/
def FromString (p_src : List Char) : Option TypeProto :=
  FromStringFuel (p_src.length + 1) p_src

/-! ## Type registry (utils.cc 14-50) -/

/-- `GetTypeStrToProtoMap()`: the nodes of the `unordered_map`, in order of creation. A node
is never erased and never moves, so the address of the key of a node is represented by the
position of the node. -/
abbrev TypeStrToProtoMap := List (List Char × TypeProto)

/-- `PTYPE` (`const std::string*`) for the handles the registry issues: the address of the
key of a node. -/
abbrev PTYPE := Nat

/-- `unordered_map::find`: the node whose key equals `key`, `none` for `end()`. -/
def find (key : List Char) : TypeStrToProtoMap → Option Nat
  | [] => none
  | (k, _) :: rest => if k = key then some 0 else (find key rest).map (fun i => i + 1)

/-- `OpUtils::ToType(const TypeProto&)`: returns the handle and the map after the call. -/
def ToType (m : TypeStrToProtoMap) (p_type : TypeProto) : Option (PTYPE × TypeStrToProtoMap) :=
  match ToString p_type with
  | none => none
  | some typeStr =>
    let m := if find typeStr m = none then m ++ [(typeStr, p_type)] else m
    (find typeStr m).map (fun i => (i, m))

/-- `OpUtils::ToType(const std::string&)`. -/
def ToType_string (m : TypeStrToProtoMap) (p_type : List Char) :
    Option (PTYPE × TypeStrToProtoMap) :=
  match FromString p_type with
  | none => none
  | some type => ToType m type

/-- `OpUtils::ToTypeProto`, as a function of the string `*p_type` the handle points to. -/
def ToTypeProto (m : TypeStrToProtoMap) (p_type : List Char) : Option TypeProto :=
  match find p_type m with
  | none => none
  | some i => (m.get? i).map (fun node => node.2)

/-- One call of either overload of `ToType`. -/
inductive Call
  | proto (p_type : TypeProto)
  | str (p_type : List Char)

/-- The map after one call, `none` when the call is a fatal contract violation. -/
def Call.run (m : TypeStrToProtoMap) : Call → Option TypeStrToProtoMap
  | .proto p => (ToType m p).map (fun r => r.2)
  | .str s => (ToType_string m s).map (fun r => r.2)

/-- The map after a sequence of calls, all of which return. -/
def runCalls (m : TypeStrToProtoMap) : List Call → Option TypeStrToProtoMap
  | [] => some m
  | c :: cs =>
    match c.run m with
    | none => none
    | some m1 => runCalls m1 cs

/-- Registry states reachable from the empty map by calls of `ToType`. -/
def Reachable (m : TypeStrToProtoMap) : Prop := ∃ calls, runCalls [] calls = some m

end OpUtils
end Utils
end LotusIR

/-! ## Tensor (tensor.cc) -/

namespace onnxruntime

/-- Modelled from the spec: `MLDataType`, a pointer to the per-type singleton returned by
`DataTypeImpl::GetType<T>()` (declared in data_types.h). `GetType<float>()` and
`GetType<string>()` are the two singletons tensor.cc names; `other n` stands for any
other element type. -/
inductive MLDataType
  | nullptr
  | float
  | string
  | other (n : Nat)
deriving DecidableEq, Repr

/-- Modelled from the spec: `TensorShape`, an ordered sequence of `int64_t` dimensions
(declared in tensor_shape.h). -/
structure TensorShape where
  dims : List Int
deriving DecidableEq, Repr

/-- Modelled from the spec: `TensorShape::Size`, the product of the dimensions, 1 for the
empty sequence. -/
def TensorShape.Size (shape : TensorShape) : Int := shape.dims.prod

/-- A buffer address (`void*`); `none` is `nullptr`. -/
abbrev BufferNakedPtr := Option Nat

/-- An `AllocatorPtr` (`std::shared_ptr<IAllocator>`): `none` is the empty pointer,
`some a` points to allocator `a`. -/
abbrev AllocatorPtr := Option Nat

/-- Modelled from the spec: `OrtAllocatorInfo`, the location/device tag of a buffer. -/
structure OrtAllocatorInfo where
  tag : Nat
deriving DecidableEq, Repr

/-- Data members of `Tensor`. -/
structure Tensor where
  p_data_ : BufferNakedPtr
  buffer_deleter_ : AllocatorPtr
  shape_ : TensorShape
  dtype_ : MLDataType
  alloc_info_ : OrtAllocatorInfo
  byte_offset_ : Int
deriving DecidableEq, Repr

/-- Observable effects on a buffer: placement construction `new (ptr + i) string()`,
destruction `ptr[i].~string()`, and `deleter->Free(p)`. -/
inductive Effect
  | construct_string (p : BufferNakedPtr) (i : Nat)
  | destroy_string (p : BufferNakedPtr) (i : Nat)
  | Free (deleter : Nat) (p : BufferNakedPtr)
deriving DecidableEq, Repr

/-- The buffer address an effect acts on. -/
def Effect.addr : Effect → BufferNakedPtr
  | .construct_string p _ => p
  | .destroy_string p _ => p
  | .Free _ p => p

/-- Outcome of a member function that may throw: the state it leaves, the effects it
performed, and whether it threw. -/
structure Outcome (σ : Type) where
  state : σ
  trace : List Effect
  threw : Bool

namespace Tensor

/-- `Tensor::Init`: throws before any assignment when `shape.Size() < 0`; otherwise fills
all data members, with one placement construction per slot for an owning string tensor. -/
def Init (p_type : MLDataType) (shape : TensorShape) (p_raw_data : BufferNakedPtr)
    (alloc : OrtAllocatorInfo) (deleter : AllocatorPtr) (offset : Int) :
    Outcome (Option Tensor) :=
  if shape.Size < 0 then
    { state := none, trace := [], threw := true }
  else
    let trace :=
      if deleter.isSome ∧ p_type = MLDataType.string then
        (List.range shape.Size.toNat).map (fun i => Effect.construct_string p_raw_data i)
      else []
    { state := some { dtype_ := p_type, shape_ := shape, p_data_ := p_raw_data,
                      buffer_deleter_ := deleter, alloc_info_ := alloc,
                      byte_offset_ := offset },
      trace := trace, threw := false }

/-- The constructor `Tensor::Tensor(MLDataType, const TensorShape&, BufferNakedPtr,
const OrtAllocatorInfo&, AllocatorPtr, int64_t)`: `ORT_ENFORCE(p_type != nullptr)`, then
`Init`. The state is the constructed tensor, `none` when the constructor throws. -/
def ctor (p_type : MLDataType) (shape : TensorShape) (p_data : BufferNakedPtr)
    (alloc : OrtAllocatorInfo) (deleter : AllocatorPtr) (offset : Int) :
    Outcome (Option Tensor) :=
  if p_type = MLDataType.nullptr then
    { state := none, trace := [], threw := true }
  else Init p_type shape p_data alloc deleter offset

/-- `Tensor::ReleaseBuffer`: the effects it performs; no data member changes. -/
def ReleaseBuffer (t : Tensor) : List Effect :=
  match t.buffer_deleter_ with
  | none => []
  | some deleter =>
    (if t.dtype_ = MLDataType.string then
      (List.range t.shape_.Size.toNat).map (fun i => Effect.destroy_string t.p_data_ i)
    else []) ++ [Effect.Free deleter t.p_data_]

/-- `Tensor::~Tensor`. -/
def dtor (t : Tensor) : List Effect := t.ReleaseBuffer

/-- The state the move operations leave in their source: the five assignments
`other.dtype_ = GetType<float>()`, `other.shape_ = TensorShape(vector<int64_t>(1, 0))`,
`other.p_data_ = nullptr`, `other.buffer_deleter_ = nullptr`, `other.byte_offset_ = 0`. -/
def reset (other : Tensor) : Tensor :=
  { other with dtype_ := MLDataType.float, shape_ := ⟨[0]⟩, p_data_ := none,
               buffer_deleter_ := none, byte_offset_ := 0 }

/-- Move constructor `Tensor::Tensor(Tensor&&)`: returns the new tensor and the state of
`other` afterwards. The new object is distinct from `other`. -/
def move_ctor (other : Tensor) : Tensor × Tensor :=
  ({ p_data_ := other.p_data_, buffer_deleter_ := other.buffer_deleter_,
     shape_ := other.shape_, dtype_ := other.dtype_, alloc_info_ := other.alloc_info_,
     byte_offset_ := other.byte_offset_ },
   reset other)

end Tensor

/-- Live tensors by address. -/
abbrev Store := Nat → Tensor

namespace Tensor

/-- Move assignment `Tensor::operator=(Tensor&&)` on the tensors at addresses `this` and
`other`. -/
def move_assign (st : Store) (this other : Nat) : Outcome Store :=
  if this ≠ other then
    let trace := (st this).ReleaseBuffer
    let o := st other
    let st := Function.update st this
      { (st this) with dtype_ := o.dtype_, shape_ := o.shape_, alloc_info_ := o.alloc_info_,
                       byte_offset_ := o.byte_offset_, p_data_ := o.p_data_,
                       buffer_deleter_ := o.buffer_deleter_ }
    let st := Function.update st other (reset o)
    { state := st, trace := trace, threw := false }
  else { state := st, trace := [], threw := false }

/-- `Tensor::ShallowCopy` on the tensors at addresses `this` and `other`; the
`ORT_ENFORCE` throws before any assignment. -/
def ShallowCopy (st : Store) (this other : Nat) : Outcome Store :=
  if (st other).buffer_deleter_ ≠ none then
    { state := st, trace := [], threw := true }
  else if this ≠ other then
    let o := st other
    let st := Function.update st this
      { (st this) with dtype_ := o.dtype_, alloc_info_ := o.alloc_info_, shape_ := o.shape_,
                       byte_offset_ := o.byte_offset_, p_data_ := o.p_data_,
                       buffer_deleter_ := none }
    { state := st, trace := [], threw := false }
  else { state := st, trace := [], threw := false }

/-- Move construction `Tensor b(std::move(a))` in the store: the new tensor is placed at
the address `this`, which holds no live tensor before, from the tensor at `other`. -/
def move_construct (st : Store) (this other : Nat) : Outcome Store :=
  let r := move_ctor (st other)
  { state := Function.update (Function.update st this r.1) other r.2,
    trace := [], threw := false }

/-- At most one live tensor holds an owning capability for any buffer address: two
distinct live owners have different data addresses. -/
def SingleOwner (live : List Nat) (st : Store) : Prop :=
  ∀ i ∈ live, ∀ j ∈ live, i ≠ j →
    (st i).buffer_deleter_.isSome = true → (st j).buffer_deleter_.isSome = true →
    (st i).p_data_ ≠ (st j).p_data_

/-- The state of a moved-from tensor: element type float, shape `[0]`, null data address,
no owning capability, byte offset 0. -/
def IsSentinel (t : Tensor) : Prop :=
  t.dtype_ = MLDataType.float ∧ t.shape_ = ⟨[0]⟩ ∧ t.p_data_ = none ∧
    t.buffer_deleter_ = none ∧ t.byte_offset_ = 0

end Tensor
end onnxruntime

/-! ## Vocabulary of the specification and of the proofs -/

namespace LotusIR
namespace Utils

/-- Whitespace-trimmed text: leading, then trailing whitespace removed. -/
def trim (l : List Char) : List Char := (l.dropWhile isspace).rdropWhile isspace

/-- Text without leading and without trailing whitespace. -/
def Trimmed (l : List Char) : Prop :=
  (∀ c, l.head? = some c → isspace c = false) ∧ (∀ c, l.getLast? = some c → isspace c = false)

/-- Parenthesis depth at position `i` of `body`: the number of `(` minus the number of
`)` among the first `i` characters. -/
def depthAt (body : List Char) (i : Nat) : Int :=
  ((body.take i).count '(' : Int) - ((body.take i).count ')' : Int)

/-- Position `i` of `body` holds a comma at parenthesis depth 0. -/
def isTopComma (body : List Char) (i : Nat) : Bool :=
  body.get? i == some ',' && depthAt body i == 0

/-- The positions of the commas of `body` at parenthesis depth 0, in increasing order. -/
def topCommas (body : List Char) : List Nat :=
  (List.range body.length).filter (isTopComma body)

/-- The whitespace-trimmed texts between consecutive cut positions: from `start` up to the
first cut, between each cut and the next, and from the last cut to the end. -/
def slices (body : List Char) : Nat → List Nat → List (List Char)
  | start, [] => [trim (body.drop start)]
  | start, c :: cs => trim ((body.take c).drop start) :: slices body (c + 1) cs

/-- The fields of `body` as the specification describes them: the trimmed texts between
consecutive commas at depth 0. -/
def specFields (body : List Char) : List (List Char) := slices body 0 (topCommas body)

/-- The scan of `SplitRecords` as a recursion over the remaining characters, with the
captured text `cap` and the depth `d`; used to relate the loop to `specFields`. -/
def splitAcc : List Char → List Char → Int → List (List Char)
  | [], cap, _ => [trim cap]
  | c :: cs, cap, d =>
    if c = ',' then
      if d = 0 then trim cap :: splitAcc cs [] d else splitAcc cs (cap ++ [c]) d
    else if c = '(' then splitAcc cs (cap ++ [c]) (d + 1)
    else if c = ')' then splitAcc cs (cap ++ [c]) (d - 1)
    else splitAcc cs (cap ++ [c]) d

/-- A segment `w` that the scan passes without cutting whenever the depth on entry is at
least `lo`: it is appended to the captured text and leaves the depth unchanged. -/
def Skips (lo : Int) (w : List Char) : Prop :=
  ∀ rest cap d, lo ≤ d → splitAcc (w ++ rest) cap d = splitAcc rest (cap ++ w) d

/-- A field or choice name free of `(`, `)`, `,`, `:` and of leading and trailing
whitespace. -/
def CleanName (n : List Char) : Bool :=
  n.all (fun c => c != '(' && c != ')' && c != ',' && c != ':') &&
  n.head?.all (fun c => !isspace c) && n.getLast?.all (fun c => !isspace c)

/-- A field or choice name free of `(`, `)`, `,`, `:` and of any whitespace. -/
def PlainName (n : List Char) : Bool :=
  n.all (fun c => c != '(' && c != ')' && c != ',' && c != ':' && !isspace c)

mutual
/-- Every tensor carries no shape dimension or exactly the shape `[0]`, every record and
union list is non-empty, and every field and choice name is clean. -/
def Lossless : TypeProto → Bool
  | .VALUE_NOT_SET => true
  | .tensor_type _ shape => decide (shape = []) || decide (shape = [⟨0⟩])
  | .sparse_tensor_type _ => true
  | .seq_type elem_type => Lossless elem_type
  | .map_type _ value_type => Lossless value_type
  | .record_type field => !field.isEmpty && LosslessEntries field
  | .union_type choice => !choice.isEmpty && LosslessEntries choice
/-- The condition `Lossless` on every entry of a field or choice list. -/
def LosslessEntries : List ValueInfoProto → Bool
  | [] => true
  | (.mk name type) :: rest => CleanName name && Lossless type && LosslessEntries rest
end

mutual
/-- The variant is set at every level of the descriptor. -/
def VariantSet : TypeProto → Bool
  | .VALUE_NOT_SET => false
  | .tensor_type _ _ => true
  | .sparse_tensor_type _ => true
  | .seq_type elem_type => VariantSet elem_type
  | .map_type _ value_type => VariantSet value_type
  | .record_type field => VariantSetEntries field
  | .union_type choice => VariantSetEntries choice
/-- The condition `VariantSet` on the type of every entry of a field or choice list. -/
def VariantSetEntries : List ValueInfoProto → Bool
  | [] => true
  | (.mk _ type) :: rest => VariantSet type && VariantSetEntries rest
end

/-- The text `name1:type1,...,nameN:typeN` of a list of fields. -/
def joinFields : List (List Char × List Char) → List Char
  | [] => []
  | [(n, t)] => n ++ ":".toList ++ t
  | (n, t) :: e :: rest => n ++ ":".toList ++ t ++ ",".toList ++ joinFields (e :: rest)

/-- The canonical type grammar of the specification:
`type := tensor(scalar) | sparse(scalar) | seq(type) | map(scalar,type) | record(fields) |
union(fields) | scalar`, `fields := field (, field)*`, `field := name : type`, with the
scalar names of the element-type table and names free of the control characters and of
whitespace. -/
inductive Grammar : List Char → Prop
  | scalar (e : DataType) : Grammar (OpUtils.ToString_DataType e)
  | tensor (e : DataType) :
      Grammar ("tensor(".toList ++ OpUtils.ToString_DataType e ++ ")".toList)
  | sparse (e : DataType) :
      Grammar ("sparse(".toList ++ OpUtils.ToString_DataType e ++ ")".toList)
  | seq (s : List Char) : Grammar s → Grammar ("seq(".toList ++ s ++ ")".toList)
  | map (k : DataType) (s : List Char) : Grammar s →
      Grammar ("map(".toList ++ OpUtils.ToString_DataType k ++ ",".toList ++ s ++ ")".toList)
  | record (fields : List (List Char × List Char)) : fields ≠ [] →
      (∀ f ∈ fields, PlainName f.1 = true) → (∀ f ∈ fields, Grammar f.2) →
      Grammar ("record(".toList ++ joinFields fields ++ ")".toList)
  | union (fields : List (List Char × List Char)) : fields ≠ [] →
      (∀ f ∈ fields, PlainName f.1 = true) → (∀ f ∈ fields, Grammar f.2) →
      Grammar ("union(".toList ++ joinFields fields ++ ")".toList)

/-- The characters `ParensWhitespaceStrip` leaves in view, as a function of the characters
in view before: leading whitespace dropped, one leading `(` dropped if present, both ends
trimmed, one trailing `)` dropped if present, trailing whitespace dropped. -/
def pwsData (l : List Char) : List Char :=
  let a := l.dropWhile isspace
  let b := if a.head? = some '(' then a.tail else a
  let c := trim b
  let d := if c.getLast? = some ')' then c.dropLast else c
  d.rdropWhile isspace

/-- The map branch of `FromString` on the characters `b` of the stripped body: key before
the first comma, value type parsed by `F` from the text after it. -/
def mapData (F : List Char → Option TypeProto) (b : List Char) : Option TypeProto :=
  match StringRange.findIdx ',' b with
  | none => none
  | some k =>
    match OpUtils.FromString_DataType (trim (b.take k)) with
    | none => none
    | some key_type => (F (trim (b.drop (k + 1)))).map (TypeProto.map_type key_type)

/-- One round of the field loop of `FromString` on the characters `f` of a field: name
before the first colon, type parsed by `F` from the text after it. -/
def entryData (F : List Char → Option TypeProto) (f : List Char) : Option ValueInfoProto :=
  match StringRange.findIdx ':' f with
  | none => none
  | some k => (F (f.drop (k + 1))).map (fun t => ValueInfoProto.mk (trim (f.take k)) t)

/-- The field loop of `FromString` on the characters of the fields. -/
def entriesData (F : List Char → Option TypeProto) :
    List (List Char) → Option (List ValueInfoProto)
  | [] => some []
  | f :: rest =>
    match entryData F f, entriesData F rest with
    | some v, some vs => some (v :: vs)
    | _, _ => none

/-- The body of `FromString` as a function of the trimmed input text `d`: the keyword
tests in source order, each branch reading the stripped body `pwsData` of what follows
the keyword. -/
def parseData (F : List Char → Option TypeProto) (d : List Char) : Option TypeProto :=
  if "seq".toList.isPrefixOf d then
    (F (pwsData (d.drop 3))).map TypeProto.seq_type
  else if "map".toList.isPrefixOf d then
    mapData F (pwsData (d.drop 3))
  else if "record".toList.isPrefixOf d then
    (entriesData F (splitAcc (pwsData (d.drop 6)) [] 0)).map TypeProto.record_type
  else if "union".toList.isPrefixOf d then
    (entriesData F (splitAcc (pwsData (d.drop 5)) [] 0)).map TypeProto.union_type
  else if "sparse".toList.isPrefixOf d then
    (OpUtils.FromString_DataType (pwsData (d.drop 6))).map TypeProto.sparse_tensor_type
  else if "tensor".toList.isPrefixOf d then
    (OpUtils.FromString_DataType (pwsData (d.drop 6))).map
      (fun e => TypeProto.tensor_type e [])
  else
    (OpUtils.FromString_DataType d).map (fun e => TypeProto.tensor_type e [⟨0⟩])

/-- The six keywords of the grammar. -/
def keywords : List (List Char) :=
  ["seq".toList, "map".toList, "record".toList, "union".toList, "sparse".toList,
   "tensor".toList]

/-- Text made of whitespace characters only. -/
def AllSpace (w : List Char) : Prop := ∀ c ∈ w, isspace c = true

mutual
/-- Every record and union list of the descriptor is non-empty, at every level. -/
def ListsNonEmpty : TypeProto → Bool
  | .VALUE_NOT_SET => true
  | .tensor_type _ _ => true
  | .sparse_tensor_type _ => true
  | .seq_type elem_type => ListsNonEmpty elem_type
  | .map_type _ value_type => ListsNonEmpty value_type
  | .record_type field => !field.isEmpty && ListsNonEmptyEntries field
  | .union_type choice => !choice.isEmpty && ListsNonEmptyEntries choice
/-- The condition `ListsNonEmpty` on the type of every entry of a field or choice list. -/
def ListsNonEmptyEntries : List ValueInfoProto → Bool
  | [] => true
  | (.mk _ type) :: rest => ListsNonEmpty type && ListsNonEmptyEntries rest
end

mutual
/-- Every record and union key that `ToAttrTypeString` reads in the value is free of
`(`, `)`, `,`, `:` and of leading and trailing whitespace. -/
def KeysClean : ValueProto → Bool
  | .VALUE_NOT_SET => true
  | .dense_tensor _ => true
  | .sparse_tensor _ => true
  | .seq [] => true
  | .seq (e :: _) => KeysClean e
  | .scalar_map _ _ => true
  | .map [] => true
  | .map (.mk _ value :: _) => KeysClean value
  | .record fields => KeysCleanFields fields
  | .union_ none => true
  | .union_ (some (.mk key value)) => CleanName key && KeysClean value
/-- The condition `KeysClean` on every field of a record. -/
def KeysCleanFields : List NameValuePairProto → Bool
  | [] => true
  | (.mk key value) :: rest => CleanName key && KeysClean value && KeysCleanFields rest
end

namespace OpUtils

/-- The keys of the registry. -/
def keys (m : TypeStrToProtoMap) : List (List Char) := m.map (fun node => node.1)

/-- The string `*h` a handle issued by the registry points to: the key of node `h`. -/
def deref (m : TypeStrToProtoMap) (h : PTYPE) : Option (List Char) :=
  (m.get? h).map (fun node => node.1)

/-- The canonical string a call of `ToType` interns, `none` when the call is a fatal
contract violation. -/
def Call.canonical : Call → Option (List Char)
  | .proto p => ToString p
  | .str s => (FromString s).bind ToString

end OpUtils

end Utils
end LotusIR

/-! # Properties -/

namespace onnxruntime
namespace Tensor

theorem reset_isSentinel (t : Tensor) : IsSentinel (reset t) := by
  simp [IsSentinel, reset]

/-- C7: after move construction or move assignment from `a` into a distinct destination
`b`, every attribute of `b` equals what `a` held before, and `a` is in the sentinel state;
moving from a sentinel leaves it a sentinel and gives the destination a null data address
and no owning capability. -/
theorem move_transfers_and_resets (st : Store) (b a : Nat) (hne : b ≠ a) :
    ((move_ctor (st a)).1.dtype_ = (st a).dtype_ ∧
      (move_ctor (st a)).1.shape_ = (st a).shape_ ∧
      (move_ctor (st a)).1.p_data_ = (st a).p_data_ ∧
      (move_ctor (st a)).1.byte_offset_ = (st a).byte_offset_ ∧
      (move_ctor (st a)).1.alloc_info_ = (st a).alloc_info_ ∧
      (move_ctor (st a)).1.buffer_deleter_ = (st a).buffer_deleter_ ∧
      IsSentinel (move_ctor (st a)).2) ∧
    ((move_assign st b a).threw = false ∧
      ((move_assign st b a).state b).dtype_ = (st a).dtype_ ∧
      ((move_assign st b a).state b).shape_ = (st a).shape_ ∧
      ((move_assign st b a).state b).p_data_ = (st a).p_data_ ∧
      ((move_assign st b a).state b).byte_offset_ = (st a).byte_offset_ ∧
      ((move_assign st b a).state b).alloc_info_ = (st a).alloc_info_ ∧
      ((move_assign st b a).state b).buffer_deleter_ = (st a).buffer_deleter_ ∧
      IsSentinel ((move_assign st b a).state a)) ∧
    (IsSentinel (st a) →
      (move_ctor (st a)).1.p_data_ = none ∧ (move_ctor (st a)).1.buffer_deleter_ = none ∧
      ((move_assign st b a).state b).p_data_ = none ∧
      ((move_assign st b a).state b).buffer_deleter_ = none) := by
  have hab : a ≠ b := fun h => hne h.symm
  refine ⟨⟨rfl, rfl, rfl, rfl, rfl, rfl, reset_isSentinel _⟩, ?_, ?_⟩
  · simp [move_assign, hne, hab, Function.update, reset_isSentinel]
  · intro hs
    obtain ⟨-, -, hp, hd, -⟩ := hs
    simp [move_assign, move_ctor, hne, hab, Function.update, hp, hd]

/-- Witness for C7: an owning string tensor at address 1 moved into address 0, and a
sentinel moved again. -/
theorem move_transfers_and_resets_witness :
    ((move_assign (fun _ => ⟨some 7, some 1, ⟨[3]⟩, MLDataType.string, ⟨0⟩, 8⟩) 0 1).state 0).p_data_
        = some 7 ∧
    IsSentinel ((move_assign (fun _ => ⟨some 7, some 1, ⟨[3]⟩, MLDataType.string, ⟨0⟩, 8⟩) 0 1).state 1) ∧
    ((move_assign (fun _ => ⟨none, none, ⟨[0]⟩, MLDataType.float, ⟨0⟩, 0⟩) 0 1).state 0).buffer_deleter_
        = none :=
  ⟨(move_transfers_and_resets (fun _ => ⟨some 7, some 1, ⟨[3]⟩, MLDataType.string, ⟨0⟩, 8⟩)
      0 1 (by decide)).2.1.2.2.2.1,
   (move_transfers_and_resets (fun _ => ⟨some 7, some 1, ⟨[3]⟩, MLDataType.string, ⟨0⟩, 8⟩)
      0 1 (by decide)).2.1.2.2.2.2.2.2.2,
   ((move_transfers_and_resets (fun _ => ⟨none, none, ⟨[0]⟩, MLDataType.float, ⟨0⟩, 0⟩)
      0 1 (by decide)).2.2 ⟨rfl, rfl, rfl, rfl, rfl⟩).2.2.2⟩

/-- C8: `ReleaseBuffer`, which is all the destructor runs, performs nothing for a tensor
without owning capability; exactly one `Free(p)` for an owning tensor whose element type is
not string; and for an owning string tensor the `n` element destructions at slots
`0 .. n-1` in increasing order followed by exactly one `Free(p)`. -/
theorem release_trace (t : Tensor) (p : BufferNakedPtr) (n : Nat)
    (hp : t.p_data_ = p) (hn : t.shape_.Size = (n : Int)) :
    dtor t = ReleaseBuffer t ∧
    (t.buffer_deleter_ = none → ReleaseBuffer t = []) ∧
    (∀ d, t.buffer_deleter_ = some d → t.dtype_ ≠ MLDataType.string →
      ReleaseBuffer t = [Effect.Free d p]) ∧
    (∀ d, t.buffer_deleter_ = some d → t.dtype_ = MLDataType.string →
      ReleaseBuffer t =
        (List.range n).map (fun i => Effect.destroy_string p i) ++ [Effect.Free d p]) := by
  subst hp
  refine ⟨rfl, ?_, ?_, ?_⟩
  · intro h
    simp [ReleaseBuffer, h]
  · intro d h hne
    simp [ReleaseBuffer, h, hne]
  · intro d h hs
    simp [ReleaseBuffer, h, hs, hn]

/-- Witness for C8: size 3; one `Free` for a float tensor, three destructions then one
`Free` for a string tensor. -/
theorem release_trace_witness :
    ReleaseBuffer ⟨some 7, some 1, ⟨[3]⟩, MLDataType.float, ⟨0⟩, 0⟩ = [Effect.Free 1 (some 7)] ∧
    ReleaseBuffer ⟨some 7, some 1, ⟨[3]⟩, MLDataType.string, ⟨0⟩, 0⟩ =
      [Effect.destroy_string (some 7) 0, Effect.destroy_string (some 7) 1,
       Effect.destroy_string (some 7) 2, Effect.Free 1 (some 7)] :=
  ⟨(release_trace ⟨some 7, some 1, ⟨[3]⟩, MLDataType.float, ⟨0⟩, 0⟩ (some 7) 3 rfl
      (by decide)).2.2.1 1 rfl (by decide),
   (release_trace ⟨some 7, some 1, ⟨[3]⟩, MLDataType.string, ⟨0⟩, 0⟩ (some 7) 3 rfl
      (by decide)).2.2.2 1 rfl rfl⟩

/-- C9: `d.ShallowCopy(s)` throws exactly when `s` holds an owning capability; when it
returns, the element type, shape, location, data address and byte offset of `d` are those
of `s`, `d` holds no owning capability and `s` is unchanged; when it throws, no tensor has
changed. -/
theorem shallow_copy_contract (st : Store) (d s : Nat) :
    ((ShallowCopy st d s).threw = true ↔ (st s).buffer_deleter_ ≠ none) ∧
    ((ShallowCopy st d s).threw = false →
      ((ShallowCopy st d s).state d).dtype_ = (st s).dtype_ ∧
      ((ShallowCopy st d s).state d).shape_ = (st s).shape_ ∧
      ((ShallowCopy st d s).state d).alloc_info_ = (st s).alloc_info_ ∧
      ((ShallowCopy st d s).state d).p_data_ = (st s).p_data_ ∧
      ((ShallowCopy st d s).state d).byte_offset_ = (st s).byte_offset_ ∧
      ((ShallowCopy st d s).state d).buffer_deleter_ = none ∧
      (ShallowCopy st d s).state s = st s) ∧
    ((ShallowCopy st d s).threw = true → (ShallowCopy st d s).state = st) := by
  by_cases ho : (st s).buffer_deleter_ = none
  · by_cases hds : d = s
    · subst hds
      simp [ShallowCopy, ho]
    · have hsd : s ≠ d := fun h => hds h.symm
      simp [ShallowCopy, ho, hds, hsd, Function.update]
  · simp [ShallowCopy, ho]

/-- C10: for a non-null element type the constructor throws exactly when
`shape.Size() < 0`; then no tensor is constructed and the effect trace is empty, whatever
allocator and element type were supplied. -/
theorem ctor_rejects_negative_size (p_type : MLDataType) (shape : TensorShape)
    (p_data : BufferNakedPtr) (alloc : OrtAllocatorInfo) (deleter : AllocatorPtr)
    (offset : Int) (hnn : p_type ≠ MLDataType.nullptr) :
    ((ctor p_type shape p_data alloc deleter offset).threw = true ↔ shape.Size < 0) ∧
    ((ctor p_type shape p_data alloc deleter offset).threw = true →
      (ctor p_type shape p_data alloc deleter offset).state = none ∧
      (ctor p_type shape p_data alloc deleter offset).trace = []) ∧
    ((ctor p_type shape p_data alloc deleter offset).threw = false →
      ∃ t, (ctor p_type shape p_data alloc deleter offset).state = some t) := by
  by_cases hs : shape.Size < 0
  · simp [ctor, Init, hnn, hs]
  · simp [ctor, Init, hnn, hs]

/-- Witness for C10: an owning string tensor of shape `[2, -3]` is rejected with an empty
trace. -/
theorem ctor_rejects_negative_size_witness :
    (ctor MLDataType.string ⟨[2, -3]⟩ (some 7) ⟨0⟩ (some 1) 0).threw = true ∧
    (ctor MLDataType.string ⟨[2, -3]⟩ (some 7) ⟨0⟩ (some 1) 0).state = none ∧
    (ctor MLDataType.string ⟨[2, -3]⟩ (some 7) ⟨0⟩ (some 1) 0).trace = [] :=
  ⟨(ctor_rejects_negative_size MLDataType.string ⟨[2, -3]⟩ (some 7) ⟨0⟩ (some 1) 0
      (by decide)).1.mpr (by decide),
   (ctor_rejects_negative_size MLDataType.string ⟨[2, -3]⟩ (some 7) ⟨0⟩ (some 1) 0
      (by decide)).2.1 (by decide)⟩

end Tensor
end onnxruntime

namespace LotusIR
namespace Utils
namespace OpUtils

/-! ## Scalar convention -/

/-- C2: a tensor type whose shape is the single dimension of value 0 serializes to the
bare element name and every other shape to `tensor(<name>)`; parsing the bare name yields
the tensor type with shape `[0]`, parsing `tensor(<name>)` yields the tensor type without
dimensions. -/
theorem scalar_convention (e : DataType) (shape : List Dimension) :
    ToString (.tensor_type e [⟨0⟩]) = some (ToString_DataType e) ∧
    ((∀ d, shape = [d] → d.dim_value ≠ 0) →
      ToString (.tensor_type e shape)
        = some ("tensor(".toList ++ ToString_DataType e ++ ")".toList)) ∧
    FromString (ToString_DataType e) = some (.tensor_type e [⟨0⟩]) ∧
    FromString ("tensor(".toList ++ ToString_DataType e ++ ")".toList)
      = some (.tensor_type e []) := by
  refine ⟨by simp [ToString], ?_, by cases e <;> rfl, by cases e <;> rfl⟩
  intro h
  match shape, h with
  | [], _ => simp [ToString]
  | [d], h => simp [ToString, h d rfl]
  | _ :: _ :: _, _ => simp [ToString]

/-! ## Registry -/

theorem find_cons (key k : List Char) (p : TypeProto) (rest : TypeStrToProtoMap) :
    find key ((k, p) :: rest) =
      if k = key then some 0 else (find key rest).map (fun i => i + 1) := rfl

theorem find_append_of_some (key : List Char) (m m1 : TypeStrToProtoMap) (i : Nat)
    (h : find key m = some i) : find key (m ++ m1) = some i := by
  induction m generalizing i with
  | nil => simp [find] at h
  | cons x m ih =>
    obtain ⟨k, p⟩ := x
    rw [List.cons_append, find_cons]
    rw [find_cons] at h
    by_cases hk : k = key
    · rw [if_pos hk] at h ⊢
      exact h
    · rw [if_neg hk] at h ⊢
      cases hf : find key m with
      | none => rw [hf] at h; simp at h
      | some j =>
        rw [hf] at h
        rw [ih j hf]
        exact h

theorem find_append_of_none (key : List Char) (m m1 : TypeStrToProtoMap)
    (h : find key m = none) :
    find key (m ++ m1) = (find key m1).map (fun i => i + m.length) := by
  induction m with
  | nil => simp
  | cons x m ih =>
    obtain ⟨k, p⟩ := x
    rw [List.cons_append, find_cons]
    rw [find_cons] at h
    by_cases hk : k = key
    · rw [if_pos hk] at h
      cases h
    · rw [if_neg hk] at h ⊢
      cases hf : find key m with
      | some j => rw [hf] at h; simp at h
      | none =>
        rw [ih hf]
        cases find key m1 with
        | none => rfl
        | some j => simp [Nat.add_assoc]

theorem find_key (key : List Char) (m : TypeStrToProtoMap) (i : Nat)
    (h : find key m = some i) : ∃ p, m.get? i = some (key, p) := by
  induction m generalizing i with
  | nil => simp [find] at h
  | cons x m ih =>
    obtain ⟨k, p⟩ := x
    rw [find_cons] at h
    by_cases hk : k = key
    · rw [if_pos hk] at h
      cases h
      exact ⟨p, by rw [hk]; rfl⟩
    · rw [if_neg hk] at h
      cases hf : find key m with
      | none => rw [hf] at h; simp at h
      | some j =>
        rw [hf] at h
        cases h
        obtain ⟨q, hq⟩ := ih j hf
        exact ⟨q, by rw [List.get?_cons_succ]; exact hq⟩

theorem find_of_find_append (key : List Char) (m m1 : TypeStrToProtoMap) (i : Nat)
    (h : find key m = some i) : find key (m ++ m1) = some i :=
  find_append_of_some key m m1 i h

theorem ToType_eq (m : TypeStrToProtoMap) (p : TypeProto) (typeStr : List Char)
    (hs : ToString p = some typeStr) :
    ∃ h m1 ext, ToType m p = some (h, m1) ∧ m1 = m ++ ext ∧ find typeStr m1 = some h := by
  unfold ToType
  rw [hs]
  cases hf : find typeStr m with
  | none =>
    have hnew : find typeStr (m ++ [(typeStr, p)]) = some m.length := by
      rw [find_append_of_none _ _ _ hf, find_cons, if_pos rfl]
      simp
    refine ⟨m.length, m ++ [(typeStr, p)], [(typeStr, p)], ?_, rfl, hnew⟩
    simp only [hf, if_true, hnew, Option.map_some']
  | some i =>
    exact ⟨i, m, [], by simp [hf], by simp, hf⟩

theorem ToType_some (m m1 : TypeStrToProtoMap) (p : TypeProto) (h : PTYPE)
    (hr : ToType m p = some (h, m1)) :
    ∃ typeStr ext, ToString p = some typeStr ∧ m1 = m ++ ext ∧ find typeStr m1 = some h := by
  cases hs : ToString p with
  | none => simp [ToType, hs] at hr
  | some typeStr =>
    obtain ⟨h1, m2, ext, he, hm, hf⟩ := ToType_eq m p typeStr hs
    rw [he] at hr
    cases hr
    exact ⟨typeStr, ext, rfl, hm, hf⟩

theorem Call.run_extends (m m1 : TypeStrToProtoMap) (c : Call) (h : c.run m = some m1) :
    ∃ ext, m1 = m ++ ext := by
  cases c with
  | proto p =>
    simp only [Call.run, Option.map_eq_some'] at h
    obtain ⟨⟨h1, m2⟩, hr, rfl⟩ := h
    obtain ⟨_, ext, _, hm, _⟩ := ToType_some m m2 p h1 hr
    exact ⟨ext, hm⟩
  | str s =>
    simp only [Call.run, Option.map_eq_some', ToType_string] at h
    obtain ⟨⟨h1, m2⟩, hr, rfl⟩ := h
    cases hp : FromString s with
    | none => simp [hp] at hr
    | some p =>
      rw [hp] at hr
      obtain ⟨_, ext, _, hm, _⟩ := ToType_some m m2 p h1 hr
      exact ⟨ext, hm⟩

theorem runCalls_extends (calls : List Call) (m m1 : TypeStrToProtoMap)
    (h : runCalls m calls = some m1) : ∃ ext, m1 = m ++ ext := by
  induction calls generalizing m with
  | nil =>
    simp only [runCalls, Option.some.injEq] at h
    exact ⟨[], by simp [h]⟩
  | cons c cs ih =>
    simp only [runCalls] at h
    cases hc : c.run m with
    | none => simp [hc] at h
    | some m2 =>
      rw [hc] at h
      obtain ⟨e1, rfl⟩ := Call.run_extends m m2 c hc
      obtain ⟨e2, rfl⟩ := ih _ h
      exact ⟨e1 ++ e2, by simp⟩

/-- C3: in every reachable registry state, for descriptors `a` and `b` on which `ToString`
succeeds, `ToType(a)` returns a handle, and after any further calls of `ToType` that
return, `ToType(b)` returns a handle that equals the handle of `a` if and only if
`ToString(a) == ToString(b)`. -/
theorem handles_equal_iff_strings_equal (m0 : TypeStrToProtoMap) (_hreach : Reachable m0)
    (a b : TypeProto) (ha : (ToString a).isSome) (hb : (ToString b).isSome) :
    ∃ h_a m1, ToType m0 a = some (h_a, m1) ∧
      ∀ calls m2, runCalls m1 calls = some m2 →
        ∃ h_b m3, ToType m2 b = some (h_b, m3) ∧ (h_a = h_b ↔ ToString a = ToString b) := by
  obtain ⟨sa, hsa⟩ := Option.isSome_iff_exists.mp ha
  obtain ⟨sb, hsb⟩ := Option.isSome_iff_exists.mp hb
  obtain ⟨h_a, m1, e1, hta, rfl, hfa⟩ := ToType_eq m0 a sa hsa
  refine ⟨h_a, _, hta, ?_⟩
  intro calls m2 hrun
  obtain ⟨e2, rfl⟩ := runCalls_extends calls _ m2 hrun
  obtain ⟨h_b, m3, e3, htb, rfl, hfb⟩ := ToType_eq (m0 ++ e1 ++ e2) b sb hsb
  refine ⟨h_b, _, htb, ?_⟩
  have hfa3 : find sa (m0 ++ e1 ++ e2 ++ e3) = some h_a := by
    rw [List.append_assoc (m0 ++ e1)]
    exact find_of_find_append sa _ _ h_a hfa
  rw [hsa, hsb]
  constructor
  · intro hab
    subst hab
    obtain ⟨pa, ka⟩ := find_key sa _ h_a hfa3
    obtain ⟨pb, kb⟩ := find_key sb _ h_a hfb
    rw [ka] at kb
    simp only [Option.some.injEq, Prod.mk.injEq] at kb
    rw [kb.1]
  · intro hab
    simp only [Option.some.injEq] at hab
    subst hab
    rw [hfa3] at hfb
    exact Option.some.inj hfb

/-- Witness for C3 in the empty registry: `tensor(float)` given with two different shapes
yields one handle, and the scalar `float` a different one. -/
theorem handles_equal_iff_strings_equal_witness :
    (∃ h_a m1, ToType [] (.tensor_type .FLOAT []) = some (h_a, m1) ∧
      ∀ calls m2, runCalls m1 calls = some m2 →
        ∃ h_b m3, ToType m2 (.tensor_type .FLOAT [⟨2⟩, ⟨3⟩]) = some (h_b, m3) ∧
          (h_a = h_b ↔
            ToString (.tensor_type .FLOAT []) = ToString (.tensor_type .FLOAT [⟨2⟩, ⟨3⟩]))) ∧
    (∃ h_a m1, ToType [] (.tensor_type .FLOAT []) = some (h_a, m1) ∧
      ∀ calls m2, runCalls m1 calls = some m2 →
        ∃ h_b m3, ToType m2 (.tensor_type .FLOAT [⟨0⟩]) = some (h_b, m3) ∧
          (h_a = h_b ↔
            ToString (.tensor_type .FLOAT []) = ToString (.tensor_type .FLOAT [⟨0⟩]))) :=
  ⟨handles_equal_iff_strings_equal [] ⟨[], rfl⟩ _ _ (by decide) (by decide),
   handles_equal_iff_strings_equal [] ⟨[], rfl⟩ _ _ (by decide) (by decide)⟩

end OpUtils
end Utils
end LotusIR

namespace LotusIR
namespace Utils

/-! ## Cursor lemmas -/

theorem drop_length_takeWhile (p : Char → Bool) (l : List Char) :
    l.drop (l.takeWhile p).length = l.dropWhile p := by
  induction l with
  | nil => rfl
  | cons a l ih =>
    by_cases h : p a
    · simp [List.takeWhile, List.dropWhile, h, ih]
    · simp [List.takeWhile, List.dropWhile, h]

theorem length_takeWhile_le_length (p : Char → Bool) (l : List Char) :
    (l.takeWhile p).length ≤ l.length := by
  induction l with
  | nil => simp
  | cons a l ih =>
    by_cases h : p a
    · simp [List.takeWhile, h, ih]
    · simp [List.takeWhile, h]

theorem take_length_takeWhile (p : Char → Bool) (l : List Char) :
    l.take (l.takeWhile p).length = l.takeWhile p := by
  induction l with
  | nil => rfl
  | cons a l ih =>
    by_cases h : p a
    · simp [List.takeWhile, h, ih]
    · simp [List.takeWhile, h]

theorem take_length_sub_reverse_takeWhile (p : Char → Bool) (l : List Char) :
    l.take (l.length - (l.reverse.takeWhile p).length) = l.rdropWhile p := by
  have h1 : l.reverse.takeWhile p ++ l.reverse.dropWhile p = l.reverse :=
    List.takeWhile_append_dropWhile p l.reverse
  have h2 : l = (l.reverse.dropWhile p).reverse ++ (l.reverse.takeWhile p).reverse := by
    have := congrArg List.reverse h1
    rw [List.reverse_append, List.reverse_reverse] at this
    exact this.symm
  have h3 : l.length - (l.reverse.takeWhile p).length = ((l.reverse.dropWhile p).reverse).length := by
    have := congrArg List.length h1
    simp only [List.length_append, List.length_reverse] at this ⊢
    omega
  rw [h3, List.rdropWhile]
  conv_lhs => rw [h2]
  simp

namespace StringRange

theorem LStrip_data (s : StringRange) : s.LStrip.2.m_data = s.m_data.dropWhile isspace := by
  unfold LStrip LStrip_n
  by_cases h : (s.m_data.takeWhile isspace).length > 0
  · have hle : (s.m_data.takeWhile isspace).length ≤ s.Size := length_takeWhile_le_length _ _
    simp only [h, if_true, hle, drop_length_takeWhile]
  · simp only [h, if_false]
    have : s.m_data.takeWhile isspace = [] := List.length_eq_zero.mp (by omega)
    have h2 := List.takeWhile_append_dropWhile isspace s.m_data
    rw [this] at h2
    simpa using h2.symm

theorem LStrip_capture (s : StringRange) :
    s.LStrip.2.m_capture = s.m_capture ++ s.m_data.takeWhile isspace := by
  unfold LStrip LStrip_n
  by_cases h : (s.m_data.takeWhile isspace).length > 0
  · have hle : (s.m_data.takeWhile isspace).length ≤ s.Size := length_takeWhile_le_length _ _
    simp only [h, if_true, hle, take_length_takeWhile]
  · simp only [h, if_false]
    have : s.m_data.takeWhile isspace = [] := List.length_eq_zero.mp (by omega)
    simp [this]

theorem RStrip_data (s : StringRange) : s.RStrip.2.m_data = s.m_data.rdropWhile isspace := by
  unfold RStrip RStrip_n
  by_cases h : (s.m_data.reverse.takeWhile isspace).length > 0
  · have hle : (s.m_data.reverse.takeWhile isspace).length ≤ s.Size := by
      have := length_takeWhile_le_length isspace s.m_data.reverse
      simpa [Size] using this
    simp only [h, if_true, ge_iff_le, hle]
    exact take_length_sub_reverse_takeWhile isspace s.m_data
  · simp only [h, if_false]
    have h0 : (s.m_data.reverse.takeWhile isspace).length = 0 := by omega
    have := take_length_sub_reverse_takeWhile isspace s.m_data
    rw [h0] at this
    simpa using this

theorem RStrip_capture (s : StringRange) : s.RStrip.2.m_capture = s.m_capture := by
  unfold RStrip RStrip_n
  by_cases h : (s.m_data.reverse.takeWhile isspace).length > 0
  · have hle : (s.m_data.reverse.takeWhile isspace).length ≤ s.Size := by
      have := length_takeWhile_le_length isspace s.m_data.reverse
      simpa [Size] using this
    simp only [h, if_true, ge_iff_le, hle]
  · simp only [h, if_false]

theorem ofString_data (l : List Char) : (ofString l).m_data = trim l := by
  simp [ofString, LAndRStrip, RStrip_data, LStrip_data, trim]

theorem ofString_capture (l : List Char) : (ofString l).m_capture = l.takeWhile isspace := by
  simp [ofString, LAndRStrip, RStrip_capture, LStrip_capture]

theorem GetCaptured_data (s : StringRange) : s.GetCaptured.Data = trim s.m_capture := by
  simp [GetCaptured, ofData, Data, ofString_data]

end StringRange
end Utils
end LotusIR

namespace LotusIR
namespace Utils

/-! ## The scan of `SplitRecords` -/

namespace StringRange

theorem ofString_char (x : Char) (hx : isspace x = false) : ofString [x] = ⟨[x], []⟩ := by
  have h1 : (ofString [x]).m_data = [x] := by
    rw [ofString_data]
    simp [trim, List.dropWhile, List.rdropWhile, hx]
  have h2 : (ofString [x]).m_capture = [] := by
    rw [ofString_capture]
    simp [List.takeWhile, hx]
  cases h : ofString [x] with
  | mk a b =>
    rw [h] at h1 h2
    simp only at h1 h2
    rw [h1, h2]

theorem StartsWith_char (x c : Char) (cs cap : List Char) (hx : isspace x = false) :
    StartsWith ⟨c :: cs, cap⟩ (ofString [x]) = decide (c = x) := by
  rw [ofString_char x hx]
  by_cases h : c = x <;> simp [StartsWith, Size, h]

theorem LStrip_str_char (x c : Char) (cs cap : List Char) (hx : isspace x = false) :
    LStrip_str ⟨c :: cs, cap⟩ (ofString [x]) =
      if c = x then (true, ⟨cs, cap ++ [c]⟩) else (false, ⟨c :: cs, cap⟩) := by
  unfold LStrip_str
  rw [StartsWith_char x c cs cap hx]
  by_cases h : c = x
  · simp [h, ofString_char x hx, LStrip_n, Size]
  · simp [h]

theorem LStrip_n_one (c : Char) (cs cap : List Char) :
    LStrip_n ⟨c :: cs, cap⟩ 1 = (true, ⟨cs, cap ++ [c]⟩) := by
  simp [LStrip_n, Size]

end StringRange

open StringRange in
theorem SplitRecordsLoop_cons (fuel : Nat) (c : Char) (cs cap : List Char) (d : Int)
    (recs : List StringRange) :
    OpUtils.SplitRecordsLoop (fuel + 1) ⟨c :: cs, cap⟩ d recs =
      if c = ',' then
        if d = 0 then
          OpUtils.SplitRecordsLoop fuel ⟨cs, []⟩ d (recs ++ [GetCaptured ⟨c :: cs, cap⟩])
        else OpUtils.SplitRecordsLoop fuel ⟨cs, cap ++ [c]⟩ d recs
      else if c = '(' then OpUtils.SplitRecordsLoop fuel ⟨cs, cap ++ [c]⟩ (d + 1) recs
      else if c = ')' then OpUtils.SplitRecordsLoop fuel ⟨cs, cap ++ [c]⟩ (d - 1) recs
      else OpUtils.SplitRecordsLoop fuel ⟨cs, cap ++ [c]⟩ d recs := by
  have e1 : ",".toList = [','] := rfl
  have e2 : "(".toList = ['('] := rfl
  have e3 : ")".toList = [')'] := rfl
  have s1 : isspace ',' = false := by decide
  have s2 : isspace '(' = false := by decide
  have s3 : isspace ')' = false := by decide
  rw [OpUtils.SplitRecordsLoop]
  simp only [e1, e2, e3, StartsWith_char _ _ _ _ s1, LStrip_str_char _ _ _ _ s1,
    LStrip_str_char _ _ _ _ s2, LStrip_str_char _ _ _ _ s3, LStrip_n_one]
  have hsz : StringRange.Size ⟨c :: cs, cap⟩ > 0 := by simp [StringRange.Size]
  simp only [hsz, if_true]
  by_cases h1 : c = ','
  · by_cases hd : d = 0
    · simp [h1, hd, RestartCapture]
    · simp [h1, hd]
  · by_cases h2 : c = '('
    · simp [h1, h2]
    · by_cases h3 : c = ')'
      · simp [h1, h2, h3]
      · simp [h1, h2, h3]

open StringRange in
theorem SplitRecordsLoop_spec (fuel : Nat) (s : StringRange) (d : Int)
    (recs : List StringRange) (hfuel : s.Size ≤ fuel) :
    (OpUtils.SplitRecordsLoop fuel s d recs).1.m_data = [] ∧
    ∃ new, (OpUtils.SplitRecordsLoop fuel s d recs).2.2 = recs ++ new ∧
      (new ++ [(OpUtils.SplitRecordsLoop fuel s d recs).1.GetCaptured]).map Data
        = splitAcc s.m_data s.m_capture d := by
  induction fuel generalizing s d recs with
  | zero =>
    have h0 : s.m_data = [] := List.length_eq_zero.mp (by simpa [Size] using hfuel)
    refine ⟨by simpa [OpUtils.SplitRecordsLoop] using h0, [], by simp [OpUtils.SplitRecordsLoop], ?_⟩
    simp [OpUtils.SplitRecordsLoop, h0, splitAcc, GetCaptured_data]
  | succ fuel ih =>
    obtain ⟨data, cap⟩ := s
    cases data with
    | nil =>
      refine ⟨by simp [OpUtils.SplitRecordsLoop, Size], [],
        by simp [OpUtils.SplitRecordsLoop, Size], ?_⟩
      simp [OpUtils.SplitRecordsLoop, Size, splitAcc, GetCaptured_data]
    | cons c cs =>
      have hcs : cs.length ≤ fuel := by simpa [Size] using hfuel
      rw [SplitRecordsLoop_cons]
      simp only [splitAcc]
      by_cases h1 : c = ','
      · by_cases hd : d = 0
        · simp only [h1, hd, if_true]
          obtain ⟨hA, new, hB, hC⟩ := ih ⟨cs, []⟩ 0 (recs ++ [GetCaptured ⟨',' :: cs, cap⟩]) hcs
          refine ⟨hA, GetCaptured ⟨',' :: cs, cap⟩ :: new, by simp [hB], ?_⟩
          simp only [List.cons_append, List.map_cons, hC, GetCaptured_data]
        · simp only [h1, hd, if_true, if_false]
          exact ih ⟨cs, cap ++ [',']⟩ d recs hcs
      · by_cases h2 : c = '('
        · simp only [h1, h2, if_true, if_false]
          have := ih ⟨cs, cap ++ ['(']⟩ (d + 1) recs hcs
          simpa [h2] using this
        · by_cases h3 : c = ')'
          · simp only [h1, h2, h3, if_true, if_false]
            have := ih ⟨cs, cap ++ [')']⟩ (d - 1) recs hcs
            simpa [h3] using this
          · simp only [h1, h2, h3, if_false]
            exact ih ⟨cs, cap ++ [c]⟩ d recs hcs

open StringRange in
theorem SplitRecords_eq_splitAcc (p_src : StringRange) (p_records : List StringRange) :
    (OpUtils.SplitRecords p_src p_records).1.m_data = [] ∧
    ∃ new, (OpUtils.SplitRecords p_src p_records).2 = p_records ++ new ∧
      new.map Data = splitAcc p_src.m_data [] 0 := by
  obtain ⟨hA, new, hB, hC⟩ :=
    SplitRecordsLoop_spec p_src.RestartCapture.Size p_src.RestartCapture 0 p_records (le_refl _)
  refine ⟨hA, new ++ [(OpUtils.SplitRecordsLoop p_src.RestartCapture.Size
    p_src.RestartCapture 0 p_records).1.GetCaptured], ?_, ?_⟩
  · simp [OpUtils.SplitRecords, hB]
  · simpa [RestartCapture] using hC

end Utils
end LotusIR

namespace LotusIR
namespace Utils

/-! ## The scan agrees with the specification of the fields -/

theorem depthAt_append_length (pre rest : List Char) :
    depthAt (pre ++ rest) pre.length = (pre.count '(' : Int) - (pre.count ')' : Int) := by
  simp [depthAt]

theorem depthAt_append_succ (pre : List Char) (c : Char) (cs : List Char) :
    depthAt (pre ++ c :: cs) (pre.length + 1) =
      depthAt (pre ++ c :: cs) pre.length +
        (if c = '(' then 1 else if c = ')' then -1 else 0) := by
  have h : pre ++ c :: cs = (pre ++ [c]) ++ cs := by simp
  have hl : pre.length + 1 = (pre ++ [c]).length := by simp
  rw [depthAt_append_length]
  rw [h, hl, depthAt_append_length]
  by_cases h1 : c = '('
  · subst h1
    simp [List.count_append]
    ring
  · by_cases h2 : c = ')'
    · subst h2
      simp [List.count_append]
      ring
    · have n1 : ¬ ('(' = c) := fun e => h1 e.symm
      have n2 : ¬ (')' = c) := fun e => h2 e.symm
      simp [List.count_append, h1, h2, List.count_cons, n1, n2]

theorem isTopComma_append (pre : List Char) (c : Char) (cs : List Char) :
    isTopComma (pre ++ c :: cs) pre.length =
      (decide (c = ',') && decide (depthAt (pre ++ c :: cs) pre.length = 0)) := by
  have hget : (pre ++ c :: cs).get? pre.length = some c := by
    rw [List.get?_eq_getElem?, List.getElem?_append_right (le_refl _)]
    simp
  have hbeq : (depthAt (pre ++ c :: cs) pre.length == 0)
      = decide (depthAt (pre ++ c :: cs) pre.length = 0) := rfl
  rw [isTopComma, hget, hbeq]
  by_cases h : c = ',' <;> simp [h]

theorem slices_length (body : List Char) (cuts : List Nat) :
    ∀ start, (slices body start cuts).length = cuts.length + 1 := by
  induction cuts with
  | nil => intro start; simp [slices]
  | cons c cs ih => intro start; simp [slices, ih]

theorem splitAcc_eq_slices (rest : List Char) :
    ∀ (pre : List Char) (start : Nat), start ≤ pre.length →
      splitAcc rest (pre.drop start) (depthAt (pre ++ rest) pre.length) =
        slices (pre ++ rest) start
          ((List.range' pre.length rest.length).filter (isTopComma (pre ++ rest))) := by
  induction rest with
  | nil =>
    intro pre start _
    simp [splitAcc, slices]
  | cons c cs ih =>
    intro pre start hs
    have hbody : pre ++ c :: cs = (pre ++ [c]) ++ cs := by simp
    have hlen : (pre ++ [c]).length = pre.length + 1 := by simp
    have hdrop : (pre ++ [c]).drop start = pre.drop start ++ [c] := by
      rw [List.drop_append_of_le_length hs]
    have hstep := depthAt_append_succ pre c cs
    have ih1 := ih (pre ++ [c]) start (by rw [hlen]; omega)
    have ih2 := ih (pre ++ [c]) (pre.length + 1) (by rw [hlen])
    rw [← hbody, hlen, hdrop] at ih1
    rw [← hbody, hlen] at ih2
    have hdrop2 : (pre ++ [c]).drop (pre.length + 1) = [] := by
      rw [← hlen]; exact List.drop_length _
    rw [hdrop2] at ih2
    rw [List.length_cons, List.range'_succ, List.filter_cons, isTopComma_append]
    simp only [splitAcc]
    by_cases h1 : c = ','
    · subst h1
      have n1 : ¬ (',' = '(') := by decide
      have n2 : ¬ (',' = ')') := by decide
      rw [if_neg n1, if_neg n2, add_zero] at hstep
      rw [hstep] at ih1 ih2
      by_cases hd : depthAt (pre ++ ',' :: cs) pre.length = 0
      · simp only [hd, if_true, decide_True, Bool.and_self, slices]
        rw [hd] at ih2
        rw [ih2]
        simp
      · simp only [hd, if_true, if_false, decide_True, decide_False, Bool.and_false]
        exact ih1
    · simp only [h1, if_false, decide_False, Bool.false_and]
      by_cases h2 : c = '('
      · subst h2
        rw [if_pos rfl] at hstep
        rw [hstep] at ih1
        simp only [if_true]
        exact ih1
      · by_cases h3 : c = ')'
        · subst h3
          rw [if_neg h2, if_pos rfl] at hstep
          rw [hstep] at ih1
          have e : ∀ x : Int, x + -1 = x - 1 := fun x => by ring
          rw [e] at ih1
          simp only [h2, if_true, if_false]
          exact ih1
        · rw [if_neg h2, if_neg h3, add_zero] at hstep
          rw [hstep] at ih1
          simp only [h2, h3, if_false]
          exact ih1

theorem splitAcc_eq_specFields (body : List Char) : splitAcc body [] 0 = specFields body := by
  have h := splitAcc_eq_slices body [] 0 (le_refl _)
  simp only [List.drop_nil, List.nil_append, List.length_nil] at h
  have hd : depthAt body 0 = 0 := by simp [depthAt]
  rw [hd] at h
  rw [h, specFields, topCommas, List.range_eq_range']

namespace OpUtils

/-- C4: `SplitRecords` leaves the records already in the vector in place and appends the
fields of the body: it cuts exactly at the commas at parenthesis depth 0, so it appends
`k + 1` fields for `k` such commas, each the whitespace-trimmed text between consecutive
cuts; the source cursor is left empty. The body `a:map(string,int32),b:float` yields the
two fields `a:map(string,int32)` and `b:float`. -/
theorem SplitRecords_splits_at_top_commas (p_src : StringRange)
    (p_records : List StringRange) :
    ∃ new, (SplitRecords p_src p_records).2 = p_records ++ new ∧
      new.map StringRange.Data = specFields p_src.Data ∧
      new.length = (topCommas p_src.Data).length + 1 ∧
      (SplitRecords p_src p_records).1.Size = 0 ∧
      (SplitRecords (StringRange.ofString "a:map(string,int32),b:float".toList) []).2.map
          StringRange.Data
        = ["a:map(string,int32)".toList, "b:float".toList] := by
  obtain ⟨hA, new, hB, hC⟩ := SplitRecords_eq_splitAcc p_src p_records
  refine ⟨new, hB, ?_, ?_, by simp [StringRange.Size, hA], by decide⟩
  · rw [hC, splitAcc_eq_specFields]
    rfl
  · have hl : new.length = (new.map StringRange.Data).length := by simp
    rw [hl, hC, splitAcc_eq_specFields, specFields, slices_length]
    rfl

end OpUtils
end Utils
end LotusIR

namespace LotusIR
namespace Utils

/-! ## Trimmed text and strips that do nothing -/

theorem dropWhile_of_head (l : List Char)
    (h : ∀ c, l.head? = some c → isspace c = false) : l.dropWhile isspace = l := by
  cases l with
  | nil => rfl
  | cons a l =>
    have := h a rfl
    simp [List.dropWhile, this]

theorem takeWhile_of_head (l : List Char)
    (h : ∀ c, l.head? = some c → isspace c = false) : l.takeWhile isspace = [] := by
  cases l with
  | nil => rfl
  | cons a l =>
    have := h a rfl
    simp [List.takeWhile, this]

theorem rdropWhile_of_last (l : List Char)
    (h : ∀ c, l.getLast? = some c → isspace c = false) : l.rdropWhile isspace = l := by
  rw [List.rdropWhile_eq_self_iff]
  intro hl
  have := h (l.getLast hl) (List.getLast?_eq_getLast l hl)
  simp [this]

theorem reverse_takeWhile_of_last (l : List Char)
    (h : ∀ c, l.getLast? = some c → isspace c = false) :
    l.reverse.takeWhile isspace = [] := by
  apply takeWhile_of_head
  intro c hc
  apply h c
  rw [List.head?_reverse] at hc
  exact hc

theorem trim_of_Trimmed (l : List Char) (h : Trimmed l) : trim l = l := by
  rw [trim, dropWhile_of_head l h.1, rdropWhile_of_last l h.2]

theorem Trimmed_cons_concat (a b : Char) (l : List Char) (ha : isspace a = false)
    (hb : isspace b = false) : Trimmed (a :: (l ++ [b])) := by
  constructor
  · intro c hc
    simp only [List.head?_cons, Option.some.injEq] at hc
    rw [← hc]; exact ha
  · intro c hc
    have : (a :: (l ++ [b])) = (a :: l) ++ [b] := by simp
    rw [this, List.getLast?_concat] at hc
    cases hc
    exact hb

namespace StringRange

theorem LStrip_noop (s : StringRange)
    (h : ∀ c, s.m_data.head? = some c → isspace c = false) : s.LStrip = (false, s) := by
  simp [LStrip, takeWhile_of_head s.m_data h]

theorem RStrip_noop (s : StringRange)
    (h : ∀ c, s.m_data.getLast? = some c → isspace c = false) : s.RStrip = (false, s) := by
  simp [RStrip, reverse_takeWhile_of_last s.m_data h]

theorem ofString_of_Trimmed (l : List Char) (h : Trimmed l) : ofString l = ⟨l, []⟩ := by
  unfold ofString LAndRStrip
  rw [LStrip_noop _ h.1]
  simp only
  rw [RStrip_noop _ h.2]

theorem StartsWith_eq (s p_str : StringRange) :
    s.StartsWith p_str = p_str.m_data.isPrefixOf s.m_data := by
  rw [Bool.eq_iff_iff, List.isPrefixOf_iff_prefix, List.prefix_iff_eq_take]
  simp only [StartsWith, Size, ge_iff_le, Bool.and_eq_true, decide_eq_true_eq, beq_iff_eq]
  constructor
  · rintro ⟨_, h⟩
    exact h.symm
  · intro h
    refine ⟨?_, h.symm⟩
    have := congrArg List.length h
    rw [List.length_take] at this
    omega

theorem LStrip_str_eq (s p_str : StringRange) :
    s.LStrip_str p_str =
      if p_str.m_data.isPrefixOf s.m_data then
        (true, ⟨s.m_data.drop p_str.m_data.length,
                s.m_capture ++ s.m_data.take p_str.m_data.length⟩)
      else (false, s) := by
  unfold LStrip_str
  rw [StartsWith_eq]
  by_cases h : p_str.m_data.isPrefixOf s.m_data = true
  · have hle : p_str.m_data.length ≤ s.m_data.length :=
      (List.isPrefixOf_iff_prefix.mp h).length_le
    simp [h, LStrip_n, hle, Size]
  · simp [h]

theorem LStrip_str_append (kw rest cap : List Char) :
    LStrip_str ⟨kw ++ rest, cap⟩ ⟨kw, []⟩ = (true, ⟨rest, cap ++ kw⟩) := by
  rw [LStrip_str_eq]
  have : kw.isPrefixOf (kw ++ rest) = true :=
    List.isPrefixOf_iff_prefix.mpr (List.prefix_append kw rest)
  simp [this]

theorem RStrip_str_concat (x : Char) (b cap : List Char) (hx : isspace x = false) :
    RStrip_str ⟨b ++ [x], cap⟩ (ofString [x]) = (true, ⟨b, cap⟩) := by
  rw [ofString_char x hx]
  simp [RStrip_str, EndsWith, RStrip_n, Size]

theorem ParensWhitespaceStrip_parens (body cap : List Char) (h : Trimmed body) :
    ParensWhitespaceStrip ⟨'(' :: (body ++ [')']), cap⟩ = ⟨body, cap ++ ['(']⟩ := by
  have e2 : "(".toList = ['('] := rfl
  have e3 : ")".toList = [')'] := rfl
  have s2 : isspace '(' = false := by decide
  have s3 : isspace ')' = false := by decide
  unfold ParensWhitespaceStrip
  rw [LStrip_noop ⟨'(' :: (body ++ [')']), cap⟩ (by intro c hc; cases hc; exact s2)]
  simp only [e2, e3, LStrip_str_char _ _ _ _ s2, if_true, LAndRStrip]
  have hh : ∀ c, (body ++ [')']).head? = some c → isspace c = false := by
    intro c hc
    cases body with
    | nil => cases hc; exact s3
    | cons a l => exact h.1 c hc
  have hl : ∀ c, (body ++ [')']).getLast? = some c → isspace c = false := by
    intro c hc
    rw [List.getLast?_concat] at hc
    cases hc
    exact s3
  rw [LStrip_noop ⟨body ++ [')'], cap ++ ['(']⟩ hh]
  simp only
  rw [RStrip_noop ⟨body ++ [')'], cap ++ ['(']⟩ hl]
  simp only
  rw [RStrip_str_concat _ _ _ s3]
  simp only
  rw [RStrip_noop ⟨body, cap ++ ['(']⟩ h.2]

theorem findIdx_append (x : Char) (n rest : List Char) (h : ∀ c ∈ n, c ≠ x) :
    findIdx x (n ++ x :: rest) = some n.length := by
  induction n with
  | nil => simp [findIdx]
  | cons a n ih =>
    have ha : a ≠ x := h a (List.mem_cons_self _ _)
    have := ih (fun c hc => h c (List.mem_cons_of_mem _ hc))
    simp [findIdx, ha, this]

end StringRange
end Utils
end LotusIR

namespace LotusIR
namespace Utils

/-! ## Segments the scan passes over -/

theorem Skips_nil (lo : Int) : Skips lo [] := by
  intro rest cap d _
  simp

theorem Skips_append (lo : Int) (a b : List Char) (ha : Skips lo a) (hb : Skips lo b) :
    Skips lo (a ++ b) := by
  intro rest cap d hd
  rw [List.append_assoc, ha _ _ _ hd, hb _ _ _ hd, List.append_assoc]

theorem Skips_mono (lo hi : Int) (w : List Char) (h : lo ≤ hi) (hw : Skips lo w) :
    Skips hi w := fun rest cap d hd => hw rest cap d (le_trans h hd)

theorem splitAcc_cons_ordinary (c : Char) (cs cap : List Char) (d : Int)
    (h1 : c ≠ ',') (h2 : c ≠ '(') (h3 : c ≠ ')') :
    splitAcc (c :: cs) cap d = splitAcc cs (cap ++ [c]) d := by
  simp [splitAcc, h1, h2, h3]

theorem splitAcc_open (cs cap : List Char) (d : Int) :
    splitAcc ('(' :: cs) cap d = splitAcc cs (cap ++ ['(']) (d + 1) := by
  simp [splitAcc]

theorem splitAcc_close (cs cap : List Char) (d : Int) :
    splitAcc (')' :: cs) cap d = splitAcc cs (cap ++ [')']) (d - 1) := by
  simp [splitAcc]

theorem splitAcc_comma_inner (cs cap : List Char) (d : Int) (hd : d ≠ 0) :
    splitAcc (',' :: cs) cap d = splitAcc cs (cap ++ [',']) d := by
  simp [splitAcc, hd]

theorem splitAcc_comma_top (cs cap : List Char) :
    splitAcc (',' :: cs) cap 0 = trim cap :: splitAcc cs [] 0 := by
  simp [splitAcc]

theorem Skips_ordinary (lo : Int) (w : List Char)
    (h : ∀ c ∈ w, c ≠ ',' ∧ c ≠ '(' ∧ c ≠ ')') : Skips lo w := by
  induction w with
  | nil => exact Skips_nil lo
  | cons a w ih =>
    intro rest cap d hd
    obtain ⟨h1, h2, h3⟩ := h a (List.mem_cons_self _ _)
    have := ih (fun c hc => h c (List.mem_cons_of_mem _ hc)) rest (cap ++ [a]) d hd
    rw [List.cons_append, splitAcc_cons_ordinary _ _ _ _ h1 h2 h3, this]
    simp

theorem Skips_comma : Skips 1 [','] := by
  intro rest cap d hd
  have : d ≠ 0 := by omega
  rw [List.singleton_append, splitAcc_comma_inner _ _ _ this]

theorem Skips_parens (lo : Int) (b : List Char) (h : Skips (lo + 1) b) :
    Skips lo ('(' :: (b ++ [')'])) := by
  intro rest cap d hd
  rw [List.cons_append, splitAcc_open, List.append_assoc, h _ _ _ (by omega),
    List.singleton_append, splitAcc_close, add_sub_cancel_right]
  simp

/-! ## Names -/

namespace OpUtils

theorem name_chars (e : DataType) :
    ∀ c ∈ ToString_DataType e,
      c ≠ ',' ∧ c ≠ '(' ∧ c ≠ ')' ∧ c ≠ ':' ∧ isspace c = false := by
  cases e <;> decide

theorem name_ne_nil (e : DataType) : ToString_DataType e ≠ [] := by
  cases e <;> decide

theorem FromString_DataType_name (e : DataType) :
    FromString_DataType (ToString_DataType e) = some e := by
  cases e <;> rfl

end OpUtils

theorem CleanName_chars (n : List Char) (h : CleanName n = true) :
    ∀ c ∈ n, c ≠ '(' ∧ c ≠ ')' ∧ c ≠ ',' ∧ c ≠ ':' := by
  simp only [CleanName, Bool.and_eq_true, List.all_eq_true, bne_iff_ne, ne_eq] at h
  intro c hc
  obtain ⟨⟨⟨a1, a2⟩, a3⟩, a4⟩ := h.1.1 c hc
  exact ⟨a1, a2, a3, a4⟩

theorem CleanName_Trimmed (n : List Char) (h : CleanName n = true) : Trimmed n := by
  simp only [CleanName, Bool.and_eq_true] at h
  obtain ⟨⟨_, h2⟩, h3⟩ := h
  constructor
  · intro c hc
    rw [hc] at h2
    simpa using h2
  · intro c hc
    rw [hc] at h3
    simpa using h3

theorem CleanName_of_PlainName (n : List Char) (h : PlainName n = true) :
    CleanName n = true := by
  simp only [PlainName, List.all_eq_true, Bool.and_eq_true, bne_iff_ne, ne_eq,
    Bool.not_eq_true'] at h
  simp only [CleanName, Bool.and_eq_true, List.all_eq_true, bne_iff_ne, ne_eq]
  refine ⟨⟨fun c hc => (h c hc).1, ?_⟩, ?_⟩
  · cases hn : n.head? with
    | none => rfl
    | some c =>
      have hc : c ∈ n := List.mem_of_mem_head? hn
      simpa using (h c hc).2
  · cases hn : n.getLast? with
    | none => rfl
    | some c =>
      have hc : c ∈ n := List.mem_of_mem_getLast? hn
      simpa using (h c hc).2

open StringRange in
theorem parseEntry_of_data (parse : List Char → Option TypeProto) (f : StringRange)
    (n S : List Char) (hf : f.m_data = n ++ ':' :: S) (hn : CleanName n = true) :
    OpUtils.parseEntry parse f = (parse S).map (fun t => ValueInfoProto.mk n t) := by
  obtain ⟨data, cap⟩ := f
  simp only at hf
  subst hf
  have hfind : findIdx ':' (n ++ ':' :: S) = some n.length :=
    findIdx_append ':' n S (fun c hc => (CleanName_chars n hn c hc).2.2.2)
  have htake : (n ++ ':' :: S).take n.length = n := by simp
  have hdrop : (n ++ ':' :: S).drop n.length = ':' :: S := by simp
  have e1 : ":".toList = [':'] := rfl
  have s1 : isspace ':' = false := by decide
  have hle : n.length ≤ (n ++ ':' :: S).length := by simp
  simp only [OpUtils.parseEntry, Find, hfind, ofData, Data, htake,
    ofString_of_Trimmed n (CleanName_Trimmed n hn), LStrip_n, Size, hle, if_true, hdrop, e1,
    LStrip_str_char _ _ _ _ s1]

end Utils
end LotusIR

namespace LotusIR
namespace Utils
namespace OpUtils

/-! ## Keyword dispatch of the parser -/

open StringRange

theorem lit_seq : ofString "seq".toList = ⟨['s', 'e', 'q'], []⟩ := by decide
theorem lit_map : ofString "map".toList = ⟨['m', 'a', 'p'], []⟩ := by decide
theorem lit_record : ofString "record".toList = ⟨['r', 'e', 'c', 'o', 'r', 'd'], []⟩ := by
  decide
theorem lit_union : ofString "union".toList = ⟨['u', 'n', 'i', 'o', 'n'], []⟩ := by decide
theorem lit_sparse : ofString "sparse".toList = ⟨['s', 'p', 'a', 'r', 's', 'e'], []⟩ := by
  decide
theorem lit_tensor : ofString "tensor".toList = ⟨['t', 'e', 'n', 's', 'o', 'r'], []⟩ := by
  decide
theorem lit_comma : ofString ",".toList = ⟨[','], []⟩ := by decide

theorem FB_seq (F : List Char → Option TypeProto) (p_src : List Char)
    (h : ((ofString p_src).LStrip_str (ofString "seq".toList)).1 = true) :
    FromStringBody F p_src =
      (F ((ofString p_src).LStrip_str (ofString "seq".toList)).2.ParensWhitespaceStrip.Data).map
        TypeProto.seq_type := by
  unfold FromStringBody
  dsimp only
  rw [if_pos h]

theorem FB_map (F : List Char → Option TypeProto) (p_src : List Char)
    (h1 : ((ofString p_src).LStrip_str (ofString "seq".toList)).1 = false)
    (h2 : ((ofString p_src).LStrip_str (ofString "map".toList)).1 = true) :
    FromStringBody F p_src =
      match ((ofString p_src).LStrip_str (ofString "map".toList)).2.ParensWhitespaceStrip.Find ',' with
      | none => none
      | some key_size =>
        match FromString_DataType (ofData
            ((ofString p_src).LStrip_str (ofString "map".toList)).2.ParensWhitespaceStrip.Data
            key_size).Data with
        | none => none
        | some key_type =>
          (F (ofData
            (((((ofString p_src).LStrip_str (ofString "map".toList)).2.ParensWhitespaceStrip.LStrip_n
              key_size).2.LStrip_str (ofString ",".toList)).2).Data
            (((((ofString p_src).LStrip_str (ofString "map".toList)).2.ParensWhitespaceStrip.LStrip_n
              key_size).2.LStrip_str (ofString ",".toList)).2).Size).Data).map
            (TypeProto.map_type key_type) := by
  unfold FromStringBody
  dsimp only
  rw [if_neg (by rw [h1]; exact Bool.false_ne_true), if_pos h2]

theorem FB_record (F : List Char → Option TypeProto) (p_src : List Char)
    (h1 : ((ofString p_src).LStrip_str (ofString "seq".toList)).1 = false)
    (h2 : ((ofString p_src).LStrip_str (ofString "map".toList)).1 = false)
    (h3 : ((ofString p_src).LStrip_str (ofString "record".toList)).1 = true) :
    FromStringBody F p_src =
      (parseEntries F (SplitRecords
        ((ofString p_src).LStrip_str (ofString "record".toList)).2.ParensWhitespaceStrip []).2).map
        TypeProto.record_type := by
  unfold FromStringBody
  dsimp only
  rw [if_neg (by rw [h1]; exact Bool.false_ne_true),
    if_neg (by rw [h2]; exact Bool.false_ne_true), if_pos h3]

theorem FB_union (F : List Char → Option TypeProto) (p_src : List Char)
    (h1 : ((ofString p_src).LStrip_str (ofString "seq".toList)).1 = false)
    (h2 : ((ofString p_src).LStrip_str (ofString "map".toList)).1 = false)
    (h3 : ((ofString p_src).LStrip_str (ofString "record".toList)).1 = false)
    (h4 : ((ofString p_src).LStrip_str (ofString "union".toList)).1 = true) :
    FromStringBody F p_src =
      (parseEntries F (SplitRecords
        ((ofString p_src).LStrip_str (ofString "union".toList)).2.ParensWhitespaceStrip []).2).map
        TypeProto.union_type := by
  unfold FromStringBody
  dsimp only
  rw [if_neg (by rw [h1]; exact Bool.false_ne_true),
    if_neg (by rw [h2]; exact Bool.false_ne_true),
    if_neg (by rw [h3]; exact Bool.false_ne_true), if_pos h4]

theorem kw_test_pos (kw' kw rest : List Char) (hk : ofString kw' = ⟨kw, []⟩)
    (hT : Trimmed (kw ++ rest)) :
    (ofString (kw ++ rest)).LStrip_str (ofString kw') = (true, ⟨rest, kw⟩) := by
  rw [ofString_of_Trimmed _ hT, hk, LStrip_str_append]
  rfl

theorem kw_test_neg (kw' kw data : List Char) (hk : ofString kw' = ⟨kw, []⟩)
    (hT : Trimmed data) (h : kw.isPrefixOf data = false) :
    (ofString data).LStrip_str (ofString kw') = (false, ⟨data, []⟩) := by
  rw [ofString_of_Trimmed _ hT, hk, LStrip_str_eq]
  simp only [h]
  rfl

theorem Trimmed_wrap (a : Char) (kw body : List Char) (ha : isspace a = false) :
    Trimmed ((a :: kw) ++ '(' :: (body ++ [')'])) := by
  have := Trimmed_cons_concat a ')' (kw ++ '(' :: body) ha (by decide)
  simpa using this

theorem FromStringBody_seq (F : List Char → Option TypeProto) (body : List Char)
    (hb : Trimmed body) :
    FromStringBody F ("seq(".toList ++ body ++ ")".toList) = (F body).map TypeProto.seq_type := by
  have hS : "seq(".toList ++ body ++ ")".toList = ['s', 'e', 'q'] ++ '(' :: (body ++ [')']) := by
    simp
  have hT := Trimmed_wrap 's' ['e', 'q'] body (by decide)
  have h1 := kw_test_pos _ _ _ lit_seq hT
  rw [hS, FB_seq F _ (by rw [h1]), h1, ParensWhitespaceStrip_parens _ _ hb]
  rfl

theorem FromStringBody_record (F : List Char → Option TypeProto) (body : List Char)
    (hb : Trimmed body) :
    FromStringBody F ("record(".toList ++ body ++ ")".toList) =
      (parseEntries F (SplitRecords ⟨body, "record(".toList⟩ []).2).map
        TypeProto.record_type := by
  have hS : "record(".toList ++ body ++ ")".toList
      = ['r', 'e', 'c', 'o', 'r', 'd'] ++ '(' :: (body ++ [')']) := by
    simp
  have hT := Trimmed_wrap 'r' ['e', 'c', 'o', 'r', 'd'] body (by decide)
  have h1 := kw_test_neg _ _ _ lit_seq hT rfl
  have h2 := kw_test_neg _ _ _ lit_map hT rfl
  have h3 := kw_test_pos _ _ _ lit_record hT
  rw [hS, FB_record F _ (by rw [h1]) (by rw [h2]) (by rw [h3]), h3,
    ParensWhitespaceStrip_parens _ _ hb]
  rfl

theorem FromStringBody_union (F : List Char → Option TypeProto) (body : List Char)
    (hb : Trimmed body) :
    FromStringBody F ("union(".toList ++ body ++ ")".toList) =
      (parseEntries F (SplitRecords ⟨body, "union(".toList⟩ []).2).map
        TypeProto.union_type := by
  have hS : "union(".toList ++ body ++ ")".toList
      = ['u', 'n', 'i', 'o', 'n'] ++ '(' :: (body ++ [')']) := by
    simp
  have hT := Trimmed_wrap 'u' ['n', 'i', 'o', 'n'] body (by decide)
  have h1 := kw_test_neg _ _ _ lit_seq hT rfl
  have h2 := kw_test_neg _ _ _ lit_map hT rfl
  have h3 := kw_test_neg _ _ _ lit_record hT rfl
  have h4 := kw_test_pos _ _ _ lit_union hT
  rw [hS, FB_union F _ (by rw [h1]) (by rw [h2]) (by rw [h3]) (by rw [h4]), h4,
    ParensWhitespaceStrip_parens _ _ hb]
  rfl

theorem Trimmed_name (k : DataType) : Trimmed (ToString_DataType k) := by
  have hkc := name_chars k
  constructor
  · intro c hc
    exact (hkc c (List.mem_of_mem_head? hc)).2.2.2.2
  · intro c hc
    exact (hkc c (List.mem_of_mem_getLast? hc)).2.2.2.2

theorem FromStringBody_map (F : List Char → Option TypeProto) (k : DataType)
    (S : List Char) (hS : Trimmed S) :
    FromStringBody F ("map(".toList ++ ToString_DataType k ++ ",".toList ++ S ++ ")".toList)
      = (F S).map (TypeProto.map_type k) := by
  have hkc := name_chars k
  have hkT := Trimmed_name k
  have hbT : Trimmed (ToString_DataType k ++ ',' :: S) := by
    constructor
    · intro c hc
      rw [List.head?_append_of_ne_nil _ (name_ne_nil k)] at hc
      exact hkT.1 c hc
    · intro c hc
      rw [List.getLast?_append_of_ne_nil _ (List.cons_ne_nil _ _)] at hc
      cases S with
      | nil => cases hc; decide
      | cons a l =>
        rw [List.getLast?_cons_cons] at hc
        exact hS.2 c hc
  have hStr : "map(".toList ++ ToString_DataType k ++ ",".toList ++ S ++ ")".toList
      = ['m', 'a', 'p'] ++ '(' :: ((ToString_DataType k ++ ',' :: S) ++ [')']) := by
    simp
  have hT := Trimmed_wrap 'm' ['a', 'p'] (ToString_DataType k ++ ',' :: S) (by decide)
  have h1 := kw_test_neg _ _ _ lit_seq hT rfl
  have h2 := kw_test_pos _ _ _ lit_map hT
  have hfind : Find ⟨ToString_DataType k ++ ',' :: S, ['m', 'a', 'p'] ++ ['(']⟩ ','
      = some (ToString_DataType k).length :=
    findIdx_append ',' _ S (fun c hc => (hkc c hc).1)
  rw [hStr, FB_map F _ (by rw [h1]) (by rw [h2]), h2, ParensWhitespaceStrip_parens _ _ hbT,
    hfind]
  have htake : (ToString_DataType k ++ ',' :: S).take (ToString_DataType k).length
      = ToString_DataType k := by simp
  have hdrop : (ToString_DataType k ++ ',' :: S).drop (ToString_DataType k).length
      = ',' :: S := by simp
  have hle : (ToString_DataType k).length ≤ (ToString_DataType k ++ ',' :: S).length := by
    simp
  have e1 : ",".toList = [','] := rfl
  simp only [ofData, Data, htake, ofString_of_Trimmed _ hkT, FromString_DataType_name,
    LStrip_n, Size, hle, if_true, hdrop, e1,
    LStrip_str_char _ _ _ _ (by decide : isspace ',' = false),
    List.take_length, ofString_of_Trimmed _ hS]

theorem FromStringBody_leaf (F : List Char → Option TypeProto) (e : DataType) :
    FromStringBody F (ToString_DataType e) = some (.tensor_type e [⟨0⟩]) ∧
    FromStringBody F ("tensor(".toList ++ ToString_DataType e ++ ")".toList)
      = some (.tensor_type e []) ∧
    FromStringBody F ("sparse(".toList ++ ToString_DataType e ++ ")".toList)
      = some (.sparse_tensor_type e) := by
  cases e <;> exact ⟨rfl, rfl, rfl⟩

end OpUtils
end Utils
end LotusIR

namespace LotusIR
namespace Utils
namespace OpUtils

/-! ## Parsing the serializer's output -/

open StringRange

theorem Trimmed_of_all (l : List Char) (h : ∀ c ∈ l, isspace c = false) : Trimmed l :=
  ⟨fun c hc => h c (List.mem_of_mem_head? hc), fun c hc => h c (List.mem_of_mem_getLast? hc)⟩

/-- A keyword followed by a parenthesised body is non-empty, trimmed and passed over by
the scan. -/
theorem wrap_props (a : Char) (kw body : List Char) (ha : isspace a = false)
    (hkw : ∀ c ∈ a :: kw, c ≠ ',' ∧ c ≠ '(' ∧ c ≠ ')') (hb : Skips 1 body) :
    (a :: kw) ++ '(' :: (body ++ [')']) ≠ [] ∧
    Trimmed ((a :: kw) ++ '(' :: (body ++ [')'])) ∧
    Skips 0 ((a :: kw) ++ '(' :: (body ++ [')'])) :=
  ⟨by simp, Trimmed_wrap a kw body ha,
   Skips_append 0 _ _ (Skips_ordinary 0 _ hkw) (Skips_parens 0 body hb)⟩

theorem entry_props (n S : List Char) (hn : CleanName n = true) (hS1 : S ≠ [])
    (hS2 : Trimmed S) (hS3 : Skips 0 S) :
    Trimmed (n ++ ':' :: S) ∧ Skips 0 (n ++ ':' :: S) := by
  have hc := CleanName_chars n hn
  have hT := CleanName_Trimmed n hn
  refine ⟨⟨?_, ?_⟩, ?_⟩
  · intro c h
    cases n with
    | nil => cases h; decide
    | cons a l => exact hT.1 c h
  · intro c h
    rw [List.getLast?_append_of_ne_nil _ (List.cons_ne_nil _ _)] at h
    obtain ⟨a, l, rfl⟩ := List.exists_cons_of_ne_nil hS1
    rw [List.getLast?_cons_cons] at h
    exact hS2.2 c h
  · have h1 : Skips 0 n := Skips_ordinary 0 n (fun c h => ⟨(hc c h).2.2.1, (hc c h).1, (hc c h).2.1⟩)
    have h2 : Skips 0 [':'] := Skips_ordinary 0 _ (by decide)
    have := Skips_append 0 _ _ h1 (Skips_append 0 _ _ h2 hS3)
    simpa using this

theorem splitAcc_single (body : List Char) (hT : Trimmed body) (hS : Skips 0 body) :
    splitAcc body [] 0 = [body] := by
  have := hS [] [] 0 (le_refl _)
  rw [List.append_nil, List.nil_append] at this
  rw [this, splitAcc, trim_of_Trimmed _ hT]

theorem splitAcc_entry (E rest : List Char) (hT : Trimmed E) (hS : Skips 0 E) :
    splitAcc (E ++ ',' :: rest) [] 0 = E :: splitAcc rest [] 0 := by
  rw [hS _ _ _ (le_refl _), List.nil_append, splitAcc_comma_top, trim_of_Trimmed _ hT]

theorem length_pos_fuel (n fuel : Nat) (h : n < fuel) : ∃ f, fuel = f + 1 :=
  ⟨fuel - 1, by omega⟩

mutual
theorem roundtrip_type : ∀ (t : TypeProto) (S : List Char),
    Lossless t = true → VariantSet t = true → ToString t = some S →
    S ≠ [] ∧ Trimmed S ∧ Skips 0 S ∧
      ∀ fuel, S.length < fuel → FromStringFuel fuel S = some t
  | .VALUE_NOT_SET, _, _, hv, _ => by simp [VariantSet] at hv
  | .tensor_type e shape, S, hl, _, hS => by
    have hc := name_chars e
    simp only [Lossless, Bool.or_eq_true, decide_eq_true_eq] at hl
    rcases hl with rfl | rfl
    · have hS0 : ToString (.tensor_type e [])
          = some ("tensor(".toList ++ ToString_DataType e ++ ")".toList) := by
        simp [ToString]
      rw [hS0] at hS
      cases hS
      have hform : "tensor(".toList ++ ToString_DataType e ++ ")".toList
          = ('t' :: ['e', 'n', 's', 'o', 'r']) ++ '(' :: (ToString_DataType e ++ [')']) := by
        simp
      obtain ⟨p1, p2, p3⟩ := wrap_props 't' ['e', 'n', 's', 'o', 'r'] (ToString_DataType e)
        (by decide) (by decide)
        (Skips_ordinary 1 _ (fun c h => ⟨(hc c h).1, (hc c h).2.1, (hc c h).2.2.1⟩))
      rw [← hform] at p1 p2 p3
      refine ⟨p1, p2, p3, ?_⟩
      intro fuel hf
      obtain ⟨f, rfl⟩ := length_pos_fuel _ _ hf
      rw [FromStringFuel]
      exact (FromStringBody_leaf _ e).2.1
    · have hS0 : ToString (.tensor_type e [⟨0⟩]) = some (ToString_DataType e) := by
        simp [ToString]
      rw [hS0] at hS
      cases hS
      refine ⟨name_ne_nil e, Trimmed_name e,
        Skips_ordinary 0 _ (fun c h => ⟨(hc c h).1, (hc c h).2.1, (hc c h).2.2.1⟩), ?_⟩
      intro fuel hf
      obtain ⟨f, rfl⟩ := length_pos_fuel _ _ hf
      rw [FromStringFuel]
      exact (FromStringBody_leaf _ e).1
  | .sparse_tensor_type e, S, _, _, hS => by
    have hc := name_chars e
    simp only [ToString, Option.some.injEq] at hS
    subst hS
    have hform : "sparse(".toList ++ ToString_DataType e ++ ")".toList
        = ('s' :: ['p', 'a', 'r', 's', 'e']) ++ '(' :: (ToString_DataType e ++ [')']) := by
      simp
    obtain ⟨p1, p2, p3⟩ := wrap_props 's' ['p', 'a', 'r', 's', 'e'] (ToString_DataType e)
      (by decide) (by decide)
      (Skips_ordinary 1 _ (fun c h => ⟨(hc c h).1, (hc c h).2.1, (hc c h).2.2.1⟩))
    rw [← hform] at p1 p2 p3
    refine ⟨p1, p2, p3, ?_⟩
    intro fuel hf
    obtain ⟨f, rfl⟩ := length_pos_fuel _ _ hf
    rw [FromStringFuel]
    exact (FromStringBody_leaf _ e).2.2
  | .seq_type t, S, hl, hv, hS => by
    simp only [ToString, Option.map_eq_some'] at hS
    obtain ⟨S1, hS1, rfl⟩ := hS
    obtain ⟨a1, a2, a3, a4⟩ := roundtrip_type t S1 (by simpa [Lossless] using hl)
      (by simpa [VariantSet] using hv) hS1
    have hform : "seq(".toList ++ S1 ++ ")".toList
        = ('s' :: ['e', 'q']) ++ '(' :: (S1 ++ [')']) := by
      simp
    obtain ⟨p1, p2, p3⟩ := wrap_props 's' ['e', 'q'] S1 (by decide) (by decide)
      (Skips_mono 0 1 _ (by decide) a3)
    rw [← hform] at p1 p2 p3
    refine ⟨p1, p2, p3, ?_⟩
    intro fuel hf
    obtain ⟨f, rfl⟩ := length_pos_fuel _ _ hf
    rw [FromStringFuel, FromStringBody_seq _ _ a2, a4 f (by simp at hf; omega)]
    rfl
  | .map_type k t, S, hl, hv, hS => by
    have hc := name_chars k
    simp only [ToString, Option.map_eq_some'] at hS
    obtain ⟨S1, hS1, rfl⟩ := hS
    obtain ⟨a1, a2, a3, a4⟩ := roundtrip_type t S1 (by simpa [Lossless] using hl)
      (by simpa [VariantSet] using hv) hS1
    have hform : "map(".toList ++ ToString_DataType k ++ ",".toList ++ S1 ++ ")".toList
        = ('m' :: ['a', 'p']) ++ '(' :: ((ToString_DataType k ++ ([','] ++ S1)) ++ [')']) := by
      simp
    obtain ⟨p1, p2, p3⟩ := wrap_props 'm' ['a', 'p'] (ToString_DataType k ++ ([','] ++ S1))
      (by decide) (by decide)
      (Skips_append 1 _ _
        (Skips_ordinary 1 _ (fun c h => ⟨(hc c h).1, (hc c h).2.1, (hc c h).2.2.1⟩))
        (Skips_append 1 _ _ Skips_comma (Skips_mono 0 1 _ (by decide) a3)))
    rw [← hform] at p1 p2 p3
    refine ⟨p1, p2, p3, ?_⟩
    intro fuel hf
    obtain ⟨f, rfl⟩ := length_pos_fuel _ _ hf
    rw [FromStringFuel, FromStringBody_map _ _ _ a2, a4 f (by simp at hf; omega)]
    rfl
  | .record_type fs, S, hl, hv, hS => by
    simp only [ToString, Option.map_eq_some'] at hS
    obtain ⟨B, hB, rfl⟩ := hS
    simp only [Lossless, Bool.and_eq_true] at hl
    obtain ⟨body, rfl, b1, b2, b3, b4⟩ := roundtrip_entries fs B hl.2
      (by simpa [VariantSet] using hv) hB
    have hform : "record(".toList ++ (body ++ [')'])
        = ('r' :: ['e', 'c', 'o', 'r', 'd']) ++ '(' :: (body ++ [')']) := by
      simp
    have hform2 : "record(".toList ++ (body ++ [')']) = "record(".toList ++ body ++ ")".toList := by
      simp
    obtain ⟨p1, p2, p3⟩ := wrap_props 'r' ['e', 'c', 'o', 'r', 'd'] body (by decide) (by decide) b3
    rw [← hform] at p1 p2 p3
    refine ⟨p1, p2, p3, ?_⟩
    intro fuel hf
    obtain ⟨f, rfl⟩ := length_pos_fuel _ _ hf
    obtain ⟨_, new, hnew, hdata⟩ := SplitRecords_eq_splitAcc ⟨body, "record(".toList⟩ []
    rw [List.nil_append] at hnew
    rw [FromStringFuel, hform2, FromStringBody_record _ _ b2, hnew,
      b4 f (by simp at hf; omega) new hdata]
    rfl
  | .union_type fs, S, hl, hv, hS => by
    simp only [ToString, Option.map_eq_some'] at hS
    obtain ⟨B, hB, rfl⟩ := hS
    simp only [Lossless, Bool.and_eq_true] at hl
    obtain ⟨body, rfl, b1, b2, b3, b4⟩ := roundtrip_entries fs B hl.2
      (by simpa [VariantSet] using hv) hB
    have hform : "union(".toList ++ (body ++ [')'])
        = ('u' :: ['n', 'i', 'o', 'n']) ++ '(' :: (body ++ [')']) := by
      simp
    have hform2 : "union(".toList ++ (body ++ [')']) = "union(".toList ++ body ++ ")".toList := by
      simp
    obtain ⟨p1, p2, p3⟩ := wrap_props 'u' ['n', 'i', 'o', 'n'] body (by decide) (by decide) b3
    rw [← hform] at p1 p2 p3
    refine ⟨p1, p2, p3, ?_⟩
    intro fuel hf
    obtain ⟨f, rfl⟩ := length_pos_fuel _ _ hf
    obtain ⟨_, new, hnew, hdata⟩ := SplitRecords_eq_splitAcc ⟨body, "union(".toList⟩ []
    rw [List.nil_append] at hnew
    rw [FromStringFuel, hform2, FromStringBody_union _ _ b2, hnew,
      b4 f (by simp at hf; omega) new hdata]
    rfl
theorem roundtrip_entries : ∀ (fs : List ValueInfoProto) (B : List Char),
    LosslessEntries fs = true → VariantSetEntries fs = true → ToStringEntries fs = some B →
    ∃ body, B = body ++ [')'] ∧ body ≠ [] ∧ Trimmed body ∧ Skips 1 body ∧
      ∀ fuel, body.length ≤ fuel → ∀ fields : List StringRange,
        fields.map Data = splitAcc body [] 0 →
        parseEntries (FromStringFuel fuel) fields = some fs
  | [], _, _, _, hB => by simp [ToStringEntries] at hB
  | [.mk n t], B, hl, hv, hB => by
    simp only [ToStringEntries, Option.map_eq_some'] at hB
    obtain ⟨S, hS, rfl⟩ := hB
    simp only [LosslessEntries, Bool.and_eq_true, and_true] at hl
    simp only [VariantSetEntries, Bool.and_eq_true, and_true] at hv
    obtain ⟨a1, a2, a3, a4⟩ := roundtrip_type t S hl.2 hv hS
    obtain ⟨e1, e2⟩ := entry_props n S hl.1 a1 a2 a3
    refine ⟨n ++ ':' :: S, by simp, by simp, e1, Skips_mono 0 1 _ (by decide) e2, ?_⟩
    intro fuel hf fields hfields
    rw [splitAcc_single _ e1 e2] at hfields
    have hlen : S.length < fuel := by
      simp only [List.length_append, List.length_cons] at hf
      omega
    cases fields with
    | nil => simp at hfields
    | cons f fields1 =>
      cases fields1 with
      | cons _ _ => simp at hfields
      | nil =>
        simp only [List.map_cons, List.map_nil, List.cons.injEq, and_true] at hfields
        simp only [parseEntries, parseEntry_of_data _ f n S hfields hl.1, a4 fuel hlen,
          Option.map_some']
  | (.mk n t) :: g :: rest, B, hl, hv, hB => by
    simp only [LosslessEntries, Bool.and_eq_true] at hl
    simp only [VariantSetEntries, Bool.and_eq_true] at hv
    cases hS : ToString t with
    | none => simp [ToStringEntries, hS] at hB
    | some S =>
      cases hR : ToStringEntries (g :: rest) with
      | none => simp [ToStringEntries, hS, hR] at hB
      | some R =>
        simp only [ToStringEntries, hS, hR, Option.some.injEq] at hB
        subst hB
        obtain ⟨a1, a2, a3, a4⟩ := roundtrip_type t S hl.1.2 hv.1 hS
        obtain ⟨body1, rfl, b1, b2, b3, b4⟩ := roundtrip_entries (g :: rest) R
          (by simpa [LosslessEntries] using hl.2) (by simpa [VariantSetEntries] using hv.2) hR
        obtain ⟨e1, e2⟩ := entry_props n S hl.1.1 a1 a2 a3
        have hbody : ∀ c, ((n ++ ':' :: S) ++ ',' :: body1).getLast? = some c →
            isspace c = false := by
          intro c h
          rw [List.getLast?_append_of_ne_nil _ (List.cons_ne_nil _ _)] at h
          obtain ⟨a, l, rfl⟩ := List.exists_cons_of_ne_nil b1
          rw [List.getLast?_cons_cons] at h
          exact b2.2 c h
        have hhead : ∀ c, ((n ++ ':' :: S) ++ ',' :: body1).head? = some c →
            isspace c = false := by
          intro c h
          rw [List.head?_append_of_ne_nil _ (by simp)] at h
          exact e1.1 c h
        refine ⟨(n ++ ':' :: S) ++ ',' :: body1, by simp, by simp, ⟨hhead, hbody⟩, ?_, ?_⟩
        · have := Skips_append 1 _ _ (Skips_mono 0 1 _ (by decide) e2)
            (Skips_append 1 _ _ Skips_comma b3)
          simpa using this
        · intro fuel hf fields hfields
          rw [splitAcc_entry _ _ e1 e2] at hfields
          cases fields with
          | nil => simp at hfields
          | cons f fields1 =>
            simp only [List.map_cons, List.cons.injEq] at hfields
            have hlen : S.length < fuel := by
              simp only [List.length_append, List.length_cons] at hf
              omega
            have hlen1 : body1.length ≤ fuel := by
              simp only [List.length_append, List.length_cons] at hf
              omega
            simp only [parseEntries, parseEntry_of_data _ f n S hfields.1 hl.1.1, a4 fuel hlen,
              Option.map_some', b4 fuel hlen1 fields1 hfields.2]
end

end OpUtils
end Utils
end LotusIR

namespace LotusIR
namespace Utils
namespace OpUtils

/-! ## Round trips -/

open StringRange

mutual
theorem ToString_isSome : ∀ (t : TypeProto),
    Lossless t = true → VariantSet t = true → ∃ S, ToString t = some S
  | .VALUE_NOT_SET, _, hv => by simp [VariantSet] at hv
  | .tensor_type e shape, _, _ => by
    simp only [ToString]
    split <;> exact ⟨_, rfl⟩
  | .sparse_tensor_type e, _, _ => ⟨_, rfl⟩
  | .seq_type t, hl, hv => by
    obtain ⟨S, hS⟩ := ToString_isSome t (by simpa [Lossless] using hl)
      (by simpa [VariantSet] using hv)
    simp only [ToString, hS, Option.map_some']
    exact ⟨_, rfl⟩
  | .map_type k t, hl, hv => by
    obtain ⟨S, hS⟩ := ToString_isSome t (by simpa [Lossless] using hl)
      (by simpa [VariantSet] using hv)
    simp only [ToString, hS, Option.map_some']
    exact ⟨_, rfl⟩
  | .record_type fs, hl, hv => by
    simp only [Lossless, Bool.and_eq_true, Bool.not_eq_true', List.isEmpty_eq_false] at hl
    obtain ⟨B, hB⟩ := ToStringEntries_isSome fs hl.1 hl.2 (by simpa [VariantSet] using hv)
    simp only [ToString, hB, Option.map_some']
    exact ⟨_, rfl⟩
  | .union_type fs, hl, hv => by
    simp only [Lossless, Bool.and_eq_true, Bool.not_eq_true', List.isEmpty_eq_false] at hl
    obtain ⟨B, hB⟩ := ToStringEntries_isSome fs hl.1 hl.2 (by simpa [VariantSet] using hv)
    simp only [ToString, hB, Option.map_some']
    exact ⟨_, rfl⟩
theorem ToStringEntries_isSome : ∀ (fs : List ValueInfoProto), fs ≠ [] →
    LosslessEntries fs = true → VariantSetEntries fs = true → ∃ B, ToStringEntries fs = some B
  | [], hne, _, _ => absurd rfl hne
  | [.mk n t], _, hl, hv => by
    simp only [LosslessEntries, Bool.and_eq_true, and_true] at hl
    simp only [VariantSetEntries, Bool.and_eq_true, and_true] at hv
    obtain ⟨S, hS⟩ := ToString_isSome t hl.2 hv
    simp only [ToStringEntries, hS, Option.map_some']
    exact ⟨_, rfl⟩
  | (.mk n t) :: g :: rest, _, hl, hv => by
    simp only [LosslessEntries, Bool.and_eq_true] at hl
    simp only [VariantSetEntries, Bool.and_eq_true] at hv
    obtain ⟨S, hS⟩ := ToString_isSome t hl.1.2 hv.1
    obtain ⟨R, hR⟩ := ToStringEntries_isSome (g :: rest) (List.cons_ne_nil _ _)
      (by simpa [LosslessEntries] using hl.2) (by simpa [VariantSetEntries] using hv.2)
    simp only [ToStringEntries, hS, hR]
    exact ⟨_, rfl⟩
end

theorem FromString_ToString (t : TypeProto) (S : List Char) (hl : Lossless t = true)
    (hv : VariantSet t = true) (hS : ToString t = some S) : FromString S = some t :=
  (roundtrip_type t S hl hv hS).2.2.2 (S.length + 1) (Nat.lt_succ_self _)

/-- C6 (amended): for every descriptor whose variant is set at every level, in which
every tensor carries no shape dimension or exactly the shape `[0]`, every record and
union list is non-empty and every name is clean, `ToString` returns a string and
`FromString` of that string returns the descriptor itself. -/
theorem parse_after_serialize (t : TypeProto) (hl : Lossless t = true)
    (hv : VariantSet t = true) :
    ∃ S, ToString t = some S ∧ FromString S = some t := by
  obtain ⟨S, hS⟩ := ToString_isSome t hl hv
  exact ⟨S, hS, FromString_ToString t S hl hv hS⟩

/-- Witness for C6: a union of a sequence and a record with a scalar field and a map
field. -/
theorem parse_after_serialize_witness :
    ∃ S, ToString (.union_type [.mk "x".toList (.seq_type (.tensor_type .FLOAT [])),
        .mk "y z".toList (.record_type [.mk "a".toList (.tensor_type .INT32 [⟨0⟩]),
          .mk "".toList (.map_type .STRING (.sparse_tensor_type .DOUBLE))])]) = some S ∧
      FromString S = some (.union_type [.mk "x".toList (.seq_type (.tensor_type .FLOAT [])),
        .mk "y z".toList (.record_type [.mk "a".toList (.tensor_type .INT32 [⟨0⟩]),
          .mk "".toList (.map_type .STRING (.sparse_tensor_type .DOUBLE))])]) :=
  parse_after_serialize _ (by decide) (by decide)

/-- Counterexample to C6 as stated: the descriptor whose variant is not set satisfies the
three stated conditions, and `ToString` fails on it (the `default:` case asserts), so no
string is produced to parse back. -/
theorem parse_after_serialize_counterexample :
    Lossless .VALUE_NOT_SET = true ∧
    ¬ ∃ S, ToString .VALUE_NOT_SET = some S ∧ FromString S = some .VALUE_NOT_SET := by
  refine ⟨rfl, ?_⟩
  rintro ⟨S, hS, _⟩
  simp [ToString] at hS

/-! ## Grammar strings -/

theorem exists_forall₂ {α β : Type} (R : α → β → Prop) (l : List α)
    (h : ∀ a ∈ l, ∃ b, R a b) : ∃ bs, List.Forall₂ R l bs := by
  induction l with
  | nil => exact ⟨[], List.Forall₂.nil⟩
  | cons a l ih =>
    obtain ⟨b, hb⟩ := h a (List.mem_cons_self _ _)
    obtain ⟨bs, hbs⟩ := ih (fun x hx => h x (List.mem_cons_of_mem _ hx))
    exact ⟨b :: bs, List.Forall₂.cons hb hbs⟩

/-- The entries built from names-and-strings `fields` and descriptors `ts` that serialize
to those strings serialize to the joined text of `fields`. -/
theorem entries_of_fields (fields : List (List Char × List Char)) (ts : List TypeProto)
    (hne : fields ≠ [])
    (hR : List.Forall₂
      (fun f t => Lossless t = true ∧ VariantSet t = true ∧ ToString t = some f.2) fields ts)
    (hn : ∀ f ∈ fields, CleanName f.1 = true) :
    LosslessEntries (List.zipWith (fun f t => ValueInfoProto.mk f.1 t) fields ts) = true ∧
    VariantSetEntries (List.zipWith (fun f t => ValueInfoProto.mk f.1 t) fields ts) = true ∧
    ToStringEntries (List.zipWith (fun f t => ValueInfoProto.mk f.1 t) fields ts)
      = some (joinFields fields ++ [')']) := by
  induction hR with
  | nil => exact absurd rfl hne
  | @cons f t fields1 ts1 hft hrest ih =>
    obtain ⟨h1, h2, h3⟩ := hft
    have hnf : CleanName f.1 = true := hn f (List.mem_cons_self _ _)
    cases hrest with
    | nil =>
      obtain ⟨n, s⟩ := f
      simp only at h3 hnf
      refine ⟨by simp [LosslessEntries, hnf, h1], by simp [VariantSetEntries, h2], ?_⟩
      simp [ToStringEntries, h3, joinFields]
    | @cons g u fields2 ts2 hgu hrest2 =>
      obtain ⟨i1, i2, i3⟩ := ih (List.cons_ne_nil _ _)
        (fun x hx => hn x (List.mem_cons_of_mem _ hx))
      obtain ⟨n, s⟩ := f
      simp only at h3 hnf
      simp only [List.zipWith_cons_cons] at i1 i2 i3 ⊢
      refine ⟨by simp [LosslessEntries, hnf, h1] at i1 ⊢; exact i1,
        by simp [VariantSetEntries, h2] at i2 ⊢; exact i2, ?_⟩
      simp only [ToStringEntries, h3, i3, joinFields]
      simp

theorem zipWith_ne_nil (fields : List (List Char × List Char)) (ts : List TypeProto)
    (hne : fields ≠ [])
    (hR : List.Forall₂
      (fun f t => Lossless t = true ∧ VariantSet t = true ∧ ToString t = some f.2) fields ts) :
    (List.zipWith (fun f t => ValueInfoProto.mk f.1 t) fields ts).isEmpty = false := by
  cases hR with
  | nil => exact absurd rfl hne
  | cons _ _ => rfl

/-- Every string of the grammar is the serialization of a descriptor that satisfies the
conditions of the round trip. -/
theorem Grammar_descriptor (s : List Char) (h : Grammar s) :
    ∃ t, Lossless t = true ∧ VariantSet t = true ∧ ToString t = some s := by
  induction h with
  | scalar e => exact ⟨.tensor_type e [⟨0⟩], rfl, rfl, by simp [ToString]⟩
  | tensor e => exact ⟨.tensor_type e [], rfl, rfl, by simp [ToString]⟩
  | sparse e => exact ⟨.sparse_tensor_type e, rfl, rfl, rfl⟩
  | seq s _ ih =>
    obtain ⟨t, h1, h2, h3⟩ := ih
    exact ⟨.seq_type t, by simpa [Lossless] using h1, by simpa [VariantSet] using h2,
      by simp only [ToString, h3, Option.map_some']⟩
  | map k s _ ih =>
    obtain ⟨t, h1, h2, h3⟩ := ih
    exact ⟨.map_type k t, by simpa [Lossless] using h1, by simpa [VariantSet] using h2,
      by simp only [ToString, h3, Option.map_some']⟩
  | record fields hne hn _ ih =>
    obtain ⟨ts, hts⟩ := exists_forall₂ _ fields ih
    obtain ⟨e1, e2, e3⟩ := entries_of_fields fields ts hne hts
      (fun f hf => CleanName_of_PlainName _ (hn f hf))
    refine ⟨.record_type (List.zipWith (fun f t => ValueInfoProto.mk f.1 t) fields ts), ?_, ?_, ?_⟩
    · simp only [Lossless, zipWith_ne_nil fields ts hne hts, e1]
      rfl
    · simpa [VariantSet] using e2
    · simp only [ToString, e3, Option.map_some']
      simp
  | union fields hne hn _ ih =>
    obtain ⟨ts, hts⟩ := exists_forall₂ _ fields ih
    obtain ⟨e1, e2, e3⟩ := entries_of_fields fields ts hne hts
      (fun f hf => CleanName_of_PlainName _ (hn f hf))
    refine ⟨.union_type (List.zipWith (fun f t => ValueInfoProto.mk f.1 t) fields ts), ?_, ?_, ?_⟩
    · simp only [Lossless, zipWith_ne_nil fields ts hne hts, e1]
      rfl
    · simpa [VariantSet] using e2
    · simp only [ToString, e3, Option.map_some']
      simp

/-- C1: for every string `s` of the canonical grammar, `FromString(s)` succeeds and
`ToString` of the parsed descriptor is `s` itself; in particular for `tensor(float)`,
`seq(map(string,tensor(int32)))`, `record(a:int32,b:string)` and
`union(x:seq(float),y:sparse(double))`. -/
theorem serialize_after_parse (s : List Char) (h : Grammar s) :
    (∃ t, FromString s = some t ∧ ToString t = some s) ∧
    (FromString "tensor(float)".toList).bind ToString = some "tensor(float)".toList ∧
    (FromString "seq(map(string,tensor(int32)))".toList).bind ToString
      = some "seq(map(string,tensor(int32)))".toList ∧
    (FromString "record(a:int32,b:string)".toList).bind ToString
      = some "record(a:int32,b:string)".toList ∧
    (FromString "union(x:seq(float),y:sparse(double))".toList).bind ToString
      = some "union(x:seq(float),y:sparse(double))".toList := by
  obtain ⟨t, h1, h2, h3⟩ := Grammar_descriptor s h
  exact ⟨⟨t, FromString_ToString t s h1 h2 h3, h3⟩, by decide, by decide, by decide, by decide⟩

/-- Witness for C1: the derivations of `seq(map(string,tensor(int32)))` and of
`record(a:int32,b:string)` in the grammar. -/
theorem serialize_after_parse_witness :
    (∃ t, FromString "seq(map(string,tensor(int32)))".toList = some t ∧
      ToString t = some "seq(map(string,tensor(int32)))".toList) ∧
    (∃ t, FromString "record(a:int32,b:string)".toList = some t ∧
      ToString t = some "record(a:int32,b:string)".toList) :=
  ⟨(serialize_after_parse "seq(map(string,tensor(int32)))".toList
      (Grammar.seq _ (Grammar.map .STRING _ (Grammar.tensor .INT32)))).1,
   (serialize_after_parse "record(a:int32,b:string)".toList
      (Grammar.record [("a".toList, "int32".toList), ("b".toList, "string".toList)]
        (by decide) (by decide)
        (by
          intro f hf
          simp only [List.mem_cons, List.mem_singleton, List.not_mem_nil, or_false] at hf
          rcases hf with rfl | rfl
          · exact Grammar.scalar .INT32
          · exact Grammar.scalar .STRING))).1⟩

/-- C5: for a non-empty list of clean names `n1..nk` and grammar strings `t1..tk`,
`FromString` of `record(n1:t1,...,nk:tk)` is the record whose field list is
`[(n1, parse t1), ..., (nk, parse tk)]` in that order, likewise for `union`, and
`ToString` of these descriptors gives back the same text, entries in list order;
`record(a:int32,b:string)` round-trips to itself and not to `record(b:string,a:int32)`. -/
theorem field_order_preserved (fields : List (List Char × List Char)) (hne : fields ≠ [])
    (hn : ∀ f ∈ fields, CleanName f.1 = true) (hg : ∀ f ∈ fields, Grammar f.2) :
    (∃ ts : List TypeProto,
      List.Forall₂ (fun f t => FromString f.2 = some t) fields ts ∧
      FromString ("record(".toList ++ joinFields fields ++ ")".toList)
        = some (.record_type (List.zipWith (fun f t => ValueInfoProto.mk f.1 t) fields ts)) ∧
      FromString ("union(".toList ++ joinFields fields ++ ")".toList)
        = some (.union_type (List.zipWith (fun f t => ValueInfoProto.mk f.1 t) fields ts)) ∧
      ToString (.record_type (List.zipWith (fun f t => ValueInfoProto.mk f.1 t) fields ts))
        = some ("record(".toList ++ joinFields fields ++ ")".toList) ∧
      ToString (.union_type (List.zipWith (fun f t => ValueInfoProto.mk f.1 t) fields ts))
        = some ("union(".toList ++ joinFields fields ++ ")".toList)) ∧
    (FromString "record(a:int32,b:string)".toList).bind ToString
      = some "record(a:int32,b:string)".toList ∧
    (FromString "record(a:int32,b:string)".toList).bind ToString
      ≠ some "record(b:string,a:int32)".toList := by
  refine ⟨?_, by decide, by decide⟩
  obtain ⟨ts, hts⟩ := exists_forall₂ _ fields (fun f hf => Grammar_descriptor f.2 (hg f hf))
  obtain ⟨e1, e2, e3⟩ := entries_of_fields fields ts hne hts hn
  have hz := zipWith_ne_nil fields ts hne hts
  have hrec : ToString (.record_type (List.zipWith (fun f t => ValueInfoProto.mk f.1 t) fields ts))
      = some ("record(".toList ++ joinFields fields ++ ")".toList) := by
    simp only [ToString, e3, Option.map_some']
    simp
  have huni : ToString (.union_type (List.zipWith (fun f t => ValueInfoProto.mk f.1 t) fields ts))
      = some ("union(".toList ++ joinFields fields ++ ")".toList) := by
    simp only [ToString, e3, Option.map_some']
    simp
  refine ⟨ts, ?_, ?_, ?_, hrec, huni⟩
  · exact hts.imp (fun _ _ h => FromString_ToString _ _ h.1 h.2.1 h.2.2)
  · refine FromString_ToString _ _ ?_ ?_ hrec
    · simp only [Lossless, hz, e1]
      rfl
    · simpa [VariantSet] using e2
  · refine FromString_ToString _ _ ?_ ?_ huni
    · simp only [Lossless, hz, e1]
      rfl
    · simpa [VariantSet] using e2

/-- Witness for C5: the fields `a:int32` and `b c:seq(float)`, the second name with an
inner blank. -/
theorem field_order_preserved_witness :
    ∃ ts : List TypeProto,
      List.Forall₂ (fun f t => FromString f.2 = some t)
        [("a".toList, "int32".toList), ("b c".toList, "seq(float)".toList)] ts ∧
      FromString ("record(".toList ++
          joinFields [("a".toList, "int32".toList), ("b c".toList, "seq(float)".toList)] ++
          ")".toList)
        = some (.record_type (List.zipWith (fun f t => ValueInfoProto.mk f.1 t)
            [("a".toList, "int32".toList), ("b c".toList, "seq(float)".toList)] ts)) :=
  (field_order_preserved [("a".toList, "int32".toList), ("b c".toList, "seq(float)".toList)]
    (by decide) (by decide)
    (by
      intro f hf
      simp only [List.mem_cons, List.mem_singleton, List.not_mem_nil, or_false] at hf
      rcases hf with rfl | rfl
      · exact Grammar.scalar .INT32
      · exact Grammar.seq _ (Grammar.scalar .FLOAT))).1.imp
    (fun _ h => ⟨h.1, h.2.1⟩)

end OpUtils
end Utils
end LotusIR

/-! ## Tensor ownership -/

namespace onnxruntime
namespace Tensor

theorem move_assign_state (st : Store) (d s : Nat) (h : d ≠ s) :
    (move_assign st d s).state
      = Function.update (Function.update st d (st s)) s (reset (st s)) := by
  simp only [move_assign, h, ne_eq, not_false_eq_true, if_true]

theorem move_assign_self (st : Store) (d : Nat) :
    move_assign st d d = { state := st, trace := [], threw := false } := by
  simp [move_assign]

theorem move_construct_state (st : Store) (b s : Nat) :
    (move_construct st b s).state
      = Function.update (Function.update st b (st s)) s (reset (st s)) := rfl

theorem reset_not_owner (t : Tensor) : (reset t).buffer_deleter_.isSome = false := rfl

/-- The store after a move from `s` into `d`, the other tensors untouched: single
ownership on `live` carries over to the live set extended by `d`. -/
theorem SingleOwner_move (live : List Nat) (st : Store) (d s : Nat) (hds : d ≠ s)
    (hs : s ∈ live) (h : SingleOwner live st) :
    SingleOwner (d :: live)
      (Function.update (Function.update st d (st s)) s (reset (st s))) := by
  have hval : ∀ k, k ≠ s → k ≠ d →
      (Function.update (Function.update st d (st s)) s (reset (st s))) k = st k := by
    intro k h1 h2
    simp [Function.update, h1, h2]
  have hvs : (Function.update (Function.update st d (st s)) s (reset (st s))) s
      = reset (st s) := by simp [Function.update]
  have hvd : (Function.update (Function.update st d (st s)) s (reset (st s))) d = st s := by
    simp [Function.update, hds]
  have hlive : ∀ k, k ∈ d :: live → k ≠ d → k ∈ live := by
    intro k hk hne
    rcases List.mem_cons.mp hk with rfl | hk
    · exact absurd rfl hne
    · exact hk
  intro i hi j hj hij oi oj
  by_cases his : i = s
  · subst his
    rw [hvs, reset_not_owner] at oi
    cases oi
  by_cases hjs : j = s
  · subst hjs
    rw [hvs, reset_not_owner] at oj
    cases oj
  by_cases hid : i = d
  · subst hid
    have hjd : j ≠ i := fun e => hij e.symm
    rw [hvd] at oi ⊢
    rw [hval j hjs hjd] at oj ⊢
    exact h s hs j (hlive j hj hjd) (fun e => hjs e.symm) oi oj
  · by_cases hjd : j = d
    · subst hjd
      rw [hvd] at oj ⊢
      rw [hval i his hid] at oi ⊢
      exact h i (hlive i hi hid) s hs his oi oj
    · rw [hval i his hid] at oi ⊢
      rw [hval j hjs hjd] at oj ⊢
      exact h i (hlive i hi hid) j (hlive j hj hjd) hij oi oj

theorem SingleOwner_mono (live live1 : List Nat) (st : Store) (hsub : ∀ k ∈ live1, k ∈ live)
    (h : SingleOwner live st) : SingleOwner live1 st :=
  fun i hi j hj hij oi oj => h i (hsub i hi) j (hsub j hj) hij oi oj

/-- After a move from an owning `s` into `d`, the live owners of the buffer of `s` are
exactly `d`. -/
theorem owner_after_move (live : List Nat) (st : Store) (d s : Nat) (hds : d ≠ s)
    (hs : s ∈ live) (h : SingleOwner live st) (hown : (st s).buffer_deleter_.isSome = true)
    (k : Nat) (hk : k ∈ d :: live) :
    (((Function.update (Function.update st d (st s)) s (reset (st s))) k).buffer_deleter_.isSome
        = true ∧
      ((Function.update (Function.update st d (st s)) s (reset (st s))) k).p_data_
        = (st s).p_data_) ↔ k = d := by
  have hvd : (Function.update (Function.update st d (st s)) s (reset (st s))) d = st s := by
    simp [Function.update, hds]
  constructor
  · rintro ⟨ok, pk⟩
    by_contra hkd
    have h2 := SingleOwner_move live st d s hds hs h k hk d (List.mem_cons_self _ _) hkd ok
      (by rw [hvd]; exact hown)
    rw [hvd] at h2
    exact h2 pk
  · rintro rfl
    rw [hvd]
    exact ⟨hown, rfl⟩

theorem ShallowCopy_state (st : Store) (d s : Nat) :
    (ShallowCopy st d s).state = st ∨
    ((st s).buffer_deleter_ = none ∧ d ≠ s ∧
      (ShallowCopy st d s).state
        = Function.update st d { (st s) with buffer_deleter_ := none }) := by
  by_cases ho : (st s).buffer_deleter_ = none
  · by_cases hds : d = s
    · left
      simp [ShallowCopy, ho, hds]
    · right
      refine ⟨ho, hds, ?_⟩
      simp only [ShallowCopy, ho, ne_eq, not_true_eq_false, if_false, hds, not_false_eq_true,
        if_true]
  · left
    simp [ShallowCopy, ho]

/-- C11: single ownership is preserved by move assignment (self-assignment included), by
`ShallowCopy` (whether it throws or not) and by move construction into a fresh address;
a move leaves the source without owning capability, and when the source owned its buffer
the destination is afterwards the only live owner of that buffer. -/
theorem single_owner_preserved (live : List Nat) (st : Store) (d s b : Nat)
    (h : SingleOwner live st) (hd : d ∈ live) (hs : s ∈ live) (_hb : b ∉ live) :
    SingleOwner live (move_assign st d s).state ∧
    SingleOwner live (ShallowCopy st d s).state ∧
    SingleOwner (b :: live) (move_construct st b s).state ∧
    (d ≠ s →
      ((move_assign st d s).state s).buffer_deleter_ = none ∧
      ((move_assign st d s).state d).buffer_deleter_ = (st s).buffer_deleter_ ∧
      ((st s).buffer_deleter_.isSome = true → ∀ k ∈ live,
        ((((move_assign st d s).state k).buffer_deleter_.isSome = true ∧
          ((move_assign st d s).state k).p_data_ = (st s).p_data_) ↔ k = d))) ∧
    (((move_construct st b s).state s).buffer_deleter_ = none ∧
      ((move_construct st b s).state b).buffer_deleter_ = (st s).buffer_deleter_ ∧
      ((st s).buffer_deleter_.isSome = true → ∀ k ∈ b :: live,
        ((((move_construct st b s).state k).buffer_deleter_.isSome = true ∧
          ((move_construct st b s).state k).p_data_ = (st s).p_data_) ↔ k = b))) := by
  have hbs : b ≠ s := fun e => _hb (e ▸ hs)
  refine ⟨?_, ?_, ?_, ?_, ?_⟩
  · by_cases hds : d = s
    · subst hds
      rw [move_assign_self]
      exact h
    · rw [move_assign_state st d s hds]
      exact SingleOwner_mono (d :: live) live _ (fun k hk => List.mem_cons_of_mem _ hk)
        (SingleOwner_move live st d s hds hs h)
  · rcases ShallowCopy_state st d s with e | ⟨_, _, e⟩
    · rw [e]; exact h
    · rw [e]
      intro i hi j hj hij oi oj
      by_cases hid : i = d
      · subst hid
        simp [Function.update] at oi
      · by_cases hjd : j = d
        · subst hjd
          simp [Function.update] at oj
        · simp only [Function.update, hid, hjd, dite_false] at oi oj ⊢
          exact h i hi j hj hij oi oj
  · rw [move_construct_state]
    exact SingleOwner_move live st b s hbs hs h
  · intro hds
    rw [move_assign_state st d s hds]
    refine ⟨by simp [Function.update, reset], by simp [Function.update, hds], ?_⟩
    intro hown k hk
    exact owner_after_move live st d s hds hs h hown k (List.mem_cons_of_mem _ hk)
  · rw [move_construct_state]
    refine ⟨by simp [Function.update, reset], by simp [Function.update, hbs], ?_⟩
    intro hown k hk
    exact owner_after_move live st b s hbs hs h hown k hk

/-- Witness for C11: two live owners of different buffers at addresses 0 and 1; the tensor
at 0 is moved into the one at 1. -/
theorem single_owner_preserved_witness :
    SingleOwner [0, 1]
      (move_assign (fun k => if k = 0 then ⟨some 7, some 1, ⟨[3]⟩, MLDataType.string, ⟨0⟩, 0⟩
        else ⟨some 9, some 1, ⟨[2]⟩, MLDataType.float, ⟨0⟩, 0⟩) 1 0).state ∧
    SingleOwner [2, 0, 1]
      (move_construct (fun k => if k = 0 then ⟨some 7, some 1, ⟨[3]⟩, MLDataType.string, ⟨0⟩, 0⟩
        else ⟨some 9, some 1, ⟨[2]⟩, MLDataType.float, ⟨0⟩, 0⟩) 2 0).state :=
  ⟨(single_owner_preserved [0, 1]
      (fun k => if k = 0 then ⟨some 7, some 1, ⟨[3]⟩, MLDataType.string, ⟨0⟩, 0⟩
        else ⟨some 9, some 1, ⟨[2]⟩, MLDataType.float, ⟨0⟩, 0⟩) 1 0 2
      (by unfold SingleOwner; decide) (by decide) (by decide) (by decide)).1,
   (single_owner_preserved [0, 1]
      (fun k => if k = 0 then ⟨some 7, some 1, ⟨[3]⟩, MLDataType.string, ⟨0⟩, 0⟩
        else ⟨some 9, some 1, ⟨[2]⟩, MLDataType.float, ⟨0⟩, 0⟩) 1 0 2
      (by unfold SingleOwner; decide) (by decide) (by decide) (by decide)).2.2.1⟩

/-- C19: for a non-null element type and a shape of size `n >= 0` the constructor performs
the `n` string constructions at slots `0 .. n-1` when an owning allocator is supplied and
the element type is string, and no construction otherwise; the tensor it builds, released
with its shape unchanged, destroys the same slots in the same order before the single
`Free`. -/
theorem construction_matches_destruction (p_type : MLDataType) (shape : TensorShape)
    (p_data : BufferNakedPtr) (alloc : OrtAllocatorInfo) (deleter : AllocatorPtr)
    (offset : Int) (n : Nat) (hnn : p_type ≠ MLDataType.nullptr)
    (hn : shape.Size = (n : Int)) :
    (ctor p_type shape p_data alloc deleter offset).threw = false ∧
    (deleter.isSome = true ∧ p_type = MLDataType.string →
      (ctor p_type shape p_data alloc deleter offset).trace
        = (List.range n).map (fun i => Effect.construct_string p_data i)) ∧
    (¬ (deleter.isSome = true ∧ p_type = MLDataType.string) →
      (ctor p_type shape p_data alloc deleter offset).trace = []) ∧
    (0 < n →
      ((ctor p_type shape p_data alloc deleter offset).trace
          = (List.range n).map (fun i => Effect.construct_string p_data i) ↔
        (deleter.isSome = true ∧ p_type = MLDataType.string))) ∧
    (∀ a, deleter = some a → p_type = MLDataType.string →
      ∃ t, (ctor p_type shape p_data alloc deleter offset).state = some t ∧
        (ctor p_type shape p_data alloc deleter offset).trace
          = (List.range n).map (fun i => Effect.construct_string p_data i) ∧
        ReleaseBuffer t
          = (List.range n).map (fun i => Effect.destroy_string p_data i)
            ++ [Effect.Free a p_data]) := by
  have hs : ¬ shape.Size < 0 := by rw [hn]; omega
  have hc : ctor p_type shape p_data alloc deleter offset
      = { state := some { dtype_ := p_type, shape_ := shape, p_data_ := p_data,
                          buffer_deleter_ := deleter, alloc_info_ := alloc,
                          byte_offset_ := offset },
          trace := if deleter.isSome = true ∧ p_type = MLDataType.string then
              (List.range n).map (fun i => Effect.construct_string p_data i)
            else [],
          threw := false } := by
    have hs2 : ¬ ((n : Int) < 0) := by omega
    simp only [ctor, hnn, if_false, Init, hn, Int.toNat_ofNat, hs2]
  rw [hc]
  refine ⟨rfl, ?_, ?_, ?_, ?_⟩
  · intro h
    simp only [h, and_self, if_true]
  · intro h
    simp only [h, if_false]
  · intro hpos
    by_cases h : deleter.isSome = true ∧ p_type = MLDataType.string
    · simp only [h, and_self, if_true]
    · simp only [h, if_false, iff_false]
      intro e
      have := congrArg List.length e
      simp at this
      omega
  · intro a ha hp
    subst ha hp
    refine ⟨_, rfl, by simp, ?_⟩
    simp [ReleaseBuffer, hn]

/-- Witness for C19: an owning string tensor of shape `[3]`. -/
theorem construction_matches_destruction_witness :
    (ctor MLDataType.string ⟨[3]⟩ (some 7) ⟨0⟩ (some 1) 0).trace
      = [Effect.construct_string (some 7) 0, Effect.construct_string (some 7) 1,
         Effect.construct_string (some 7) 2] :=
  (construction_matches_destruction MLDataType.string ⟨[3]⟩ (some 7) ⟨0⟩ (some 1) 0 3
    (by decide) (by decide)).2.1 ⟨rfl, rfl⟩

end Tensor
end onnxruntime

namespace LotusIR
namespace Utils
namespace OpUtils

/-! ## Element-type table -/

theorem mem_allowed_iff (name : List Char) :
    name ∈ GetAllowedDataTypes ↔ ∃ e, name = ToString_DataType e := by
  constructor
  · intro h
    simp only [GetAllowedDataTypes, List.mem_cons, List.mem_singleton, List.not_mem_nil,
      or_false] at h
    rcases h with h | h | h | h | h | h | h | h | h | h | h | h | h | h | h
    · exact ⟨.BOOL, h⟩
    · exact ⟨.STRING, h⟩
    · exact ⟨.FLOAT16, h⟩
    · exact ⟨.FLOAT, h⟩
    · exact ⟨.DOUBLE, h⟩
    · exact ⟨.INT8, h⟩
    · exact ⟨.INT16, h⟩
    · exact ⟨.INT32, h⟩
    · exact ⟨.INT64, h⟩
    · exact ⟨.UINT8, h⟩
    · exact ⟨.UINT16, h⟩
    · exact ⟨.UINT32, h⟩
    · exact ⟨.UINT64, h⟩
    · exact ⟨.COMPLEX64, h⟩
    · exact ⟨.COMPLEX128, h⟩
  · rintro ⟨e, rfl⟩
    cases e <;> decide

theorem FromString_DataType_invalid (name : List Char)
    (h : name ∉ GetAllowedDataTypes) : FromString_DataType name = none := by
  have hv : ¬ (IsValidDataTypeString name = true) := by
    intro hv
    exact h (by simpa [IsValidDataTypeString] using hv)
  unfold FromString_DataType
  rw [if_pos hv]

theorem FromString_DataType_some (name : List Char) (e : DataType)
    (h : FromString_DataType name = some e) : name = ToString_DataType e := by
  by_cases hm : name ∈ GetAllowedDataTypes
  · obtain ⟨e1, rfl⟩ := (mem_allowed_iff name).mp hm
    rw [FromString_DataType_name] at h
    cases h
    rfl
  · rw [FromString_DataType_invalid name hm] at h
    cases h

theorem FromString_DataType_iff (name : List Char) (e : DataType) :
    FromString_DataType name = some e ↔ name = ToString_DataType e :=
  ⟨FromString_DataType_some name e, fun h => by rw [h]; exact FromString_DataType_name e⟩

theorem FromString_DataType_isSome (name : List Char) :
    (FromString_DataType name).isSome = true ↔ name ∈ GetAllowedDataTypes := by
  rw [mem_allowed_iff, Option.isSome_iff_exists]
  constructor
  · rintro ⟨e, h⟩
    exact ⟨e, FromString_DataType_some name e h⟩
  · rintro ⟨e, h⟩
    exact ⟨e, (FromString_DataType_iff name e).mpr h⟩

/-- C13: the element-type table is a bijection between the fifteen codes and their
names: `FromString(ToString(c))` returns `c`, every table name is the name of the code
`FromString` returns for it, and distinct codes have distinct names. -/
theorem name_code_bijection :
    (∀ c : DataType, FromString_DataType (ToString_DataType c) = some c) ∧
    (∀ n ∈ GetAllowedDataTypes,
      ∃ c, FromString_DataType n = some c ∧ ToString_DataType c = n) ∧
    Function.Injective ToString_DataType ∧
    GetAllowedDataTypes.length = 15 ∧ GetAllowedDataTypes.Nodup := by
  refine ⟨FromString_DataType_name, ?_, ?_, by decide, by decide⟩
  · intro n hn
    obtain ⟨e, rfl⟩ := (mem_allowed_iff n).mp hn
    exact ⟨e, FromString_DataType_name e, rfl⟩
  · intro a b hab
    have := FromString_DataType_name a
    rw [hab, FromString_DataType_name b] at this
    exact (Option.some.inj this).symm

/-! ## When the serializer returns -/

mutual
theorem ToString_isSome_eq : ∀ (t : TypeProto),
    (ToString t).isSome = (VariantSet t && ListsNonEmpty t)
  | .VALUE_NOT_SET => rfl
  | .tensor_type e shape => by
    simp only [ToString, VariantSet, ListsNonEmpty, Bool.and_self]
    split <;> rfl
  | .sparse_tensor_type _ => rfl
  | .seq_type t => by
    simp only [ToString, VariantSet, ListsNonEmpty, Option.isSome_map']
    exact ToString_isSome_eq t
  | .map_type _ t => by
    simp only [ToString, VariantSet, ListsNonEmpty, Option.isSome_map']
    exact ToString_isSome_eq t
  | .record_type fs => by
    simp only [ToString, VariantSet, ListsNonEmpty, Option.isSome_map']
    rw [ToStringEntries_isSome_eq fs]
    cases fs.isEmpty <;> cases VariantSetEntries fs <;> cases ListsNonEmptyEntries fs <;> rfl
  | .union_type fs => by
    simp only [ToString, VariantSet, ListsNonEmpty, Option.isSome_map']
    rw [ToStringEntries_isSome_eq fs]
    cases fs.isEmpty <;> cases VariantSetEntries fs <;> cases ListsNonEmptyEntries fs <;> rfl
theorem ToStringEntries_isSome_eq : ∀ (fs : List ValueInfoProto),
    (ToStringEntries fs).isSome
      = (!fs.isEmpty && (VariantSetEntries fs && ListsNonEmptyEntries fs))
  | [] => rfl
  | [.mk n t] => by
    simp only [ToStringEntries, Option.isSome_map', VariantSetEntries, ListsNonEmptyEntries,
      Bool.and_true, List.isEmpty_cons, Bool.not_false, Bool.true_and]
    exact ToString_isSome_eq t
  | (.mk n t) :: g :: rest => by
    have hm : (ToStringEntries ((.mk n t) :: g :: rest)).isSome
        = ((ToString t).isSome && (ToStringEntries (g :: rest)).isSome) := by
      rw [ToStringEntries]
      cases ToString t <;> cases ToStringEntries (g :: rest) <;> rfl
    rw [hm, ToString_isSome_eq t, ToStringEntries_isSome_eq (g :: rest)]
    simp only [List.isEmpty_cons, Bool.not_false, Bool.true_and]
    rw [VariantSetEntries, ListsNonEmptyEntries]
    cases VariantSet t <;> cases ListsNonEmpty t <;> cases VariantSetEntries (g :: rest) <;>
      cases ListsNonEmptyEntries (g :: rest) <;> rfl
end

/-- C18: `ToString` returns no string on a record with zero fields and on a union with
zero choices, nor on any descriptor that contains one at some depth; it returns a string
exactly on the descriptors whose variant is set at every level and whose record and union
lists are all non-empty, so that every index it uses, `size-1` included, is in range. -/
theorem serialize_fails_on_empty_list (t : TypeProto) :
    ToString (.record_type []) = none ∧ ToString (.union_type []) = none ∧
    (ListsNonEmpty t = false → ToString t = none) ∧
    (VariantSet t = true ∧ ListsNonEmpty t = true → ∃ S, ToString t = some S) ∧
    ((∃ S, ToString t = some S) → VariantSet t = true ∧ ListsNonEmpty t = true) ∧
    ToString (.seq_type (.map_type .STRING (.record_type []))) = none := by
  have h := ToString_isSome_eq t
  refine ⟨rfl, rfl, ?_, ?_, ?_, rfl⟩
  · intro hl
    rw [hl, Bool.and_false] at h
    cases hS : ToString t with
    | none => rfl
    | some S => rw [hS] at h; cases h
  · rintro ⟨h1, h2⟩
    rw [h1, h2] at h
    exact Option.isSome_iff_exists.mp h
  · rintro ⟨S, hS⟩
    rw [hS] at h
    simpa using h.symm

/-! ## Registry: interning and resolving -/

theorem find_eq_none_iff (key : List Char) (m : TypeStrToProtoMap) :
    find key m = none ↔ key ∉ keys m := by
  induction m with
  | nil => simp [find, keys]
  | cons x m ih =>
    obtain ⟨k, p⟩ := x
    rw [find_cons]
    by_cases hk : k = key
    · simp [hk, keys]
    · rw [if_neg hk]
      have hk2 : ¬ key = k := fun e => hk e.symm
      simp only [Option.map_eq_none', ih, keys, List.map_cons, List.mem_cons, hk2, false_or]

theorem ToType_absent (m : TypeStrToProtoMap) (p : TypeProto) (k : List Char)
    (hs : ToString p = some k) (hf : find k m = none) :
    ToType m p = some (m.length, m ++ [(k, p)]) := by
  have hnew : find k (m ++ [(k, p)]) = some m.length := by
    rw [find_append_of_none _ _ _ hf, find_cons, if_pos rfl]
    simp
  unfold ToType
  rw [hs]
  simp only [hf, if_true, hnew, Option.map_some']

theorem ToType_present (m : TypeStrToProtoMap) (p : TypeProto) (k : List Char) (i : Nat)
    (hs : ToString p = some k) (hf : find k m = some i) : ToType m p = some (i, m) := by
  unfold ToType
  rw [hs]
  simp only [hf, reduceCtorEq, if_false, Option.map_some']

theorem ToTypeProto_isSome (m : TypeStrToProtoMap) (s : List Char) :
    (ToTypeProto m s).isSome = true ↔ s ∈ keys m := by
  unfold ToTypeProto
  cases hf : find s m with
  | none =>
    have := (find_eq_none_iff s m).mp hf
    simp [this]
  | some i =>
    obtain ⟨p, hp⟩ := find_key s m i hf
    have hmem : s ∈ keys m := by
      by_contra hc
      rw [(find_eq_none_iff s m).mpr hc] at hf
      cases hf
    simp only [hp, Option.map_some', Option.isSome_some, hmem]

theorem Call.run_keys (m m1 : TypeStrToProtoMap) (c : Call) (h : c.run m = some m1) :
    ∃ k, c.canonical = some k ∧ ∀ s, s ∈ keys m1 ↔ (s ∈ keys m ∨ s = k) := by
  have key : ∀ p hd, ToType m p = some (hd, m1) →
      ∃ k, ToString p = some k ∧ ∀ s, s ∈ keys m1 ↔ (s ∈ keys m ∨ s = k) := by
    intro p hd hr
    cases hs : ToString p with
    | none => simp [ToType, hs] at hr
    | some k =>
      refine ⟨k, rfl, ?_⟩
      cases hf : find k m with
      | none =>
        rw [ToType_absent m p k hs hf] at hr
        have e := (Prod.mk.inj (Option.some.inj hr)).2
        rw [← e]
        intro s
        simp only [keys, List.map_append, List.map_cons, List.map_nil, List.mem_append,
          List.mem_singleton]
      | some i =>
        rw [ToType_present m p k i hs hf] at hr
        have e := (Prod.mk.inj (Option.some.inj hr)).2
        rw [← e]
        have hmem : k ∈ keys m := by
          by_contra hc
          rw [(find_eq_none_iff k m).mpr hc] at hf
          cases hf
        intro s
        constructor
        · exact fun h => Or.inl h
        · rintro (h | rfl)
          · exact h
          · exact hmem
  cases c with
  | proto p =>
    simp only [Call.run, Option.map_eq_some'] at h
    obtain ⟨⟨hd, m2⟩, hr, rfl⟩ := h
    exact key p hd hr
  | str x =>
    simp only [Call.run, Option.map_eq_some', ToType_string] at h
    obtain ⟨⟨hd, m2⟩, hr, rfl⟩ := h
    cases hp : FromString x with
    | none => simp [hp] at hr
    | some p =>
      rw [hp] at hr
      obtain ⟨k, hk, hkeys⟩ := key p hd hr
      exact ⟨k, by simp [Call.canonical, hp, hk], hkeys⟩

theorem runCalls_keys (calls : List Call) (m m1 : TypeStrToProtoMap)
    (h : runCalls m calls = some m1) (s : List Char) :
    s ∈ keys m1 ↔ (s ∈ keys m ∨ ∃ c ∈ calls, c.canonical = some s) := by
  induction calls generalizing m with
  | nil =>
    simp only [runCalls, Option.some.injEq] at h
    subst h
    simp
  | cons c cs ih =>
    simp only [runCalls] at h
    cases hc : c.run m with
    | none => simp [hc] at h
    | some m2 =>
      rw [hc] at h
      obtain ⟨k, hk, hkeys⟩ := Call.run_keys m m2 c hc
      rw [ih m2 h, hkeys]
      constructor
      · rintro ((h1 | rfl) | ⟨c1, hc1, hc2⟩)
        · exact Or.inl h1
        · exact Or.inr ⟨c, List.mem_cons_self _ _, hk⟩
        · exact Or.inr ⟨c1, List.mem_cons_of_mem _ hc1, hc2⟩
      · rintro (h1 | ⟨c1, hc1, hc2⟩)
        · exact Or.inl (Or.inl h1)
        · rcases List.mem_cons.mp hc1 with rfl | hc1
          · rw [hk] at hc2
            exact Or.inl (Or.inr (Option.some.inj hc2).symm)
          · exact Or.inr ⟨c1, hc1, hc2⟩

theorem deref_of_find (m ext : TypeStrToProtoMap) (k : List Char) (h : PTYPE)
    (hf : find k m = some h) : deref (m ++ ext) h = some k := by
  obtain ⟨p, hp⟩ := find_key k (m ++ ext) h (find_append_of_some k m ext h hf)
  simp only [deref, hp, Option.map_some']

theorem mem_keys_append (m ext : TypeStrToProtoMap) (k : List Char) (h : k ∈ keys m) :
    k ∈ keys (m ++ ext) := by
  simp only [keys, List.map_append, List.mem_append]
  exact Or.inl h

/-- C14: `ToTypeProto` succeeds exactly on the strings that are keys of the registry;
the handle a call of `ToType` returns points to a key, and it resolves both immediately
and after any further calls of `ToType`, which only add nodes; in a registry built from
the empty one, a string that no call interned does not resolve. -/
theorem handles_stay_resolvable (m : TypeStrToProtoMap) :
    (∀ s, (ToTypeProto m s).isSome = true ↔ s ∈ keys m) ∧
    (∀ p h m1, ToType m p = some (h, m1) →
      ∃ k, ToString p = some k ∧
        ∀ calls m2, runCalls m1 calls = some m2 →
          deref m2 h = some k ∧ (ToTypeProto m2 k).isSome = true) ∧
    (∀ calls m2, runCalls m calls = some m2 → ∃ ext, m2 = m ++ ext) ∧
    (∀ calls, runCalls [] calls = some m →
      ∀ s, (∀ c ∈ calls, c.canonical ≠ some s) → ToTypeProto m s = none) := by
  refine ⟨ToTypeProto_isSome m, ?_, fun calls m2 h => runCalls_extends calls m m2 h, ?_⟩
  · intro p h m1 hr
    obtain ⟨k, ext, hk, _, hf⟩ := ToType_some m m1 p h hr
    refine ⟨k, hk, ?_⟩
    intro calls m2 hrun
    obtain ⟨ext2, rfl⟩ := runCalls_extends calls m1 m2 hrun
    refine ⟨deref_of_find m1 ext2 k h hf, ?_⟩
    rw [ToTypeProto_isSome]
    apply mem_keys_append
    by_contra hc
    rw [(find_eq_none_iff k m1).mpr hc] at hf
    cases hf
  · intro calls hrun s hs
    have hnot : s ∉ keys m := by
      intro hmem
      rcases (runCalls_keys calls [] m hrun s).mp hmem with h0 | ⟨c, hc, hcs⟩
      · simp [keys] at h0
      · exact hs c hc hcs
    cases hr : ToTypeProto m s with
    | none => rfl
    | some t =>
      have := (ToTypeProto_isSome m s).mp (by rw [hr]; rfl)
      exact absurd this hnot

/-- C15: with canonical string `k = ToString(p)`, `ToType(p)` leaves the registry
unchanged when `k` is a key and appends exactly the node `k -> p` when it is not; a second
`ToType(p)` changes nothing and returns the same handle. Interning `tensor(float)` without
shape and then with shape `[2,3]` keeps the first descriptor. -/
theorem intern_is_insert_if_absent (m : TypeStrToProtoMap) (p : TypeProto) (k : List Char)
    (hk : ToString p = some k) :
    (k ∈ keys m → ∃ h, ToType m p = some (h, m)) ∧
    (k ∉ keys m → ToType m p = some (m.length, m ++ [(k, p)])) ∧
    (∀ h m1, ToType m p = some (h, m1) → ToType m1 p = some (h, m1)) ∧
    ToType [] (.tensor_type .FLOAT [])
      = some (0, [("tensor(float)".toList, .tensor_type .FLOAT [])]) ∧
    ToType [("tensor(float)".toList, .tensor_type .FLOAT [])] (.tensor_type .FLOAT [⟨2⟩, ⟨3⟩])
      = some (0, [("tensor(float)".toList, .tensor_type .FLOAT [])]) ∧
    ToTypeProto [("tensor(float)".toList, .tensor_type .FLOAT [])] "tensor(float)".toList
      = some (.tensor_type .FLOAT []) := by
  refine ⟨?_, ?_, ?_, rfl, rfl, rfl⟩
  · intro hmem
    cases hf : find k m with
    | none => exact absurd hmem ((find_eq_none_iff k m).mp hf)
    | some i => exact ⟨i, ToType_present m p k i hk hf⟩
  · intro hmem
    exact ToType_absent m p k hk ((find_eq_none_iff k m).mpr hmem)
  · intro h m1 hr
    obtain ⟨k1, ext, hk1, _, hf⟩ := ToType_some m m1 p h hr
    rw [hk] at hk1
    cases hk1
    exact ToType_present m1 p k h hk hf

/-- Witness for C15: interning `seq(float)` in the empty registry and in the registry
that holds it. -/
theorem intern_is_insert_if_absent_witness :
    ToType [] (.seq_type (.tensor_type .FLOAT [⟨0⟩]))
      = some (0, [("seq(float)".toList, .seq_type (.tensor_type .FLOAT [⟨0⟩]))]) ∧
    ∃ h, ToType [("seq(float)".toList, .seq_type (.tensor_type .FLOAT [⟨0⟩]))]
        (.seq_type (.tensor_type .FLOAT [⟨0⟩]))
      = some (h, [("seq(float)".toList, .seq_type (.tensor_type .FLOAT [⟨0⟩]))]) :=
  ⟨(intern_is_insert_if_absent [] (.seq_type (.tensor_type .FLOAT [⟨0⟩])) "seq(float)".toList
      rfl).2.1 (by decide),
   (intern_is_insert_if_absent [("seq(float)".toList, .seq_type (.tensor_type .FLOAT [⟨0⟩]))]
      (.seq_type (.tensor_type .FLOAT [⟨0⟩])) "seq(float)".toList rfl).1 (by decide)⟩

end OpUtils
end Utils
end LotusIR

namespace LotusIR
namespace Utils

/-! ## The parser as a function of the characters in view -/

namespace StringRange

theorem LStrip_str_fst (s p_str : StringRange) :
    (s.LStrip_str p_str).1 = p_str.m_data.isPrefixOf s.m_data := by
  rw [LStrip_str_eq]
  cases p_str.m_data.isPrefixOf s.m_data <;> rfl

theorem LStrip_str_snd_data (s p_str : StringRange) :
    (s.LStrip_str p_str).2.m_data =
      if p_str.m_data.isPrefixOf s.m_data then s.m_data.drop p_str.m_data.length
      else s.m_data := by
  rw [LStrip_str_eq]
  cases p_str.m_data.isPrefixOf s.m_data <;> rfl

theorem isPrefixOf_singleton (x : Char) (l : List Char) :
    [x].isPrefixOf l = decide (l.head? = some x) := by
  cases l with
  | nil => rfl
  | cons a l =>
    by_cases h : a = x
    · simp [List.isPrefixOf, h]
    · have h2 : ¬ x = a := fun e => h e.symm
      simp [List.isPrefixOf, h, h2]

theorem EndsWith_char (s : StringRange) (x : Char) :
    s.EndsWith ⟨[x], []⟩ = decide (s.m_data.getLast? = some x) := by
  obtain ⟨data, cap⟩ := s
  rcases List.eq_nil_or_concat data with rfl | ⟨init, last, rfl⟩
  · simp [EndsWith, Size]
  · by_cases h : last = x
    · simp [EndsWith, Size, h]
    · simp [EndsWith, Size, h]

theorem RStrip_str_char_data (s : StringRange) (x : Char) :
    (s.RStrip_str ⟨[x], []⟩).2.m_data =
      if s.m_data.getLast? = some x then s.m_data.dropLast else s.m_data := by
  unfold RStrip_str
  rw [EndsWith_char]
  by_cases h : s.m_data.getLast? = some x
  · have hne : s.m_data ≠ [] := by
      intro e
      rw [e] at h
      cases h
    have hpos : 1 ≤ s.m_data.length := List.length_pos.mpr hne
    simp only [h, decide_True, if_true, RStrip_n, Size, ge_iff_le, List.length_singleton,
      hpos, List.dropLast_eq_take]
  · simp only [h, decide_False, Bool.false_eq_true, if_false]

theorem LAndRStrip_data (s : StringRange) : s.LAndRStrip.2.m_data = trim s.m_data := by
  simp only [LAndRStrip, RStrip_data, LStrip_data, trim]

theorem ParensWhitespaceStrip_data (s : StringRange) :
    s.ParensWhitespaceStrip.m_data = pwsData s.m_data := by
  have e2 : ofString "(".toList = ⟨['('], []⟩ := by decide
  have e3 : ofString ")".toList = ⟨[')'], []⟩ := by decide
  unfold ParensWhitespaceStrip pwsData
  simp only [RStrip_data, e3, RStrip_str_char_data, LAndRStrip_data, e2, LStrip_str_snd_data,
    LStrip_data, isPrefixOf_singleton, decide_eq_true_eq, List.length_singleton,
    List.drop_one]

end StringRange

theorem findIdx_some_drop (x : Char) (l : List Char) (k : Nat)
    (h : StringRange.findIdx x l = some k) :
    k < l.length ∧ l.drop k = x :: l.drop (k + 1) ∧ ∀ c ∈ l.take k, c ≠ x := by
  induction l generalizing k with
  | nil => simp [StringRange.findIdx] at h
  | cons a l ih =>
    by_cases ha : a = x
    · simp only [StringRange.findIdx, ha, if_true, Option.some.injEq] at h
      subst h
      simp [ha]
    · simp only [StringRange.findIdx, ha, if_false, Option.map_eq_some'] at h
      obtain ⟨j, hj, rfl⟩ := h
      obtain ⟨h1, h2, h3⟩ := ih j hj
      refine ⟨by simp; omega, by simpa using h2, ?_⟩
      intro c hc
      simp only [List.take_succ_cons, List.mem_cons] at hc
      rcases hc with rfl | hc
      · exact ha
      · exact h3 c hc

theorem findIdx_eq_none (x : Char) (l : List Char) :
    StringRange.findIdx x l = none ↔ x ∉ l := by
  induction l with
  | nil => simp [StringRange.findIdx]
  | cons a l ih =>
    by_cases ha : a = x
    · simp [StringRange.findIdx, ha]
    · have ha2 : ¬ x = a := fun e => ha e.symm
      simp [StringRange.findIdx, ha, ha2, ih]

namespace OpUtils
open StringRange

theorem parseEntry_eq_entryData (F : List Char → Option TypeProto) (f : StringRange) :
    parseEntry F f = entryData F f.m_data := by
  obtain ⟨data, cap⟩ := f
  unfold parseEntry entryData
  simp only [Find]
  cases hfind : findIdx ':' data with
  | none => rfl
  | some k =>
    obtain ⟨hlt, hdrop, _⟩ := findIdx_some_drop ':' data k hfind
    have hle : k ≤ data.length := Nat.le_of_lt hlt
    have e1 : ":".toList = [':'] := rfl
    have s1 : isspace ':' = false := by decide
    simp only [ofData, Data, ofString_data, LStrip_n, Size, hle, if_true, hdrop, e1,
      LStrip_str_char _ _ _ _ s1]

theorem parseEntries_eq_entriesData (F : List Char → Option TypeProto)
    (recs : List StringRange) :
    parseEntries F recs = entriesData F (recs.map Data) := by
  induction recs with
  | nil => rfl
  | cons f rest ih =>
    simp only [parseEntries, List.map_cons, entriesData, parseEntry_eq_entryData, ih, Data]

theorem parseEntries_SplitRecords (F : List Char → Option TypeProto) (s : StringRange) :
    parseEntries F (SplitRecords s []).2 = entriesData F (splitAcc s.m_data [] 0) := by
  obtain ⟨_, new, hnew, hdata⟩ := SplitRecords_eq_splitAcc s []
  rw [List.nil_append] at hnew
  rw [hnew, parseEntries_eq_entriesData, hdata]

theorem lit_paren_open : ofString "(".toList = ⟨['('], []⟩ := by decide
theorem lit_paren_close : ofString ")".toList = ⟨[')'], []⟩ := by decide

theorem FB_map_data (F : List Char → Option TypeProto) (p_src : List Char)
    (h1 : ((ofString p_src).LStrip_str (ofString "seq".toList)).1 = false)
    (h2 : ((ofString p_src).LStrip_str (ofString "map".toList)).1 = true) :
    FromStringBody F p_src =
      mapData F ((ofString p_src).LStrip_str (ofString "map".toList)).2.ParensWhitespaceStrip.m_data := by
  unfold FromStringBody
  dsimp only
  rw [if_neg (by rw [h1]; exact Bool.false_ne_true), if_pos h2]
  generalize ((ofString p_src).LStrip_str (ofString "map".toList)).2.ParensWhitespaceStrip = s
  obtain ⟨data, cap⟩ := s
  unfold mapData
  simp only [Find]
  cases hfind : findIdx ',' data with
  | none => rfl
  | some k =>
    obtain ⟨hlt, hdrop, _⟩ := findIdx_some_drop ',' data k hfind
    have hle : k ≤ data.length := Nat.le_of_lt hlt
    have e1 : ",".toList = [','] := rfl
    have s1 : isspace ',' = false := by decide
    simp only [ofData, Data, ofString_data, LStrip_n, Size, hle, if_true, hdrop, e1,
      LStrip_str_char _ _ _ _ s1, List.take_length]

theorem FB_sparse (F : List Char → Option TypeProto) (p_src : List Char)
    (h1 : ((ofString p_src).LStrip_str (ofString "seq".toList)).1 = false)
    (h2 : ((ofString p_src).LStrip_str (ofString "map".toList)).1 = false)
    (h3 : ((ofString p_src).LStrip_str (ofString "record".toList)).1 = false)
    (h4 : ((ofString p_src).LStrip_str (ofString "union".toList)).1 = false)
    (h5 : ((ofString p_src).LStrip_str (ofString "sparse".toList)).1 = true) :
    FromStringBody F p_src =
      (FromString_DataType
        ((ofString p_src).LStrip_str (ofString "sparse".toList)).2.ParensWhitespaceStrip.Data).map
        TypeProto.sparse_tensor_type := by
  unfold FromStringBody
  dsimp only
  rw [if_neg (by rw [h1]; exact Bool.false_ne_true),
    if_neg (by rw [h2]; exact Bool.false_ne_true),
    if_neg (by rw [h3]; exact Bool.false_ne_true),
    if_neg (by rw [h4]; exact Bool.false_ne_true), if_pos h5]

theorem FB_tensor (F : List Char → Option TypeProto) (p_src : List Char)
    (h1 : ((ofString p_src).LStrip_str (ofString "seq".toList)).1 = false)
    (h2 : ((ofString p_src).LStrip_str (ofString "map".toList)).1 = false)
    (h3 : ((ofString p_src).LStrip_str (ofString "record".toList)).1 = false)
    (h4 : ((ofString p_src).LStrip_str (ofString "union".toList)).1 = false)
    (h5 : ((ofString p_src).LStrip_str (ofString "sparse".toList)).1 = false)
    (h6 : ((ofString p_src).LStrip_str (ofString "tensor".toList)).1 = true) :
    FromStringBody F p_src =
      (FromString_DataType
        ((ofString p_src).LStrip_str (ofString "tensor".toList)).2.ParensWhitespaceStrip.Data).map
        (fun e => TypeProto.tensor_type e []) := by
  unfold FromStringBody
  dsimp only
  rw [if_neg (by rw [h1]; exact Bool.false_ne_true),
    if_neg (by rw [h2]; exact Bool.false_ne_true),
    if_neg (by rw [h3]; exact Bool.false_ne_true),
    if_neg (by rw [h4]; exact Bool.false_ne_true),
    if_neg (by rw [h5]; exact Bool.false_ne_true), if_pos h6]

theorem FB_scalar (F : List Char → Option TypeProto) (p_src : List Char)
    (h1 : ((ofString p_src).LStrip_str (ofString "seq".toList)).1 = false)
    (h2 : ((ofString p_src).LStrip_str (ofString "map".toList)).1 = false)
    (h3 : ((ofString p_src).LStrip_str (ofString "record".toList)).1 = false)
    (h4 : ((ofString p_src).LStrip_str (ofString "union".toList)).1 = false)
    (h5 : ((ofString p_src).LStrip_str (ofString "sparse".toList)).1 = false)
    (h6 : ((ofString p_src).LStrip_str (ofString "tensor".toList)).1 = false) :
    FromStringBody F p_src =
      (FromString_DataType (ofString p_src).Data).map
        (fun e => TypeProto.tensor_type e [⟨0⟩]) := by
  unfold FromStringBody
  dsimp only
  rw [if_neg (by rw [h1]; exact Bool.false_ne_true),
    if_neg (by rw [h2]; exact Bool.false_ne_true),
    if_neg (by rw [h3]; exact Bool.false_ne_true),
    if_neg (by rw [h4]; exact Bool.false_ne_true),
    if_neg (by rw [h5]; exact Bool.false_ne_true),
    if_neg (by rw [h6]; exact Bool.false_ne_true)]

/-- The keyword test of `FromString` reads only the trimmed input. -/
theorem kw_test_eq (p_src kw1 kw : List Char) (hk : ofString kw1 = ⟨kw, []⟩) :
    ((ofString p_src).LStrip_str (ofString kw1)).1 = kw.isPrefixOf (trim p_src) := by
  rw [hk, LStrip_str_fst, ofString_data]

/-- After a successful keyword test the stripped body is `pwsData` of what follows the
keyword. -/
theorem kw_body_eq (p_src kw1 kw : List Char) (hk : ofString kw1 = ⟨kw, []⟩)
    (h : kw.isPrefixOf (trim p_src) = true) :
    ((ofString p_src).LStrip_str (ofString kw1)).2.ParensWhitespaceStrip.m_data
      = pwsData ((trim p_src).drop kw.length) := by
  rw [ParensWhitespaceStrip_data, hk, LStrip_str_snd_data, ofString_data]
  simp only [h, if_true]

/-- Refinement: the body of `FromString` is the function `parseData` of the trimmed
input. -/
theorem FromStringBody_eq_parseData (F : List Char → Option TypeProto) (p_src : List Char) :
    FromStringBody F p_src = parseData F (trim p_src) := by
  have t1 := kw_test_eq p_src _ _ lit_seq
  have t2 := kw_test_eq p_src _ _ lit_map
  have t3 := kw_test_eq p_src _ _ lit_record
  have t4 := kw_test_eq p_src _ _ lit_union
  have t5 := kw_test_eq p_src _ _ lit_sparse
  have t6 := kw_test_eq p_src _ _ lit_tensor
  have q1 : "seq".toList = ['s', 'e', 'q'] := rfl
  have q2 : "map".toList = ['m', 'a', 'p'] := rfl
  have q3 : "record".toList = ['r', 'e', 'c', 'o', 'r', 'd'] := rfl
  have q4 : "union".toList = ['u', 'n', 'i', 'o', 'n'] := rfl
  have q5 : "sparse".toList = ['s', 'p', 'a', 'r', 's', 'e'] := rfl
  have q6 : "tensor".toList = ['t', 'e', 'n', 's', 'o', 'r'] := rfl
  unfold parseData
  by_cases h1 : ['s', 'e', 'q'].isPrefixOf (trim p_src) = true
  · rw [if_pos (by rw [q1]; exact h1), FB_seq F p_src (by rw [t1]; exact h1), Data,
      kw_body_eq p_src _ _ lit_seq h1]
    rfl
  rw [if_neg (by rw [q1]; exact h1)]
  have n1 := t1.trans (Bool.eq_false_iff.mpr h1)
  by_cases h2 : ['m', 'a', 'p'].isPrefixOf (trim p_src) = true
  · rw [if_pos (by rw [q2]; exact h2), FB_map_data F p_src n1 (by rw [t2]; exact h2),
      kw_body_eq p_src _ _ lit_map h2]
    rfl
  rw [if_neg (by rw [q2]; exact h2)]
  have n2 := t2.trans (Bool.eq_false_iff.mpr h2)
  by_cases h3 : ['r', 'e', 'c', 'o', 'r', 'd'].isPrefixOf (trim p_src) = true
  · rw [if_pos (by rw [q3]; exact h3), FB_record F p_src n1 n2 (by rw [t3]; exact h3),
      parseEntries_SplitRecords, kw_body_eq p_src _ _ lit_record h3]
    rfl
  rw [if_neg (by rw [q3]; exact h3)]
  have n3 := t3.trans (Bool.eq_false_iff.mpr h3)
  by_cases h4 : ['u', 'n', 'i', 'o', 'n'].isPrefixOf (trim p_src) = true
  · rw [if_pos (by rw [q4]; exact h4), FB_union F p_src n1 n2 n3 (by rw [t4]; exact h4),
      parseEntries_SplitRecords, kw_body_eq p_src _ _ lit_union h4]
    rfl
  rw [if_neg (by rw [q4]; exact h4)]
  have n4 := t4.trans (Bool.eq_false_iff.mpr h4)
  by_cases h5 : ['s', 'p', 'a', 'r', 's', 'e'].isPrefixOf (trim p_src) = true
  · rw [if_pos (by rw [q5]; exact h5), FB_sparse F p_src n1 n2 n3 n4 (by rw [t5]; exact h5),
      Data, kw_body_eq p_src _ _ lit_sparse h5]
    rfl
  rw [if_neg (by rw [q5]; exact h5)]
  have n5 := t5.trans (Bool.eq_false_iff.mpr h5)
  by_cases h6 : ['t', 'e', 'n', 's', 'o', 'r'].isPrefixOf (trim p_src) = true
  · rw [if_pos (by rw [q6]; exact h6),
      FB_tensor F p_src n1 n2 n3 n4 n5 (by rw [t6]; exact h6), Data,
      kw_body_eq p_src _ _ lit_tensor h6]
    rfl
  rw [if_neg (by rw [q6]; exact h6)]
  have n6 := t6.trans (Bool.eq_false_iff.mpr h6)
  rw [FB_scalar F p_src n1 n2 n3 n4 n5 n6, Data, ofString_data]

end OpUtils
end Utils
end LotusIR

namespace LotusIR
namespace Utils
namespace OpUtils
open StringRange

/-! ## Consequences of the refinement -/

theorem FromString_eq_parseData (p_src : List Char) :
    FromString p_src = parseData (FromStringFuel p_src.length) (trim p_src) := by
  rw [FromString, FromStringFuel, FromStringBody_eq_parseData]

theorem FromStringFuel_succ_eq_parseData (fuel : Nat) (p_src : List Char) :
    FromStringFuel (fuel + 1) p_src = parseData (FromStringFuel fuel) (trim p_src) := by
  rw [FromStringFuel, FromStringBody_eq_parseData]

/-- A parse that fails whatever the recursive calls return fails at every depth. -/
theorem fails_at_every_depth (p_src : List Char)
    (h : ∀ F, parseData F (trim p_src) = none) :
    FromString p_src = none ∧ ∀ fuel, FromStringFuel fuel p_src = none := by
  refine ⟨by rw [FromString_eq_parseData, h], ?_⟩
  intro fuel
  cases fuel with
  | zero => rfl
  | succ f => rw [FromStringFuel_succ_eq_parseData, h]

theorem parseData_seq (F : List Char → Option TypeProto) (r : List Char) :
    parseData F ("seq".toList ++ r) = (F (pwsData r)).map TypeProto.seq_type := by
  have hp : "seq".toList.isPrefixOf ("seq".toList ++ r) = true :=
    List.isPrefixOf_iff_prefix.mpr (List.prefix_append _ _)
  unfold parseData
  rw [if_pos hp]
  rfl

theorem parseData_map (F : List Char → Option TypeProto) (r : List Char) :
    parseData F ("map".toList ++ r) = mapData F (pwsData r) := by
  have hp : "map".toList.isPrefixOf ("map".toList ++ r) = true :=
    List.isPrefixOf_iff_prefix.mpr (List.prefix_append _ _)
  unfold parseData
  rw [if_neg (by rw [show "seq".toList.isPrefixOf ("map".toList ++ r) = false from rfl]
                 exact Bool.false_ne_true), if_pos hp]
  rfl

theorem parseData_record (F : List Char → Option TypeProto) (r : List Char) :
    parseData F ("record".toList ++ r)
      = (entriesData F (splitAcc (pwsData r) [] 0)).map TypeProto.record_type := by
  have hp : "record".toList.isPrefixOf ("record".toList ++ r) = true :=
    List.isPrefixOf_iff_prefix.mpr (List.prefix_append _ _)
  unfold parseData
  rw [if_neg (by rw [show "seq".toList.isPrefixOf ("record".toList ++ r) = false from rfl]
                 exact Bool.false_ne_true),
    if_neg (by rw [show "map".toList.isPrefixOf ("record".toList ++ r) = false from rfl]
               exact Bool.false_ne_true), if_pos hp]
  rfl

theorem parseData_union (F : List Char → Option TypeProto) (r : List Char) :
    parseData F ("union".toList ++ r)
      = (entriesData F (splitAcc (pwsData r) [] 0)).map TypeProto.union_type := by
  have hp : "union".toList.isPrefixOf ("union".toList ++ r) = true :=
    List.isPrefixOf_iff_prefix.mpr (List.prefix_append _ _)
  unfold parseData
  rw [if_neg (by rw [show "seq".toList.isPrefixOf ("union".toList ++ r) = false from rfl]
                 exact Bool.false_ne_true),
    if_neg (by rw [show "map".toList.isPrefixOf ("union".toList ++ r) = false from rfl]
               exact Bool.false_ne_true),
    if_neg (by rw [show "record".toList.isPrefixOf ("union".toList ++ r) = false from rfl]
               exact Bool.false_ne_true), if_pos hp]
  rfl

theorem parseData_sparse (F : List Char → Option TypeProto) (r : List Char) :
    parseData F ("sparse".toList ++ r)
      = (FromString_DataType (pwsData r)).map TypeProto.sparse_tensor_type := by
  have hp : "sparse".toList.isPrefixOf ("sparse".toList ++ r) = true :=
    List.isPrefixOf_iff_prefix.mpr (List.prefix_append _ _)
  unfold parseData
  rw [if_neg (by rw [show "seq".toList.isPrefixOf ("sparse".toList ++ r) = false from rfl]
                 exact Bool.false_ne_true),
    if_neg (by rw [show "map".toList.isPrefixOf ("sparse".toList ++ r) = false from rfl]
               exact Bool.false_ne_true),
    if_neg (by rw [show "record".toList.isPrefixOf ("sparse".toList ++ r) = false from rfl]
               exact Bool.false_ne_true),
    if_neg (by rw [show "union".toList.isPrefixOf ("sparse".toList ++ r) = false from rfl]
               exact Bool.false_ne_true), if_pos hp]
  rfl

theorem parseData_tensor (F : List Char → Option TypeProto) (r : List Char) :
    parseData F ("tensor".toList ++ r)
      = (FromString_DataType (pwsData r)).map (fun e => TypeProto.tensor_type e []) := by
  have hp : "tensor".toList.isPrefixOf ("tensor".toList ++ r) = true :=
    List.isPrefixOf_iff_prefix.mpr (List.prefix_append _ _)
  unfold parseData
  rw [if_neg (by rw [show "seq".toList.isPrefixOf ("tensor".toList ++ r) = false from rfl]
                 exact Bool.false_ne_true),
    if_neg (by rw [show "map".toList.isPrefixOf ("tensor".toList ++ r) = false from rfl]
               exact Bool.false_ne_true),
    if_neg (by rw [show "record".toList.isPrefixOf ("tensor".toList ++ r) = false from rfl]
               exact Bool.false_ne_true),
    if_neg (by rw [show "union".toList.isPrefixOf ("tensor".toList ++ r) = false from rfl]
               exact Bool.false_ne_true),
    if_neg (by rw [show "sparse".toList.isPrefixOf ("tensor".toList ++ r) = false from rfl]
               exact Bool.false_ne_true), if_pos hp]
  rfl

theorem parseData_scalar (F : List Char → Option TypeProto) (d : List Char)
    (h : ∀ kw ∈ keywords, kw.isPrefixOf d = false) :
    parseData F d = (FromString_DataType d).map (fun e => TypeProto.tensor_type e [⟨0⟩]) := by
  have n1 := h "seq".toList (by decide)
  have n2 := h "map".toList (by decide)
  have n3 := h "record".toList (by decide)
  have n4 := h "union".toList (by decide)
  have n5 := h "sparse".toList (by decide)
  have n6 := h "tensor".toList (by decide)
  unfold parseData
  rw [if_neg (by rw [n1]; exact Bool.false_ne_true),
    if_neg (by rw [n2]; exact Bool.false_ne_true),
    if_neg (by rw [n3]; exact Bool.false_ne_true),
    if_neg (by rw [n4]; exact Bool.false_ne_true),
    if_neg (by rw [n5]; exact Bool.false_ne_true),
    if_neg (by rw [n6]; exact Bool.false_ne_true)]

/-- What follows a keyword is read only through `pwsData`. -/
theorem parseData_kw_congr (F : List Char → Option TypeProto) (kw r1 r2 : List Char)
    (hkw : kw ∈ keywords) (h : pwsData r1 = pwsData r2) :
    parseData F (kw ++ r1) = parseData F (kw ++ r2) := by
  simp only [keywords, List.mem_cons, List.mem_singleton, List.not_mem_nil, or_false] at hkw
  rcases hkw with rfl | rfl | rfl | rfl | rfl | rfl
  · rw [parseData_seq, parseData_seq, h]
  · rw [parseData_map, parseData_map, h]
  · rw [parseData_record, parseData_record, h]
  · rw [parseData_union, parseData_union, h]
  · rw [parseData_sparse, parseData_sparse, h]
  · rw [parseData_tensor, parseData_tensor, h]

/-- C12: the element-name lookup succeeds exactly on the fifteen element-type names,
returning the code of the name, and fails on every other string, the empty string and
names in another case or with a blank included; so an input whose trimmed text starts
with none of the six keywords is parsed only if the trimmed text is one of the names. -/
theorem element_name_lookup (name p_src : List Char) :
    ((FromString_DataType name).isSome = true ↔ name ∈ GetAllowedDataTypes) ∧
    (∀ e, FromString_DataType name = some e ↔ name = ToString_DataType e) ∧
    (name ∉ GetAllowedDataTypes → FromString_DataType name = none) ∧
    GetAllowedDataTypes.length = 15 ∧
    FromString_DataType [] = none ∧ FromString_DataType "Float".toList = none ∧
    FromString_DataType " float".toList = none ∧
    ((∀ kw ∈ keywords, kw.isPrefixOf (trim p_src) = false) →
      FromString p_src
        = (FromString_DataType (trim p_src)).map (fun e => TypeProto.tensor_type e [⟨0⟩]) ∧
      ((FromString p_src).isSome = true → trim p_src ∈ GetAllowedDataTypes)) := by
  refine ⟨FromString_DataType_isSome name, FromString_DataType_iff name,
    FromString_DataType_invalid name, by decide, by decide, by decide, by decide, ?_⟩
  intro h
  have e := FromString_eq_parseData p_src
  rw [parseData_scalar _ _ h] at e
  refine ⟨e, ?_⟩
  intro hs
  rw [e, Option.isSome_map'] at hs
  exact (FromString_DataType_isSome _).mp hs

/-- Witness for C12: the input ` float `, whose trimmed text `float` starts with no
keyword and is an element-type name. -/
theorem element_name_lookup_witness :
    (∀ kw ∈ keywords, kw.isPrefixOf (trim " float ".toList) = false) ∧
    FromString " float ".toList = some (.tensor_type .FLOAT [⟨0⟩]) ∧
    trim " float ".toList ∈ GetAllowedDataTypes :=
  have h := (element_name_lookup "float".toList " float ".toList).2.2.2.2.2.2.2 (by decide)
  ⟨by decide, h.1.trans rfl, h.2 rfl⟩

end OpUtils
end Utils
end LotusIR

namespace LotusIR
namespace Utils
namespace OpUtils
open StringRange

/-! ## Whitespace around a text -/

theorem dropWhile_AllSpace_append (w l : List Char) (hw : AllSpace w) :
    (w ++ l).dropWhile isspace = l.dropWhile isspace := by
  induction w with
  | nil => rfl
  | cons c w ih =>
    have hc : isspace c = true := hw c (List.mem_cons_self _ _)
    rw [List.cons_append, List.dropWhile_cons, if_pos hc]
    exact ih (fun x hx => hw x (List.mem_cons_of_mem _ hx))

theorem dropWhile_AllSpace (w : List Char) (hw : AllSpace w) : w.dropWhile isspace = [] := by
  have h := dropWhile_AllSpace_append w [] hw
  rwa [List.append_nil] at h

theorem rdropWhile_append_AllSpace (l w : List Char) (hw : AllSpace w) :
    (l ++ w).rdropWhile isspace = l.rdropWhile isspace := by
  unfold List.rdropWhile
  rw [List.reverse_append, dropWhile_AllSpace_append _ _
    (fun c hc => hw c (List.mem_reverse.mp hc))]

theorem dropWhile_append_concat (l : List Char) (b : Char) (hb : isspace b = false) :
    (l ++ [b]).dropWhile isspace = l.dropWhile isspace ++ [b] := by
  induction l with
  | nil =>
    rw [List.nil_append, List.dropWhile_cons, if_neg (by rw [hb]; exact Bool.false_ne_true)]
    rfl
  | cons c l ih =>
    rw [List.cons_append, List.dropWhile_cons, List.dropWhile_cons]
    by_cases hc : isspace c = true
    · rw [if_pos hc, if_pos hc, ih]
    · rw [if_neg hc, if_neg hc, List.cons_append]

theorem dropWhile_append_of_ne_nil (l w : List Char) (h : l.dropWhile isspace ≠ []) :
    (l ++ w).dropWhile isspace = l.dropWhile isspace ++ w := by
  induction l with
  | nil => exact absurd rfl h
  | cons c l ih =>
    rw [List.cons_append]
    by_cases hc : isspace c = true
    · rw [List.dropWhile_cons, if_pos hc] at h
      rw [List.dropWhile_cons, if_pos hc, List.dropWhile_cons, if_pos hc]
      exact ih h
    · rw [List.dropWhile_cons, if_neg hc, List.dropWhile_cons, if_neg hc, List.cons_append]

theorem trim_AllSpace_append (w l : List Char) (hw : AllSpace w) : trim (w ++ l) = trim l := by
  unfold trim
  rw [dropWhile_AllSpace_append w l hw]

theorem trim_append_AllSpace (l w : List Char) (hw : AllSpace w) : trim (l ++ w) = trim l := by
  unfold trim
  by_cases h : l.dropWhile isspace = []
  · have hl : AllSpace l := by
      intro c hc
      by_contra hn
      have := List.dropWhile_eq_nil_iff.mp h c hc
      exact hn this
    have hlw : AllSpace (l ++ w) := by
      intro c hc
      rcases List.mem_append.mp hc with h1 | h1
      · exact hl c h1
      · exact hw c h1
    rw [dropWhile_AllSpace _ hlw, h]
  · rw [dropWhile_append_of_ne_nil l w h, rdropWhile_append_AllSpace _ _ hw]

/-- Whitespace around a text does not change its trimmed form. -/
theorem trim_pad (w1 s w2 : List Char) (h1 : AllSpace w1) (h2 : AllSpace w2) :
    trim (w1 ++ s ++ w2) = trim s := by
  rw [trim_append_AllSpace _ _ h2, trim_AllSpace_append _ _ h1]

theorem trim_length_le (l : List Char) : (trim l).length ≤ l.length := by
  unfold trim
  exact le_trans (List.rdropWhile_prefix _ _).length_le (List.dropWhile_suffix _).length_le

theorem trim_subset (l : List Char) (c : Char) (h : c ∈ trim l) : c ∈ l := by
  unfold trim at h
  exact (List.dropWhile_suffix _).subset ((List.rdropWhile_prefix _ _).subset h)

theorem pwsData_length_le (l : List Char) : (pwsData l).length ≤ l.length := by
  unfold pwsData
  dsimp only
  have ha : (l.dropWhile isspace).length ≤ l.length := (List.dropWhile_suffix _).length_le
  have hb : (if (l.dropWhile isspace).head? = some '(' then (l.dropWhile isspace).tail
      else l.dropWhile isspace).length ≤ (l.dropWhile isspace).length := by
    split
    · rw [List.length_tail]; exact Nat.sub_le _ _
    · exact le_refl _
  generalize (if (l.dropWhile isspace).head? = some '(' then (l.dropWhile isspace).tail
      else l.dropWhile isspace) = b at hb ⊢
  have hc := trim_length_le b
  have hd : (if (trim b).getLast? = some ')' then (trim b).dropLast else trim b).length
      ≤ (trim b).length := by
    split
    · rw [List.length_dropLast]; exact Nat.sub_le _ _
    · exact le_refl _
  generalize (if (trim b).getLast? = some ')' then (trim b).dropLast else trim b) = d at hd ⊢
  have he : (d.rdropWhile isspace).length ≤ d.length := (List.rdropWhile_prefix _ _).length_le
  omega

theorem pwsData_AllSpace_append (w r : List Char) (hw : AllSpace w) :
    pwsData (w ++ r) = pwsData r := by
  unfold pwsData
  rw [dropWhile_AllSpace_append w r hw]

/-- The stripped body of a parenthesised text is the trimmed text between the
parentheses. -/
theorem pwsData_parens (body : List Char) : pwsData ('(' :: (body ++ [')'])) = trim body := by
  have h1 : isspace '(' = false := by decide
  have h2 : isspace ')' = false := by decide
  have ha : ('(' :: (body ++ [')'])).dropWhile isspace = '(' :: (body ++ [')']) := by
    rw [List.dropWhile_cons, if_neg (by rw [h1]; exact Bool.false_ne_true)]
  have hc : trim (body ++ [')']) = body.dropWhile isspace ++ [')'] := by
    unfold trim
    rw [dropWhile_append_concat _ _ h2, List.rdropWhile_concat_neg]
    rw [h2]; exact Bool.false_ne_true
  unfold pwsData
  dsimp only
  rw [ha, List.head?_cons, if_pos rfl, List.tail_cons, hc, List.getLast?_concat, if_pos rfl,
    List.dropLast_concat]
  rfl

/-- Whitespace before the opening parenthesis and inside the outer parentheses does not
change the stripped body. -/
theorem pwsData_pad (w3 w4 body w5 : List Char) (h3 : AllSpace w3) (h4 : AllSpace w4)
    (h5 : AllSpace w5) :
    pwsData (w3 ++ '(' :: (w4 ++ body ++ w5 ++ [')'])) = pwsData ('(' :: (body ++ [')'])) := by
  rw [pwsData_AllSpace_append _ _ h3, pwsData_parens, pwsData_parens, trim_pad _ _ _ h4 h5]

/-! ## The depth bound of the parser is never reached -/

theorem splitAcc_length_le : ∀ (rest cap : List Char) (d : Int),
    ∀ f ∈ splitAcc rest cap d, f.length ≤ cap.length + rest.length
  | [], cap, d => by
    intro f hf
    rw [splitAcc, List.mem_singleton] at hf
    rw [hf]
    exact le_trans (trim_length_le cap) (Nat.le_add_right _ _)
  | c :: cs, cap, d => by
    intro f hf
    have len1 : (cap ++ [c]).length + cs.length = cap.length + (c :: cs).length := by
      simp only [List.length_append, List.length_cons, List.length_nil]; omega
    rw [splitAcc] at hf
    split at hf
    · split at hf
      · rcases List.mem_cons.mp hf with h | h
        · rw [h]
          exact le_trans (trim_length_le cap) (Nat.le_add_right _ _)
        · have := splitAcc_length_le cs [] d f h
          simp only [List.length_nil, List.length_cons] at this ⊢
          omega
      · rw [← len1]; exact splitAcc_length_le cs _ d f hf
    · split at hf
      · rw [← len1]; exact splitAcc_length_le cs _ _ f hf
      · split at hf
        · rw [← len1]; exact splitAcc_length_le cs _ _ f hf
        · rw [← len1]; exact splitAcc_length_le cs _ _ f hf

theorem splitAcc_ne_nil : ∀ (rest cap : List Char) (d : Int), splitAcc rest cap d ≠ []
  | [], cap, d => by rw [splitAcc]; exact List.cons_ne_nil _ _
  | c :: cs, cap, d => by
    rw [splitAcc]
    split
    · split
      · exact List.cons_ne_nil _ _
      · exact splitAcc_ne_nil cs _ d
    · split
      · exact splitAcc_ne_nil cs _ _
      · split
        · exact splitAcc_ne_nil cs _ _
        · exact splitAcc_ne_nil cs _ _

theorem mapData_congr (F G : List Char → Option TypeProto) (b : List Char)
    (h : ∀ q, q.length ≤ b.length → F q = G q) : mapData F b = mapData G b := by
  unfold mapData
  cases findIdx ',' b with
  | none => rfl
  | some k =>
    dsimp only
    cases FromString_DataType (trim (b.take k)) with
    | none => rfl
    | some key_type =>
      dsimp only
      rw [h _ (le_trans (trim_length_le _) (by rw [List.length_drop]; exact Nat.sub_le _ _))]

theorem entryData_congr (F G : List Char → Option TypeProto) (f : List Char)
    (h : ∀ q, q.length ≤ f.length → F q = G q) : entryData F f = entryData G f := by
  unfold entryData
  cases findIdx ':' f with
  | none => rfl
  | some k =>
    dsimp only
    rw [h _ (by rw [List.length_drop]; exact Nat.sub_le _ _)]

theorem entriesData_congr (F G : List Char → Option TypeProto) :
    ∀ strs : List (List Char), (∀ f ∈ strs, ∀ q, q.length ≤ f.length → F q = G q) →
      entriesData F strs = entriesData G strs
  | [], _ => rfl
  | f :: rest, h => by
    rw [entriesData, entriesData, entryData_congr F G f (h f (List.mem_cons_self _ _)),
      entriesData_congr F G rest (fun g hg => h g (List.mem_cons_of_mem _ hg))]

theorem entriesData_split_congr (F G : List Char → Option TypeProto) (b : List Char)
    (h : ∀ q, q.length ≤ b.length → F q = G q) :
    entriesData F (splitAcc b [] 0) = entriesData G (splitAcc b [] 0) := by
  apply entriesData_congr
  intro f hf q hq
  have := splitAcc_length_le b [] 0 f hf
  simp only [List.length_nil, Nat.zero_add] at this
  exact h q (le_trans hq this)

theorem keyword_length (kw : List Char) (h : kw ∈ keywords) : 0 < kw.length := by
  simp only [keywords, List.mem_cons, List.mem_singleton, List.not_mem_nil, or_false] at h
  rcases h with rfl | rfl | rfl | rfl | rfl | rfl <;> decide

/-- The parse of `d` uses the recursive parser only on texts shorter than `d`. -/
theorem parseData_congr (F G : List Char → Option TypeProto) (d : List Char)
    (h : ∀ q, q.length < d.length → F q = G q) : parseData F d = parseData G d := by
  by_cases hk : ∃ kw ∈ keywords, kw.isPrefixOf d = true
  · obtain ⟨kw, hkw, hp⟩ := hk
    obtain ⟨r, rfl⟩ := List.isPrefixOf_iff_prefix.mp hp
    have hlen := keyword_length kw hkw
    have hq : ∀ q, q.length ≤ (pwsData r).length → F q = G q := by
      intro q hq
      apply h
      have := pwsData_length_le r
      rw [List.length_append]
      omega
    simp only [keywords, List.mem_cons, List.mem_singleton, List.not_mem_nil, or_false] at hkw
    rcases hkw with rfl | rfl | rfl | rfl | rfl | rfl
    · rw [parseData_seq, parseData_seq, hq _ (le_refl _)]
    · rw [parseData_map, parseData_map, mapData_congr F G _ hq]
    · rw [parseData_record, parseData_record, entriesData_split_congr F G _ hq]
    · rw [parseData_union, parseData_union, entriesData_split_congr F G _ hq]
    · rw [parseData_sparse, parseData_sparse]
    · rw [parseData_tensor, parseData_tensor]
  · have hn : ∀ kw ∈ keywords, kw.isPrefixOf d = false := by
      intro kw hkw
      cases hc : kw.isPrefixOf d with
      | false => rfl
      | true => exact absurd ⟨kw, hkw, hc⟩ hk
    rw [parseData_scalar F d hn, parseData_scalar G d hn]

/-- Any depth bound larger than the length of the input gives the result of
`FromString`: the recursion is on strictly shorter texts. -/
theorem FromStringFuel_adequate : ∀ (fuel : Nat) (p_src : List Char),
    p_src.length < fuel → FromStringFuel fuel p_src = FromString p_src := by
  intro fuel
  induction fuel using Nat.strong_induction_on with
  | _ fuel ih =>
    intro p_src hlt
    cases fuel with
    | zero => exact absurd hlt (Nat.not_lt_zero _)
    | succ n =>
      rw [FromStringFuel_succ_eq_parseData, FromString_eq_parseData]
      apply parseData_congr
      intro q hq
      have h1 := trim_length_le p_src
      have hqn : q.length < n := by omega
      rw [ih n (Nat.lt_succ_self n) q hqn]
      by_cases hz : p_src.length = 0
      · omega
      · rw [ih p_src.length (by omega) q (by omega)]

/-- The parse of a text is the parse step applied to `FromString` itself. -/
theorem FromString_unfold (p_src : List Char) :
    FromString p_src = parseData FromString (trim p_src) := by
  rw [FromString_eq_parseData]
  apply parseData_congr
  intro q hq
  have h1 := trim_length_le p_src
  exact FromStringFuel_adequate _ q (by omega)

end OpUtils
end Utils
end LotusIR

namespace LotusIR
namespace Utils
namespace OpUtils
open StringRange

/-! ## Whitespace, keywords and fields -/

theorem rdropWhile_decompose (r : List Char) :
    ∃ w, AllSpace w ∧ r = r.rdropWhile isspace ++ w := by
  refine ⟨(r.reverse.takeWhile isspace).reverse, ?_, ?_⟩
  · intro c hc
    exact List.mem_takeWhile_imp (List.mem_reverse.mp hc)
  · unfold List.rdropWhile
    rw [← List.reverse_append, List.takeWhile_append_dropWhile, List.reverse_reverse]

theorem trim_decompose (l : List Char) :
    ∃ w1 w2, AllSpace w1 ∧ AllSpace w2 ∧ l = w1 ++ trim l ++ w2 := by
  obtain ⟨w2, hw2, e⟩ := rdropWhile_decompose (l.dropWhile isspace)
  refine ⟨l.takeWhile isspace, w2, fun c hc => List.mem_takeWhile_imp hc, hw2, ?_⟩
  unfold trim
  rw [List.append_assoc, ← e, List.takeWhile_append_dropWhile]

theorem rdropWhile_last (r : List Char) :
    ∀ c, (r.rdropWhile isspace).getLast? = some c → isspace c = false := by
  intro c hc
  have hne : r.rdropWhile isspace ≠ [] := by
    intro h
    rw [h] at hc
    exact Option.noConfusion hc
  have h1 := List.rdropWhile_last_not isspace r hne
  rw [List.getLast?_eq_getLast _ hne] at hc
  rw [← Option.some.inj hc]
  cases h : isspace ((r.rdropWhile isspace).getLast hne) with
  | false => rfl
  | true => exact absurd h h1

theorem Trimmed_append (a b : List Char) (ha : Trimmed a) (hne : a ≠ [])
    (hb : ∀ c, b.getLast? = some c → isspace c = false) : Trimmed (a ++ b) := by
  constructor
  · intro c hc
    cases a with
    | nil => exact absurd rfl hne
    | cons x a => exact ha.1 c hc
  · intro c hc
    by_cases hbn : b = []
    · rw [hbn, List.append_nil] at hc
      exact ha.2 c hc
    · rw [List.getLast?_append_of_ne_nil _ hbn] at hc
      exact hb c hc

theorem Trimmed_keyword (kw : List Char) (h : kw ∈ keywords) : Trimmed kw ∧ kw ≠ [] := by
  simp only [keywords, List.mem_cons, List.mem_singleton, List.not_mem_nil, or_false] at h
  rcases h with rfl | rfl | rfl | rfl | rfl | rfl <;>
    exact ⟨Trimmed_of_all _ (by decide), by decide⟩

theorem pwsData_append_AllSpace (x w : List Char) (hw : AllSpace w) :
    pwsData (x ++ w) = pwsData x := by
  unfold pwsData
  dsimp only
  by_cases h : x.dropWhile isspace = []
  · have hx : AllSpace x := by
      intro c hc
      exact List.dropWhile_eq_nil_iff.mp h c hc
    have hxw : AllSpace (x ++ w) := by
      intro c hc
      rcases List.mem_append.mp hc with h1 | h1
      · exact hx c h1
      · exact hw c h1
    rw [dropWhile_AllSpace _ hxw, h]
  · rw [dropWhile_append_of_ne_nil x w h]
    generalize x.dropWhile isspace = a at h
    cases a with
    | nil => exact absurd rfl h
    | cons c a =>
      rw [List.cons_append, List.head?_cons, List.head?_cons, List.tail_cons, List.tail_cons]
      by_cases hc : some c = some '('
      · rw [if_pos hc, if_pos hc, trim_append_AllSpace _ _ hw]
      · rw [if_neg hc, if_neg hc, ← List.cons_append, trim_append_AllSpace _ _ hw]

/-- The trimmed form of a keyword followed by `r` is the keyword followed by a text with
the same stripped body. -/
theorem trim_keyword_append (kw r : List Char) (hkw : kw ∈ keywords) :
    ∃ r1, trim (kw ++ r) = kw ++ r1 ∧ pwsData r1 = pwsData r := by
  obtain ⟨w, hw, e⟩ := rdropWhile_decompose r
  refine ⟨r.rdropWhile isspace, ?_, ?_⟩
  · have hT := Trimmed_append kw (r.rdropWhile isspace) (Trimmed_keyword kw hkw).1
      (Trimmed_keyword kw hkw).2 (rdropWhile_last r)
    have e2 : kw ++ r = (kw ++ r.rdropWhile isspace) ++ w := by
      rw [List.append_assoc, ← e]
    rw [e2, trim_append_AllSpace _ _ hw, trim_of_Trimmed _ hT]
  · have := pwsData_append_AllSpace (r.rdropWhile isspace) w hw
    rw [← e] at this
    exact this.symm

theorem parseData_trim_keyword (F : List Char → Option TypeProto) (kw r : List Char)
    (hkw : kw ∈ keywords) : parseData F (trim (kw ++ r)) = parseData F (kw ++ r) := by
  obtain ⟨r1, e, hp⟩ := trim_keyword_append kw r hkw
  rw [e, parseData_kw_congr F kw r1 r hkw hp]

/-- The parse of a keyword followed by `r`. -/
theorem FromString_keyword (kw r : List Char) (hkw : kw ∈ keywords) :
    FromString (kw ++ r) = parseData FromString (kw ++ r) := by
  rw [FromString_unfold, parseData_trim_keyword _ _ _ hkw]

/-- After a keyword the input is read only through its stripped body. -/
theorem FromString_keyword_congr (kw r1 r2 : List Char) (hkw : kw ∈ keywords)
    (h : pwsData r1 = pwsData r2) : FromString (kw ++ r1) = FromString (kw ++ r2) := by
  rw [FromString_keyword _ _ hkw, FromString_keyword _ _ hkw,
    parseData_kw_congr _ kw r1 r2 hkw h]

theorem FromString_pad (w1 s w2 : List Char) (h1 : AllSpace w1) (h2 : AllSpace w2) :
    FromString (w1 ++ s ++ w2) = FromString s := by
  rw [FromString_unfold, trim_pad _ _ _ h1 h2, ← FromString_unfold]

theorem pwsData_bare (b : List Char) (hT : Trimmed b) (h1 : b.head? ≠ some '(')
    (h2 : b.getLast? ≠ some ')') : pwsData b = b := by
  unfold pwsData
  dsimp only
  rw [dropWhile_of_head b hT.1, if_neg h1, trim_of_Trimmed b hT, if_neg h2,
    rdropWhile_of_last b hT.2]

theorem pwsData_open (b : List Char) (hT : Trimmed b) (h2 : b.getLast? ≠ some ')') :
    pwsData ('(' :: b) = b := by
  have ha : ('(' :: b).dropWhile isspace = '(' :: b := by
    rw [List.dropWhile_cons, if_neg (by decide)]
  unfold pwsData
  dsimp only
  rw [ha, List.head?_cons, if_pos rfl, List.tail_cons, trim_of_Trimmed b hT, if_neg h2,
    rdropWhile_of_last b hT.2]

theorem pwsData_close (b : List Char) (hT : Trimmed b) (h1 : b.head? ≠ some '(') :
    pwsData (b ++ [')']) = b := by
  have hT1 : Trimmed (b ++ [')']) := by
    cases b with
    | nil => exact Trimmed_of_all _ (by decide)
    | cons a b =>
      exact Trimmed_append (a :: b) [')'] hT (List.cons_ne_nil _ _)
        (fun c hc => by
          rw [show [')'].getLast? = some ')' from rfl] at hc
          rw [← Option.some.inj hc]; decide)
  have hh : (b ++ [')']).head? ≠ some '(' := by
    cases b with
    | nil => decide
    | cons a b => exact h1
  unfold pwsData
  dsimp only
  rw [dropWhile_of_head _ hT1.1, if_neg hh, trim_of_Trimmed _ hT1, List.getLast?_concat,
    if_pos rfl, List.dropLast_concat, rdropWhile_of_last b hT.2]

theorem space_ordinary (c : Char) (h : isspace c = true) : c ≠ ',' ∧ c ≠ '(' ∧ c ≠ ')' := by
  refine ⟨?_, ?_, ?_⟩ <;>
  · intro e
    rw [e] at h
    exact absurd h (by decide)

theorem splitAcc_cap_AllSpace (w : List Char) (hw : AllSpace w) :
    ∀ (rest cap : List Char) (d : Int), splitAcc rest (w ++ cap) d = splitAcc rest cap d
  | [], cap, d => by
    rw [splitAcc, splitAcc, trim_AllSpace_append _ _ hw]
  | c :: cs, cap, d => by
    rw [splitAcc, splitAcc, trim_AllSpace_append _ _ hw, List.append_assoc,
      splitAcc_cap_AllSpace w hw cs (cap ++ [c]) d,
      splitAcc_cap_AllSpace w hw cs (cap ++ [c]) (d + 1),
      splitAcc_cap_AllSpace w hw cs (cap ++ [c]) (d - 1)]

theorem splitAcc_AllSpace_prefix (w rest : List Char) (d : Int) (hw : AllSpace w) :
    splitAcc (w ++ rest) [] d = splitAcc rest [] d := by
  have hs : Skips d w := Skips_ordinary d w (fun c hc => space_ordinary c (hw c hc))
  rw [hs rest [] d (le_refl _), List.nil_append]
  have := splitAcc_cap_AllSpace w hw rest [] d
  rwa [List.append_nil] at this

theorem splitAcc_AllSpace_suffix (w : List Char) (hw : AllSpace w) :
    ∀ (rest cap : List Char) (d : Int), splitAcc (rest ++ w) cap d = splitAcc rest cap d
  | [], cap, d => by
    have hs : Skips d w := Skips_ordinary d w (fun c hc => space_ordinary c (hw c hc))
    have := hs [] cap d (le_refl _)
    rw [List.append_nil] at this
    rw [List.nil_append, this, splitAcc, splitAcc, trim_append_AllSpace _ _ hw]
  | c :: cs, cap, d => by
    rw [List.cons_append, splitAcc, splitAcc, splitAcc_AllSpace_suffix w hw cs [] d,
      splitAcc_AllSpace_suffix w hw cs (cap ++ [c]) d,
      splitAcc_AllSpace_suffix w hw cs (cap ++ [c]) (d + 1),
      splitAcc_AllSpace_suffix w hw cs (cap ++ [c]) (d - 1)]

/-- The fields of a body and of its trimmed form are the same. -/
theorem splitAcc_trim (body : List Char) : splitAcc (trim body) [] 0 = specFields body := by
  obtain ⟨w1, w2, h1, h2, e⟩ := trim_decompose body
  rw [← splitAcc_eq_specFields body]
  conv_rhs => rw [e]
  rw [splitAcc_AllSpace_suffix w2 h2, splitAcc_AllSpace_prefix w1 _ 0 h1]

theorem entriesData_none (F : List Char → Option TypeProto) :
    ∀ (strs : List (List Char)) (f : List Char), f ∈ strs → ':' ∉ f →
      entriesData F strs = none
  | [], f, hf, _ => absurd hf (List.not_mem_nil f)
  | g :: rest, f, hf, hc => by
    rw [entriesData]
    rcases List.mem_cons.mp hf with h | h
    · have : entryData F g = none := by
        unfold entryData
        rw [← h, (findIdx_eq_none ':' f).mpr hc]
      rw [this]
    · rw [entriesData_none F rest f h hc]
      cases entryData F g <;> rfl

theorem mapData_none (F : List Char → Option TypeProto) (b : List Char) (h : ',' ∉ b) :
    mapData F b = none := by
  unfold mapData
  rw [(findIdx_eq_none ',' b).mpr h]

theorem keyword_cases (d : List Char) :
    (∃ kw ∈ keywords, ∃ r, d = kw ++ r) ∨ (∀ kw ∈ keywords, kw.isPrefixOf d = false) := by
  by_cases hk : ∃ kw ∈ keywords, kw.isPrefixOf d = true
  · obtain ⟨kw, hkw, hp⟩ := hk
    obtain ⟨r, e⟩ := List.isPrefixOf_iff_prefix.mp hp
    exact Or.inl ⟨kw, hkw, r, e.symm⟩
  · right
    intro kw hkw
    cases hc : kw.isPrefixOf d with
    | false => rfl
    | true => exact absurd ⟨kw, hkw, hc⟩ hk

end OpUtils
end Utils
end LotusIR

namespace LotusIR
namespace Utils
namespace OpUtils
open StringRange

/-! ## Parentheses, empty lists and whitespace -/

theorem entriesData_good (F : List Char → Option TypeProto)
    (hF : ∀ q t, F q = some t → VariantSet t = true ∧ ListsNonEmpty t = true) :
    ∀ (strs : List (List Char)) (vs : List ValueInfoProto), entriesData F strs = some vs →
      vs.length = strs.length ∧ VariantSetEntries vs = true ∧ ListsNonEmptyEntries vs = true
  | [], vs, h => by
    rw [entriesData] at h
    rw [← Option.some.inj h]
    exact ⟨rfl, rfl, rfl⟩
  | f :: rest, vs, h => by
    rw [entriesData] at h
    cases he : entryData F f with
    | none => rw [he] at h; exact Option.noConfusion h
    | some v =>
      cases hr : entriesData F rest with
      | none => rw [he, hr] at h; exact Option.noConfusion h
      | some vs1 =>
        rw [he, hr] at h
        obtain ⟨h1, h2, h3⟩ := entriesData_good F hF rest vs1 hr
        have hv : ∃ n t, v = ValueInfoProto.mk n t ∧ VariantSet t = true ∧
            ListsNonEmpty t = true := by
          unfold entryData at he
          cases hk : findIdx ':' f with
          | none => rw [hk] at he; exact Option.noConfusion he
          | some k =>
            rw [hk] at he
            dsimp only at he
            cases hq : F (f.drop (k + 1)) with
            | none => rw [hq] at he; exact Option.noConfusion he
            | some t =>
              rw [hq] at he
              exact ⟨_, t, (Option.some.inj he).symm, hF _ t hq⟩
        obtain ⟨n, t, rfl, hv1, hv2⟩ := hv
        rw [← Option.some.inj h]
        refine ⟨by rw [List.length_cons, List.length_cons, h1], ?_, ?_⟩
        · rw [VariantSetEntries, hv1, h2]; rfl
        · rw [ListsNonEmptyEntries, hv2, h3]; rfl

theorem entriesData_split_good (F : List Char → Option TypeProto)
    (hF : ∀ q t, F q = some t → VariantSet t = true ∧ ListsNonEmpty t = true)
    (b : List Char) (vs : List ValueInfoProto)
    (h : entriesData F (splitAcc b [] 0) = some vs) :
    vs.isEmpty = false ∧ VariantSetEntries vs = true ∧ ListsNonEmptyEntries vs = true := by
  obtain ⟨h1, h2, h3⟩ := entriesData_good F hF _ vs h
  refine ⟨?_, h2, h3⟩
  cases vs with
  | nil =>
    have := splitAcc_ne_nil b [] 0
    rw [List.length_nil] at h1
    exact absurd (List.length_eq_zero.mp h1.symm) this
  | cons v vs => rfl

theorem mapData_good (F : List Char → Option TypeProto)
    (hF : ∀ q t, F q = some t → VariantSet t = true ∧ ListsNonEmpty t = true)
    (b : List Char) (t : TypeProto) (h : mapData F b = some t) :
    VariantSet t = true ∧ ListsNonEmpty t = true := by
  unfold mapData at h
  cases hk : findIdx ',' b with
  | none => rw [hk] at h; exact Option.noConfusion h
  | some k =>
    rw [hk] at h
    dsimp only at h
    cases he : FromString_DataType (trim (b.take k)) with
    | none => rw [he] at h; exact Option.noConfusion h
    | some key_type =>
      rw [he] at h
      dsimp only at h
      cases hq : F (trim (b.drop (k + 1))) with
      | none => rw [hq] at h; exact Option.noConfusion h
      | some v =>
        rw [hq] at h
        rw [← Option.some.inj h]
        exact hF _ v hq

/-- A parse step keeps the variant set and the lists non-empty at every level, when the
recursive parser does. -/
theorem parseData_good (F : List Char → Option TypeProto)
    (hF : ∀ q t, F q = some t → VariantSet t = true ∧ ListsNonEmpty t = true)
    (d : List Char) (t : TypeProto) (h : parseData F d = some t) :
    VariantSet t = true ∧ ListsNonEmpty t = true := by
  rcases keyword_cases d with ⟨kw, hkw, r, rfl⟩ | hn
  · simp only [keywords, List.mem_cons, List.mem_singleton, List.not_mem_nil, or_false] at hkw
    rcases hkw with rfl | rfl | rfl | rfl | rfl | rfl
    · rw [parseData_seq] at h
      cases hq : F (pwsData r) with
      | none => rw [hq] at h; exact Option.noConfusion h
      | some v =>
        rw [hq] at h
        rw [← Option.some.inj h]
        exact hF _ v hq
    · rw [parseData_map] at h
      exact mapData_good F hF _ t h
    · rw [parseData_record] at h
      cases hq : entriesData F (splitAcc (pwsData r) [] 0) with
      | none => rw [hq] at h; exact Option.noConfusion h
      | some vs =>
        rw [hq] at h
        obtain ⟨h1, h2, h3⟩ := entriesData_split_good F hF _ vs hq
        rw [← Option.some.inj h]
        refine ⟨h2, ?_⟩
        rw [ListsNonEmpty, h1, h3]; rfl
    · rw [parseData_union] at h
      cases hq : entriesData F (splitAcc (pwsData r) [] 0) with
      | none => rw [hq] at h; exact Option.noConfusion h
      | some vs =>
        rw [hq] at h
        obtain ⟨h1, h2, h3⟩ := entriesData_split_good F hF _ vs hq
        rw [← Option.some.inj h]
        refine ⟨h2, ?_⟩
        rw [ListsNonEmpty, h1, h3]; rfl
    · rw [parseData_sparse] at h
      cases hq : FromString_DataType (pwsData r) with
      | none => rw [hq] at h; exact Option.noConfusion h
      | some e =>
        rw [hq] at h
        rw [← Option.some.inj h]
        exact ⟨rfl, rfl⟩
    · rw [parseData_tensor] at h
      cases hq : FromString_DataType (pwsData r) with
      | none => rw [hq] at h; exact Option.noConfusion h
      | some e =>
        rw [hq] at h
        rw [← Option.some.inj h]
        exact ⟨rfl, rfl⟩
  · rw [parseData_scalar F d hn] at h
    cases hq : FromString_DataType d with
    | none => rw [hq] at h; exact Option.noConfusion h
    | some e =>
      rw [hq] at h
      rw [← Option.some.inj h]
      exact ⟨rfl, rfl⟩

theorem FromStringFuel_good : ∀ (fuel : Nat) (p_src : List Char) (t : TypeProto),
    FromStringFuel fuel p_src = some t → VariantSet t = true ∧ ListsNonEmpty t = true
  | 0, _, _, h => Option.noConfusion h
  | fuel + 1, p_src, t, h => by
    rw [FromStringFuel_succ_eq_parseData] at h
    exact parseData_good _ (FromStringFuel_good fuel) _ t h

theorem record_paren_form (body : List Char) :
    "record(".toList ++ body ++ ")".toList = "record".toList ++ '(' :: (body ++ [')']) := rfl

theorem union_paren_form (body : List Char) :
    "union(".toList ++ body ++ ")".toList = "union".toList ++ '(' :: (body ++ [')']) := rfl

theorem map_paren_form (body : List Char) :
    "map(".toList ++ body ++ ")".toList = "map".toList ++ '(' :: (body ++ [')']) := rfl

theorem record_fails (F : List Char → Option TypeProto) (body f : List Char)
    (hf : f ∈ specFields body) (hc : ':' ∉ f) :
    parseData F (trim ("record(".toList ++ body ++ ")".toList)) = none := by
  rw [record_paren_form, parseData_trim_keyword _ _ _ (by decide), parseData_record,
    pwsData_parens, splitAcc_trim, entriesData_none F _ f hf hc]
  rfl

theorem union_fails (F : List Char → Option TypeProto) (body f : List Char)
    (hf : f ∈ specFields body) (hc : ':' ∉ f) :
    parseData F (trim ("union(".toList ++ body ++ ")".toList)) = none := by
  rw [union_paren_form, parseData_trim_keyword _ _ _ (by decide), parseData_union,
    pwsData_parens, splitAcc_trim, entriesData_none F _ f hf hc]
  rfl

theorem map_fails (F : List Char → Option TypeProto) (body : List Char) (hc : ',' ∉ body) :
    parseData F (trim ("map(".toList ++ body ++ ")".toList)) = none := by
  rw [map_paren_form, parseData_trim_keyword _ _ _ (by decide), parseData_map,
    pwsData_parens, mapData_none F _ (fun h => hc (trim_subset _ _ h))]

end OpUtils
end Utils
end LotusIR

namespace LotusIR
namespace Utils
namespace OpUtils
open StringRange

/-- C16 (as stated, refuted): `tensor float`, `tensorfloat`, `tensor(float` and
`tensor float)` are not rejected; each is parsed as `tensor(float)`. -/
theorem missing_parentheses_counterexample :
    FromString "tensor float".toList = some (.tensor_type .FLOAT []) ∧
    FromString "tensorfloat".toList = some (.tensor_type .FLOAT []) ∧
    FromString "tensor(float".toList = some (.tensor_type .FLOAT []) ∧
    FromString "tensor float)".toList = some (.tensor_type .FLOAT []) ∧
    FromString "tensor(float)".toList = some (.tensor_type .FLOAT []) :=
  ⟨rfl, rfl, rfl, rfl, rfl⟩

/-- C16 (amended): the parentheses after a keyword are optional. For every keyword and
every body without leading or trailing whitespace that neither starts with `(` nor ends
with `)`, `FromString` gives on the keyword followed by the bare body, by a blank and the
body, by `(` and the body, and by a blank, the body and `)` the result it gives on the
keyword followed by the parenthesised body; for every element name `e` each of
`tensor e`, `tensore`, `tensor(e` and `tensor e)` is parsed as `tensor(e)`; a keyword
with an empty body fails with or without parentheses. -/
theorem parentheses_optional :
    (∀ kw ∈ keywords, ∀ b : List Char, Trimmed b → b.head? ≠ some '(' →
      b.getLast? ≠ some ')' →
        FromString (kw ++ b) = FromString (kw ++ "(".toList ++ b ++ ")".toList) ∧
        FromString (kw ++ " ".toList ++ b) = FromString (kw ++ "(".toList ++ b ++ ")".toList) ∧
        FromString (kw ++ "(".toList ++ b) = FromString (kw ++ "(".toList ++ b ++ ")".toList) ∧
        FromString (kw ++ " ".toList ++ b ++ ")".toList)
          = FromString (kw ++ "(".toList ++ b ++ ")".toList)) ∧
    (∀ e : DataType,
      FromString ("tensor ".toList ++ ToString_DataType e) = some (.tensor_type e []) ∧
      FromString ("tensor".toList ++ ToString_DataType e) = some (.tensor_type e []) ∧
      FromString ("tensor(".toList ++ ToString_DataType e) = some (.tensor_type e []) ∧
      FromString ("tensor ".toList ++ ToString_DataType e ++ ")".toList)
        = some (.tensor_type e []) ∧
      FromString ("tensor(".toList ++ ToString_DataType e ++ ")".toList)
        = some (.tensor_type e [])) ∧
    (∀ fuel, FromStringFuel fuel "tensor".toList = none ∧
      FromStringFuel fuel "tensor()".toList = none) := by
  refine ⟨?_, ?_, ?_⟩
  · intro kw hkw b hT h1 h2
    have e0 : pwsData ('(' :: (b ++ [')'])) = b := by
      rw [pwsData_parens, trim_of_Trimmed b hT]
    have f0 : kw ++ "(".toList ++ b ++ ")".toList = kw ++ '(' :: (b ++ [')']) := by
      simp only [List.append_assoc]; rfl
    have f1 : kw ++ " ".toList ++ b = kw ++ ([' '] ++ b) := by
      simp only [List.append_assoc]; rfl
    have f2 : kw ++ "(".toList ++ b = kw ++ '(' :: b := by
      simp only [List.append_assoc]; rfl
    have f3 : kw ++ " ".toList ++ b ++ ")".toList = kw ++ ([' '] ++ (b ++ [')'])) := by
      simp only [List.append_assoc]; rfl
    have hs : AllSpace [' '] := by
      intro c hc
      rw [List.mem_singleton.mp hc]; decide
    rw [f0, f3, f1, f2]
    refine ⟨?_, ?_, ?_, ?_⟩
    · exact FromString_keyword_congr kw _ _ hkw (by rw [pwsData_bare b hT h1 h2, e0])
    · exact FromString_keyword_congr kw _ _ hkw
        (by rw [pwsData_AllSpace_append _ _ hs, pwsData_bare b hT h1 h2, e0])
    · exact FromString_keyword_congr kw _ _ hkw (by rw [pwsData_open b hT h2, e0])
    · exact FromString_keyword_congr kw _ _ hkw
        (by rw [pwsData_AllSpace_append _ _ hs, pwsData_close b hT h1, e0])
  · intro e
    cases e <;> exact ⟨rfl, rfl, rfl, rfl, rfl⟩
  · intro fuel
    have h1 := fails_at_every_depth "tensor".toList (fun F => by
      rw [show trim "tensor".toList = "tensor".toList ++ [] from by decide, parseData_tensor]
      rfl)
    have h2 := fails_at_every_depth "tensor()".toList (fun F => by
      rw [show trim "tensor()".toList = "tensor".toList ++ "()".toList from by decide,
        parseData_tensor]
      rfl)
    exact ⟨h1.2 fuel, h2.2 fuel⟩

/-- Witness for C16 (amended): the keyword `seq` with the body `float`. -/
theorem parentheses_optional_witness :
    FromString ("seq".toList ++ "float".toList)
      = FromString ("seq".toList ++ "(".toList ++ "float".toList ++ ")".toList) ∧
    FromString ("seq".toList ++ " ".toList ++ "float".toList ++ ")".toList)
      = FromString ("seq".toList ++ "(".toList ++ "float".toList ++ ")".toList) :=
  have h := parentheses_optional.1 "seq".toList (by decide) "float".toList
    (Trimmed_of_all _ (by decide)) (by decide) (by decide)
  ⟨h.1, h.2.2.2⟩

/-- C17: `FromString` fails on `record()` and `union()`, on every record or union whose
body has a top-level comma-separated field without `:` (such as `record(a:int32,b)`) and
on every map whose body has no `,` (such as `map(string)`), at every depth bound; every
descriptor it returns has the variant set and its record and union lists non-empty at
every level. -/
theorem empty_lists_and_missing_delimiters_rejected :
    (FromString "record()".toList = none ∧ FromString "union()".toList = none ∧
      FromString "record(a:int32,b)".toList = none ∧
      FromString "map(string)".toList = none) ∧
    (∀ body f : List Char, f ∈ specFields body → ':' ∉ f →
      FromString ("record(".toList ++ body ++ ")".toList) = none ∧
      FromString ("union(".toList ++ body ++ ")".toList) = none ∧
      ∀ fuel, FromStringFuel fuel ("record(".toList ++ body ++ ")".toList) = none ∧
        FromStringFuel fuel ("union(".toList ++ body ++ ")".toList) = none) ∧
    (∀ body : List Char, ',' ∉ body →
      FromString ("map(".toList ++ body ++ ")".toList) = none ∧
      ∀ fuel, FromStringFuel fuel ("map(".toList ++ body ++ ")".toList) = none) ∧
    (∀ p_src t, FromString p_src = some t →
      VariantSet t = true ∧ ListsNonEmpty t = true) := by
  refine ⟨⟨rfl, rfl, rfl, rfl⟩, ?_, ?_, ?_⟩
  · intro body f hf hc
    have h1 := fails_at_every_depth _ (fun F => record_fails F body f hf hc)
    have h2 := fails_at_every_depth _ (fun F => union_fails F body f hf hc)
    exact ⟨h1.1, h2.1, fun fuel => ⟨h1.2 fuel, h2.2 fuel⟩⟩
  · intro body hc
    exact fails_at_every_depth _ (fun F => map_fails F body hc)
  · intro p_src t h
    exact FromStringFuel_good _ p_src t h

/-- Witness for C17: the body `a:int32,b`, whose second field `b` has no `:`, the map
body `string` and the parse of `record(a:float)`. -/
theorem empty_lists_and_missing_delimiters_rejected_witness :
    ("b".toList ∈ specFields "a:int32,b".toList ∧ ':' ∉ "b".toList ∧
      FromString ("record(".toList ++ "a:int32,b".toList ++ ")".toList) = none) ∧
    (',' ∉ "string".toList ∧ FromString ("map(".toList ++ "string".toList ++ ")".toList) = none) ∧
    (FromString "record(a:float)".toList
        = some (.record_type [.mk "a".toList (.tensor_type .FLOAT [⟨0⟩])]) ∧
      ListsNonEmpty (.record_type [.mk "a".toList (.tensor_type .FLOAT [⟨0⟩])]) = true) :=
  ⟨⟨by decide, by decide,
      (empty_lists_and_missing_delimiters_rejected.2.1 "a:int32,b".toList "b".toList
        (by decide) (by decide)).1⟩,
   ⟨by decide, (empty_lists_and_missing_delimiters_rejected.2.2.1 "string".toList
        (by decide)).1⟩,
   ⟨rfl, (empty_lists_and_missing_delimiters_rejected.2.2.2 "record(a:float)".toList _
        rfl).2⟩⟩

/-- C20: whitespace around the input does not change the result of `FromString`, which
for a grammar string is a descriptor; nor does whitespace between a keyword and its `(`
and immediately inside the outer parentheses of the keyword body; `ToType` returns on the
padded string what it returns on the string itself, so `  tensor( float ) ` and
`tensor(float)` get the same handle. -/
theorem outer_whitespace_stripped (s w1 w2 : List Char) (h1 : AllSpace w1)
    (h2 : AllSpace w2) :
    FromString (w1 ++ s ++ w2) = FromString s ∧
    (Grammar s → ∃ t, FromString s = some t ∧ FromString (w1 ++ s ++ w2) = some t) ∧
    (∀ kw ∈ keywords, ∀ body w3 w4 w5 : List Char, AllSpace w3 → AllSpace w4 → AllSpace w5 →
      FromString (w1 ++ (kw ++ w3 ++ "(".toList ++ w4 ++ body ++ w5 ++ ")".toList) ++ w2)
        = FromString (kw ++ "(".toList ++ body ++ ")".toList)) ∧
    (∀ m, ToType_string m (w1 ++ s ++ w2) = ToType_string m s) ∧
    (∀ m, ToType_string m "  tensor( float ) ".toList
        = ToType_string m "tensor(float)".toList) := by
  have hp := FromString_pad w1 s w2 h1 h2
  refine ⟨hp, ?_, ?_, ?_, ?_⟩
  · intro hg
    obtain ⟨t, ht1, ht2, ht3⟩ := Grammar_descriptor s hg
    have := FromString_ToString t s ht1 ht2 ht3
    exact ⟨t, this, by rw [hp, this]⟩
  · intro kw hkw body w3 w4 w5 h3 h4 h5
    rw [FromString_pad _ _ _ h1 h2]
    have f0 : kw ++ "(".toList ++ body ++ ")".toList = kw ++ '(' :: (body ++ [')']) := by
      simp only [List.append_assoc]; rfl
    have f1 : kw ++ w3 ++ "(".toList ++ w4 ++ body ++ w5 ++ ")".toList
        = kw ++ (w3 ++ '(' :: (w4 ++ body ++ w5 ++ [')'])) := by
      simp only [List.append_assoc]; rfl
    rw [f0, f1]
    exact FromString_keyword_congr kw _ _ hkw (pwsData_pad w3 w4 body w5 h3 h4 h5)
  · intro m
    unfold ToType_string
    rw [hp]
  · intro m
    have e1 : FromString "  tensor( float ) ".toList = some (.tensor_type .FLOAT []) := rfl
    have e2 : FromString "tensor(float)".toList = some (.tensor_type .FLOAT []) := rfl
    unfold ToType_string
    rw [e1, e2]

/-- Witness for C20: the grammar string `tensor(float)` between two blanks and a
tab and a newline. -/
theorem outer_whitespace_stripped_witness :
    AllSpace "  ".toList ∧ AllSpace "\t\n".toList ∧
    FromString ("  ".toList ++ "tensor(float)".toList ++ "\t\n".toList)
      = FromString "tensor(float)".toList ∧
    (∃ t, FromString "tensor(float)".toList = some t ∧
      FromString ("  ".toList ++ "tensor(float)".toList ++ "\t\n".toList) = some t) ∧
    FromString ("  ".toList ++ ("seq".toList ++ " ".toList ++ "(".toList ++ " ".toList ++
        "float".toList ++ "\t".toList ++ ")".toList) ++ "\t\n".toList)
      = FromString ("seq".toList ++ "(".toList ++ "float".toList ++ ")".toList) :=
  have a1 : AllSpace "  ".toList := by unfold AllSpace; decide
  have a2 : AllSpace "\t\n".toList := by unfold AllSpace; decide
  have h := outer_whitespace_stripped "tensor(float)".toList "  ".toList "\t\n".toList a1 a2
  ⟨a1, a2, h.1, h.2.1 (Grammar.tensor .FLOAT),
    h.2.2.1 "seq".toList (by decide) "float".toList " ".toList " ".toList "\t".toList
      (by unfold AllSpace; decide) (by unfold AllSpace; decide) (by unfold AllSpace; decide)⟩

end OpUtils
end Utils
end LotusIR

namespace onnxruntime
namespace Tensor

theorem move_assign_trace (st : Store) (d s : Nat) (h : d ≠ s) :
    (move_assign st d s).trace = ReleaseBuffer (st d) := by
  simp only [move_assign, h, ne_eq, not_false_eq_true, if_true]

/-- Every effect of `ReleaseBuffer` acts on the data address of the tensor. -/
theorem ReleaseBuffer_addr (t : Tensor) : ∀ e ∈ ReleaseBuffer t, e.addr = t.p_data_ := by
  intro e he
  unfold ReleaseBuffer at he
  cases hd : t.buffer_deleter_ with
  | none => rw [hd] at he; exact absurd he (List.not_mem_nil e)
  | some a =>
    rw [hd] at he
    dsimp only at he
    rcases List.mem_append.mp he with h1 | h1
    · split at h1
      · obtain ⟨i, _, rfl⟩ := List.mem_map.mp h1
        rfl
      · exact absurd h1 (List.not_mem_nil e)
    · rw [List.mem_singleton.mp h1]
      rfl

theorem ReleaseBuffer_not_owner (t : Tensor) (h : t.buffer_deleter_ = none) :
    ReleaseBuffer t = [] := by
  unfold ReleaseBuffer
  rw [h]

theorem ShallowCopy_ok (st : Store) (d s : Nat) (hds : d ≠ s)
    (hs : (st s).buffer_deleter_ = none) :
    ShallowCopy st d s =
      { state := Function.update st d
          { (st d) with dtype_ := (st s).dtype_, alloc_info_ := (st s).alloc_info_,
                        shape_ := (st s).shape_, byte_offset_ := (st s).byte_offset_,
                        p_data_ := (st s).p_data_, buffer_deleter_ := none },
        trace := [], threw := false } := by
  unfold ShallowCopy
  rw [if_neg (fun hn => hn hs), if_pos hds]

/-- C22 (as stated, refuted): the destination at address 0 owns the buffer at address 7
and the distinct source at address 1 views the same buffer without owning it, so there
is a single owner; the move assignment frees the buffer the source points to. -/
theorem move_assign_release_counterexample :
    (0 : Nat) ≠ 1 ∧
    ((fun i => if i = 0 then (⟨some 7, some 1, ⟨[2]⟩, MLDataType.float, ⟨0⟩, 0⟩ : Tensor)
        else ⟨some 7, none, ⟨[2]⟩, MLDataType.float, ⟨0⟩, 0⟩) 1).p_data_ = some 7 ∧
    (move_assign (fun i => if i = 0 then ⟨some 7, some 1, ⟨[2]⟩, MLDataType.float, ⟨0⟩, 0⟩
        else ⟨some 7, none, ⟨[2]⟩, MLDataType.float, ⟨0⟩, 0⟩) 0 1).trace
      = [Effect.Free 1 (some 7)] ∧
    ((move_assign (fun i => if i = 0 then ⟨some 7, some 1, ⟨[2]⟩, MLDataType.float, ⟨0⟩, 0⟩
        else ⟨some 7, none, ⟨[2]⟩, MLDataType.float, ⟨0⟩, 0⟩) 0 1).state 0).p_data_
      = some 7 ∧
    SingleOwner [0, 1]
      (fun i => if i = 0 then ⟨some 7, some 1, ⟨[2]⟩, MLDataType.float, ⟨0⟩, 0⟩
        else ⟨some 7, none, ⟨[2]⟩, MLDataType.float, ⟨0⟩, 0⟩) := by
  refine ⟨by decide, rfl, ?_, ?_, ?_⟩
  · rw [move_assign_trace _ _ _ (by decide)]
    rfl
  · rw [move_assign_state _ _ _ (by decide)]
    rfl
  · intro i hi j hj hij oi oj
    simp only [List.mem_cons, List.mem_singleton, List.not_mem_nil, or_false] at hi hj
    rcases hi with rfl | rfl
    · rcases hj with rfl | rfl
      · exact absurd rfl hij
      · exact absurd oj (by decide)
    · exact absurd oi (by decide)

/-- C22 (amended): for a destination `d` and a distinct source `s`, move assignment
performs exactly the release trace of the state `d` had before (nothing if `d` did not
own; otherwise the string-element destructions, if the element type of `d` was string,
followed by one `Free` of the old data address of `d`); every effect acts on the old data
address of `d`, so none acts on the buffer of `s` when the data address of `s` differs
from it, as it does under single ownership when `s` owns its buffer; assigning a tensor to
itself performs no effect and leaves the state unchanged. -/
theorem move_assign_releases_destination (st : Store) (d s : Nat) (h : d ≠ s) :
    (move_assign st d s).trace = ReleaseBuffer (st d) ∧
    ((st d).buffer_deleter_ = none → (move_assign st d s).trace = []) ∧
    (∀ a, (st d).buffer_deleter_ = some a → (st d).dtype_ ≠ MLDataType.string →
      (move_assign st d s).trace = [Effect.Free a (st d).p_data_]) ∧
    (∀ a (n : Nat), (st d).buffer_deleter_ = some a → (st d).dtype_ = MLDataType.string →
      (st d).shape_.Size = (n : Int) →
      (move_assign st d s).trace =
        (List.range n).map (fun i => Effect.destroy_string (st d).p_data_ i)
          ++ [Effect.Free a (st d).p_data_]) ∧
    (∀ e ∈ (move_assign st d s).trace, e.addr = (st d).p_data_) ∧
    ((st s).p_data_ ≠ (st d).p_data_ →
      ∀ e ∈ (move_assign st d s).trace, e.addr ≠ (st s).p_data_) ∧
    (∀ live, SingleOwner live st → d ∈ live → s ∈ live →
      (st s).buffer_deleter_.isSome = true →
      ∀ e ∈ (move_assign st d s).trace, e.addr ≠ (st s).p_data_) ∧
    move_assign st d d = { state := st, trace := [], threw := false } := by
  have ht := move_assign_trace st d s h
  have ha : ∀ e ∈ (move_assign st d s).trace, e.addr = (st d).p_data_ := by
    rw [ht]; exact ReleaseBuffer_addr (st d)
  refine ⟨ht, ?_, ?_, ?_, ha, ?_, ?_, move_assign_self st d⟩
  · intro hn
    rw [ht, ReleaseBuffer_not_owner _ hn]
  · intro a h1 h2
    rw [ht]
    simp [ReleaseBuffer, h1, h2]
  · intro a n h1 h2 h3
    rw [ht]
    simp [ReleaseBuffer, h1, h2, h3]
  · intro hne e he
    rw [ha e he]
    exact fun x => hne x.symm
  · intro live hso hd hs hos e he
    rw [ha e he]
    cases hdo : (st d).buffer_deleter_ with
    | none =>
      rw [ht, ReleaseBuffer_not_owner _ hdo] at he
      exact absurd he (List.not_mem_nil e)
    | some a =>
      exact hso d hd s hs h (by rw [hdo]; rfl) hos

/-- Witness for C22 (amended): an owning string tensor of two elements at address 0 is
assigned from the tensor at address 1, which owns another buffer. -/
theorem move_assign_releases_destination_witness :
    (0 : Nat) ≠ 1 ∧
    (move_assign (fun i => if i = 0 then ⟨some 7, some 1, ⟨[2]⟩, MLDataType.string, ⟨0⟩, 0⟩
        else ⟨some 9, some 1, ⟨[3]⟩, MLDataType.float, ⟨0⟩, 0⟩) 0 1).trace
      = [Effect.destroy_string (some 7) 0, Effect.destroy_string (some 7) 1,
         Effect.Free 1 (some 7)] :=
  ⟨by decide,
   (move_assign_releases_destination
      (fun i => if i = 0 then ⟨some 7, some 1, ⟨[2]⟩, MLDataType.string, ⟨0⟩, 0⟩
        else ⟨some 9, some 1, ⟨[3]⟩, MLDataType.float, ⟨0⟩, 0⟩) 0 1 (by decide)).2.2.2.1
      1 2 rfl rfl rfl⟩

/-- C23: for a destination `d` and a distinct source `s` without owning capability,
`ShallowCopy` returns without any effect, also when `d` owned its buffer; afterwards `d`
has no owning capability and holds the data address of `s`, every other tensor is
unchanged, and no tensor releases anything it did not release before; under single
ownership no live tensor releases the buffer `d` owned. -/
theorem shallow_copy_releases_nothing (st : Store) (d s : Nat) (hds : d ≠ s)
    (hs : (st s).buffer_deleter_ = none) :
    (ShallowCopy st d s).trace = [] ∧ (ShallowCopy st d s).threw = false ∧
    ((ShallowCopy st d s).state d).buffer_deleter_ = none ∧
    ((ShallowCopy st d s).state d).p_data_ = (st s).p_data_ ∧
    ReleaseBuffer ((ShallowCopy st d s).state d) = [] ∧
    (∀ j, j ≠ d → (ShallowCopy st d s).state j = st j) ∧
    (∀ j, ∀ e ∈ ReleaseBuffer ((ShallowCopy st d s).state j),
      j ≠ d ∧ e ∈ ReleaseBuffer (st j)) ∧
    (∀ live, SingleOwner live st → d ∈ live → (st d).buffer_deleter_.isSome = true →
      ∀ j ∈ live, ∀ e ∈ ReleaseBuffer ((ShallowCopy st d s).state j),
        e.addr ≠ (st d).p_data_) := by
  have hc := ShallowCopy_ok st d s hds hs
  have hd1 : ((ShallowCopy st d s).state d).buffer_deleter_ = none := by
    rw [hc]; simp [Function.update]
  have hd2 : ReleaseBuffer ((ShallowCopy st d s).state d) = [] :=
    ReleaseBuffer_not_owner _ hd1
  have hj : ∀ j, j ≠ d → (ShallowCopy st d s).state j = st j := by
    intro j hne
    rw [hc]
    simp [Function.update, hne]
  have hnew : ∀ j, ∀ e ∈ ReleaseBuffer ((ShallowCopy st d s).state j),
      j ≠ d ∧ e ∈ ReleaseBuffer (st j) := by
    intro j e he
    by_cases hjd : j = d
    · rw [hjd, hd2] at he
      exact absurd he (List.not_mem_nil e)
    · rw [hj j hjd] at he
      exact ⟨hjd, he⟩
  refine ⟨by rw [hc], by rw [hc], hd1, ?_, hd2, hj, hnew, ?_⟩
  · rw [hc]; simp [Function.update]
  · intro live hso hd hdo j hjl e he
    obtain ⟨hjd, he1⟩ := hnew j e he
    rw [ReleaseBuffer_addr _ e he1]
    cases hjo : (st j).buffer_deleter_ with
    | none =>
      rw [ReleaseBuffer_not_owner _ hjo] at he1
      exact absurd he1 (List.not_mem_nil e)
    | some a =>
      exact hso j hjl d hd hjd (by rw [hjo]; rfl) hdo

/-- Witness for C23: the owning string tensor at address 0 takes a shallow copy of the
non-owning tensor at address 1. -/
theorem shallow_copy_releases_nothing_witness :
    (0 : Nat) ≠ 1 ∧
    (ShallowCopy (fun i => if i = 0 then ⟨some 7, some 1, ⟨[2]⟩, MLDataType.string, ⟨0⟩, 0⟩
        else ⟨some 9, none, ⟨[3]⟩, MLDataType.float, ⟨0⟩, 0⟩) 0 1).trace = [] ∧
    ((ShallowCopy (fun i => if i = 0 then ⟨some 7, some 1, ⟨[2]⟩, MLDataType.string, ⟨0⟩, 0⟩
        else ⟨some 9, none, ⟨[3]⟩, MLDataType.float, ⟨0⟩, 0⟩) 0 1).state 0).p_data_
      = some 9 :=
  have h := shallow_copy_releases_nothing
    (fun i => if i = 0 then ⟨some 7, some 1, ⟨[2]⟩, MLDataType.string, ⟨0⟩, 0⟩
      else ⟨some 9, none, ⟨[3]⟩, MLDataType.float, ⟨0⟩, 0⟩) 0 1 (by decide) rfl
  ⟨by decide, h.1, h.2.2.2.1⟩

end Tensor
end onnxruntime

namespace LotusIR
namespace Utils
namespace OpUtils
open StringRange

/-! ## Keys of the registry -/

theorem ToType_invariant (m m1 : TypeStrToProtoMap) (p : TypeProto) (h : PTYPE)
    (hm : ∀ k q, (k, q) ∈ m → ToString q = some k) (hr : ToType m p = some (h, m1)) :
    ∀ k q, (k, q) ∈ m1 → ToString q = some k := by
  cases hs : ToString p with
  | none => simp [ToType, hs] at hr
  | some typeStr =>
    cases hf : find typeStr m with
    | none =>
      rw [ToType_absent m p typeStr hs hf] at hr
      have e : m1 = m ++ [(typeStr, p)] := ((Prod.mk.inj (Option.some.inj hr)).2).symm
      intro k q hkq
      rw [e] at hkq
      rcases List.mem_append.mp hkq with h1 | h1
      · exact hm k q h1
      · have := List.mem_singleton.mp h1
        rw [(Prod.mk.inj this).1, (Prod.mk.inj this).2]
        exact hs
    | some i =>
      rw [ToType_present m p typeStr i hs hf] at hr
      have e : m1 = m := ((Prod.mk.inj (Option.some.inj hr)).2).symm
      rw [e]
      exact hm

theorem Call.run_invariant (m m1 : TypeStrToProtoMap) (c : Call)
    (hm : ∀ k q, (k, q) ∈ m → ToString q = some k) (h : c.run m = some m1) :
    ∀ k q, (k, q) ∈ m1 → ToString q = some k := by
  cases c with
  | proto p =>
    simp only [Call.run, Option.map_eq_some'] at h
    obtain ⟨⟨h1, m2⟩, hr, rfl⟩ := h
    exact ToType_invariant m m2 p h1 hm hr
  | str s =>
    simp only [Call.run, Option.map_eq_some', ToType_string] at h
    obtain ⟨⟨h1, m2⟩, hr, rfl⟩ := h
    cases hp : FromString s with
    | none => rw [hp] at hr; exact Option.noConfusion hr
    | some p =>
      rw [hp] at hr
      exact ToType_invariant m m2 p h1 hm hr

theorem runCalls_invariant (calls : List Call) (m m1 : TypeStrToProtoMap)
    (hm : ∀ k q, (k, q) ∈ m → ToString q = some k) (h : runCalls m calls = some m1) :
    ∀ k q, (k, q) ∈ m1 → ToString q = some k := by
  induction calls generalizing m with
  | nil =>
    simp only [runCalls, Option.some.injEq] at h
    rw [← h]
    exact hm
  | cons c cs ih =>
    simp only [runCalls] at h
    cases hc : c.run m with
    | none => rw [hc] at h; exact Option.noConfusion h
    | some m2 =>
      rw [hc] at h
      exact ih m2 (Call.run_invariant m m2 c hm hc) h

/-- The handle `ToType` returns points to a key whose node holds a descriptor. -/
theorem ToType_resolves (m m1 : TypeStrToProtoMap) (p : TypeProto) (h : PTYPE)
    (hr : ToType m p = some (h, m1)) :
    ∃ k q, ToString p = some k ∧ deref m1 h = some k ∧ ToTypeProto m1 k = some q ∧
      (k, q) ∈ m1 := by
  obtain ⟨k, ext, hk, _, hf⟩ := ToType_some m m1 p h hr
  obtain ⟨q, hq⟩ := find_key k m1 h hf
  refine ⟨k, q, hk, ?_, ?_, ?_⟩
  · simp only [deref, hq, Option.map_some']
  · unfold ToTypeProto
    rw [hf]
    simp only [hq, Option.map_some']
  · exact List.get?_mem hq

/-- C24: in every registry reachable from the empty one by calls of `ToType`, every node
`k -> p` has `ToString(p) == k`; so for a descriptor `p` on which `ToString` succeeds,
`ToType(p)` returns a handle, and the descriptor `ToTypeProto` returns for it serializes
to the string of `p`, although it may differ from `p`: after interning a tensor of shape
`[5]`, the handle of the tensor without shape resolves to the tensor of shape `[5]`. -/
theorem registry_key_invariant (m : TypeStrToProtoMap) (hm : Reachable m) :
    (∀ k p, (k, p) ∈ m → ToString p = some k) ∧
    (∀ p, (ToString p).isSome = true → (ToType m p).isSome = true) ∧
    (∀ p h m1, ToType m p = some (h, m1) →
      ∃ k q, deref m1 h = some k ∧ ToTypeProto m1 k = some q ∧
        ToString q = ToString p ∧ ToString p = some k) ∧
    (∃ p h m1 q, ToType [("tensor(float)".toList, .tensor_type .FLOAT [⟨5⟩])] p = some (h, m1) ∧
      (deref m1 h).bind (ToTypeProto m1) = some q ∧ q ≠ p ∧ ToString q = ToString p) := by
  obtain ⟨calls, hc⟩ := hm
  have hinv := runCalls_invariant calls [] m (fun k q hkq => absurd hkq (List.not_mem_nil _)) hc
  refine ⟨hinv, ?_, ?_, ?_⟩
  · intro p hp
    obtain ⟨k, hk⟩ := Option.isSome_iff_exists.mp hp
    obtain ⟨h, m1, _, he, _, _⟩ := ToType_eq m p k hk
    rw [he]; rfl
  · intro p h m1 hr
    obtain ⟨k, q, hk, hd, hq, hmem⟩ := ToType_resolves m m1 p h hr
    refine ⟨k, q, hd, hq, ?_, hk⟩
    rw [hk]
    exact ToType_invariant m m1 p h hinv hr k q hmem
  · refine ⟨.tensor_type .FLOAT [], 0, [("tensor(float)".toList, .tensor_type .FLOAT [⟨5⟩])],
      .tensor_type .FLOAT [⟨5⟩], rfl, rfl, ?_, rfl⟩
    intro e
    injection e with _ e2
    exact List.cons_ne_nil _ _ e2

/-- Witness for C24: the registry after interning the scalar `float` and then the string
`tensor( float )`. -/
theorem registry_key_invariant_witness :
    Reachable [("float".toList, .tensor_type .FLOAT [⟨0⟩]),
      ("tensor(float)".toList, .tensor_type .FLOAT [])] ∧
    ToString (.tensor_type .FLOAT []) = some "tensor(float)".toList :=
  have hr : Reachable [("float".toList, .tensor_type .FLOAT [⟨0⟩]),
      ("tensor(float)".toList, .tensor_type .FLOAT [])] :=
    ⟨[.proto (.tensor_type .FLOAT [⟨0⟩]), .str "tensor( float )".toList], rfl⟩
  ⟨hr, (registry_key_invariant _ hr).1 _ _ (List.mem_cons_of_mem _ (List.mem_cons_self _ _))⟩

end OpUtils
end Utils
end LotusIR

namespace LotusIR
namespace Utils
namespace OpUtils
open StringRange

/-! ## Termination of the parser -/

/-- One round of the loop of `SplitRecords` on a non-empty cursor strips exactly one
character, and the remaining rounds continue from the state it leaves. -/
theorem SplitRecordsLoop_round (s : StringRange) (d : Int) (recs : List StringRange)
    (hs : s.Size > 0) :
    (SplitRecordsLoop 1 s d recs).1.Size + 1 = s.Size ∧
    ∀ fuel, SplitRecordsLoop (fuel + 1) s d recs =
      SplitRecordsLoop fuel (SplitRecordsLoop 1 s d recs).1 (SplitRecordsLoop 1 s d recs).2.1
        (SplitRecordsLoop 1 s d recs).2.2 := by
  obtain ⟨data, cap⟩ := s
  cases data with
  | nil => exact absurd hs (by simp [Size])
  | cons c cs =>
    have h1 := SplitRecordsLoop_cons 0 c cs cap d recs
    by_cases hc1 : c = ','
    · by_cases hd : d = 0
      · rw [if_pos hc1, if_pos hd] at h1
        refine ⟨by rw [h1]; simp [SplitRecordsLoop, Size], fun fuel => ?_⟩
        rw [SplitRecordsLoop_cons, if_pos hc1, if_pos hd, h1]
        rfl
      · rw [if_pos hc1, if_neg hd] at h1
        refine ⟨by rw [h1]; simp [SplitRecordsLoop, Size], fun fuel => ?_⟩
        rw [SplitRecordsLoop_cons, if_pos hc1, if_neg hd, h1]
        rfl
    · by_cases hc2 : c = '('
      · rw [if_neg hc1, if_pos hc2] at h1
        refine ⟨by rw [h1]; simp [SplitRecordsLoop, Size], fun fuel => ?_⟩
        rw [SplitRecordsLoop_cons, if_neg hc1, if_pos hc2, h1]
        rfl
      · by_cases hc3 : c = ')'
        · rw [if_neg hc1, if_neg hc2, if_pos hc3] at h1
          refine ⟨by rw [h1]; simp [SplitRecordsLoop, Size], fun fuel => ?_⟩
          rw [SplitRecordsLoop_cons, if_neg hc1, if_neg hc2, if_pos hc3, h1]
          rfl
        · rw [if_neg hc1, if_neg hc2, if_neg hc3] at h1
          refine ⟨by rw [h1]; simp [SplitRecordsLoop, Size], fun fuel => ?_⟩
          rw [SplitRecordsLoop_cons, if_neg hc1, if_neg hc2, if_neg hc3, h1]
          rfl

theorem SplitRecordsLoop_empty (fuel : Nat) (s : StringRange) (d : Int)
    (recs : List StringRange) (hs : s.Size = 0) :
    SplitRecordsLoop fuel s d recs = (s, d, recs) := by
  cases fuel with
  | zero => rfl
  | succ fuel =>
    rw [SplitRecordsLoop, if_neg (by rw [hs]; exact Nat.lt_irrefl 0)]

/-- Rounds beyond `Size()` are never run: the loop has left through its condition. -/
theorem SplitRecordsLoop_fuel (fuel : Nat) :
    ∀ (s : StringRange) (d : Int) (recs : List StringRange), s.Size ≤ fuel →
      SplitRecordsLoop fuel s d recs = SplitRecordsLoop s.Size s d recs := by
  induction fuel with
  | zero =>
    intro s d recs h
    rw [Nat.le_zero.mp h]
  | succ fuel ih =>
    intro s d recs h
    by_cases hs : s.Size = 0
    · rw [SplitRecordsLoop_empty _ s d recs hs, hs]
      rfl
    · have hpos : s.Size > 0 := Nat.pos_of_ne_zero hs
      obtain ⟨h1, h2⟩ := SplitRecordsLoop_round s d recs hpos
      obtain ⟨n, hn⟩ : ∃ n, s.Size = n + 1 := ⟨s.Size - 1, by omega⟩
      have e1 : (SplitRecordsLoop 1 s d recs).1.Size = n := by omega
      rw [h2 fuel, hn, h2 n, ih _ _ _ (by omega), e1]

theorem FromStringBody_congr (F G : List Char → Option TypeProto) (p_src : List Char)
    (h : ∀ q, q.length < p_src.length → F q = G q) :
    FromStringBody F p_src = FromStringBody G p_src := by
  rw [FromStringBody_eq_parseData, FromStringBody_eq_parseData]
  apply parseData_congr
  intro q hq
  exact h q (lt_of_lt_of_le hq (trim_length_le p_src))

theorem FromString_fixpoint (p_src : List Char) :
    FromString p_src = FromStringBody FromString p_src := by
  rw [FromStringBody_eq_parseData, ← FromString_unfold]

theorem FromString_unique (F : List Char → Option TypeProto)
    (hF : ∀ p, F p = FromStringBody F p) : ∀ p, F p = FromString p := by
  have key : ∀ n, ∀ p : List Char, p.length < n → F p = FromString p := by
    intro n
    induction n with
    | zero => intro p hp; exact absurd hp (Nat.not_lt_zero _)
    | succ n ih =>
      intro p hp
      rw [hF p, FromString_fixpoint p]
      apply FromStringBody_congr
      intro q hq
      exact ih q (by omega)
  intro p
  exact key (p.length + 1) p (Nat.lt_succ_self _)

/-- C25: a round of the loop of `SplitRecords` on a non-empty source strips one
character, so the loop leaves through its condition after `Size()` rounds with the source
empty, and `SplitRecords` appends at least one field, one for an empty body. The result
of the body of `FromString` depends on the recursive calls only through their results on
strings strictly shorter than the input, so the recursion is well-founded on the length:
`FromString` satisfies the recursion equation of the body, is the only function that does,
and is given by every depth bound larger than the length of the input. -/
theorem parser_terminates :
    (∀ (s : StringRange) (d : Int) (recs : List StringRange), s.Size > 0 →
      (SplitRecordsLoop 1 s d recs).1.Size < s.Size ∧
      ∀ fuel, SplitRecordsLoop (fuel + 1) s d recs =
        SplitRecordsLoop fuel (SplitRecordsLoop 1 s d recs).1
          (SplitRecordsLoop 1 s d recs).2.1 (SplitRecordsLoop 1 s d recs).2.2) ∧
    (∀ (s : StringRange) (d : Int) (recs : List StringRange) (fuel : Nat), s.Size ≤ fuel →
      SplitRecordsLoop fuel s d recs = SplitRecordsLoop s.Size s d recs ∧
      (SplitRecordsLoop fuel s d recs).1.Size = 0) ∧
    (∀ (s : StringRange) (recs : List StringRange),
      (SplitRecords s recs).1.Size = 0 ∧
      ∃ new, (SplitRecords s recs).2 = recs ++ new ∧ 1 ≤ new.length) ∧
    (∀ (cap : List Char) (recs : List StringRange),
      ∃ f, (SplitRecords ⟨[], cap⟩ recs).2 = recs ++ [f]) ∧
    (∀ (F G : List Char → Option TypeProto) (p_src : List Char),
      (∀ q, q.length < p_src.length → F q = G q) →
      FromStringBody F p_src = FromStringBody G p_src) ∧
    (∀ p_src, FromString p_src = FromStringBody FromString p_src) ∧
    (∀ F : List Char → Option TypeProto, (∀ p, F p = FromStringBody F p) →
      ∀ p, F p = FromString p) ∧
    (∀ fuel p_src, p_src.length < fuel → FromStringFuel fuel p_src = FromString p_src) := by
  refine ⟨?_, ?_, ?_, ?_, FromStringBody_congr, FromString_fixpoint, FromString_unique,
    FromStringFuel_adequate⟩
  · intro s d recs hs
    obtain ⟨h1, h2⟩ := SplitRecordsLoop_round s d recs hs
    exact ⟨by omega, h2⟩
  · intro s d recs fuel hf
    refine ⟨SplitRecordsLoop_fuel fuel s d recs hf, ?_⟩
    have := (SplitRecordsLoop_spec fuel s d recs hf).1
    simp [Size, this]
  · intro s recs
    obtain ⟨hA, new, hB, hC⟩ := SplitRecords_eq_splitAcc s recs
    refine ⟨by simp [Size, hA], new, hB, ?_⟩
    have hl : new.length = (new.map Data).length := by simp
    rw [hl, hC]
    exact Nat.one_le_iff_ne_zero.mpr
      (fun h => splitAcc_ne_nil _ _ _ (List.length_eq_zero.mp h))
  · intro cap recs
    exact ⟨_, rfl⟩

/-- Witness for C25: one round on the cursor over `a,b`, and the body of the parser on
`seq(float)`, of length 10, with `FromString` and with its restriction to the strings
shorter than 10 as recursive parsers. -/
theorem parser_terminates_witness :
    (SplitRecordsLoop 1 ⟨"a,b".toList, []⟩ 0 []).1.Size
      < (⟨"a,b".toList, []⟩ : StringRange).Size ∧
    FromStringBody FromString "seq(float)".toList
      = FromStringBody (fun q => if q.length < 10 then FromString q else none)
          "seq(float)".toList :=
  ⟨(parser_terminates.1 ⟨"a,b".toList, []⟩ 0 [] (by decide)).1,
   parser_terminates.2.2.2.2.1 FromString
     (fun q => if q.length < 10 then FromString q else none) "seq(float)".toList
     (fun q hq => (if_pos hq).symm)⟩

end OpUtils
end Utils
end LotusIR

namespace LotusIR
namespace Utils
namespace OpUtils
open StringRange

/-! ## One outer pair of parentheses -/

theorem count_AllSpace (x : Char) (hx : isspace x = false) (w : List Char)
    (hw : AllSpace w) : w.count x = 0 := by
  apply List.count_eq_zero.mpr
  intro hm
  have := hw x hm
  rw [hx] at this
  exact Bool.false_ne_true this

theorem count_dropWhile_space (x : Char) (hx : isspace x = false) (l : List Char) :
    (l.dropWhile isspace).count x = l.count x := by
  have e := List.takeWhile_append_dropWhile isspace l
  have h0 := count_AllSpace x hx (l.takeWhile isspace) (fun c hc => List.mem_takeWhile_imp hc)
  conv_rhs => rw [← e]
  rw [List.count_append, h0, Nat.zero_add]

theorem count_rdropWhile_space (x : Char) (hx : isspace x = false) (l : List Char) :
    (l.rdropWhile isspace).count x = l.count x := by
  obtain ⟨w, hw, e⟩ := rdropWhile_decompose l
  conv_rhs => rw [e]
  rw [List.count_append, count_AllSpace x hx w hw, Nat.add_zero]

theorem count_trim (x : Char) (hx : isspace x = false) (l : List Char) :
    (trim l).count x = l.count x := by
  unfold trim
  rw [count_rdropWhile_space x hx, count_dropWhile_space x hx]

/-- The stripped body has lost at most one `(` and at most one `)`. -/
theorem pwsData_count (l : List Char) :
    (pwsData l).count '(' ≤ l.count '(' ∧ l.count '(' ≤ (pwsData l).count '(' + 1 ∧
    (pwsData l).count ')' ≤ l.count ')' ∧ l.count ')' ≤ (pwsData l).count ')' + 1 := by
  have s1 : isspace '(' = false := by decide
  have s2 : isspace ')' = false := by decide
  unfold pwsData
  dsimp only
  rw [count_rdropWhile_space _ s1, count_rdropWhile_space _ s2]
  have a1 := count_dropWhile_space _ s1 l
  have a2 := count_dropWhile_space _ s2 l
  generalize l.dropWhile isspace = a at a1 a2
  have b1 : (if a.head? = some '(' then a.tail else a).count '(' ≤ a.count '(' ∧
      a.count '(' ≤ (if a.head? = some '(' then a.tail else a).count '(' + 1 ∧
      (if a.head? = some '(' then a.tail else a).count ')' = a.count ')' := by
    cases a with
    | nil => simp
    | cons c a =>
      rw [List.head?_cons, List.tail_cons]
      by_cases hc : c = '('
      · rw [hc, if_pos rfl]
        simp
      · rw [if_neg (fun h => hc (Option.some.inj h))]
        simp
  generalize (if a.head? = some '(' then a.tail else a) = b at b1
  have c1 := count_trim _ s1 b
  have c2 := count_trim _ s2 b
  generalize trim b = c at c1 c2
  have d1 : (if c.getLast? = some ')' then c.dropLast else c).count '(' = c.count '(' ∧
      (if c.getLast? = some ')' then c.dropLast else c).count ')' ≤ c.count ')' ∧
      c.count ')' ≤ (if c.getLast? = some ')' then c.dropLast else c).count ')' + 1 := by
    by_cases hl : c.getLast? = some ')'
    · rw [if_pos hl]
      have hne : c ≠ [] := by
        intro h
        rw [h] at hl
        exact Option.noConfusion hl
      have e : c = c.dropLast ++ [')'] := by
        have h1 := List.dropLast_append_getLast hne
        rw [List.getLast?_eq_getLast _ hne] at hl
        rw [Option.some.inj hl] at h1
        exact h1.symm
      generalize c.dropLast = d at e
      rw [e]
      simp
    · rw [if_neg hl]
      simp
  generalize (if c.getLast? = some ')' then c.dropLast else c) = d at d1
  omega

/-- C21 (as stated, refuted): on the cursor over `a)` the step `LStrip("(")` removes
nothing and the step `RStrip(")")` removes the `)`; the view is left equal to `a`. -/
theorem parens_pair_counterexample :
    ((LStrip ⟨"a)".toList, []⟩).2.LStrip_str (ofString "(".toList)).1 = false ∧
    ((((LStrip ⟨"a)".toList, []⟩).2.LStrip_str (ofString "(".toList)).2.LAndRStrip.2).RStrip_str
      (ofString ")".toList)).1 = true ∧
    (ParensWhitespaceStrip ⟨"a)".toList, []⟩).Data = "a".toList := by
  decide

/-- C21 (amended): for every text `b` without leading or trailing whitespace and all
whitespace texts `w1 .. w4`, `ParensWhitespaceStrip` on a cursor over
`w1 ( w2 b w3 ) w4` leaves the view `b`; on every cursor the view loses at most one
`(` and at most one `)`, so `((a))` becomes `(a)`; the two parentheses are removed
independently of each other: a leading `(` is removed when no `)` ends the text, and a
trailing `)` is removed when no `(` starts it. -/
theorem ParensWhitespaceStrip_outer_pair (b w1 w2 w3 w4 cap : List Char) (hb : Trimmed b)
    (h1 : AllSpace w1) (h2 : AllSpace w2) (h3 : AllSpace w3) (h4 : AllSpace w4) :
    (ParensWhitespaceStrip
        ⟨w1 ++ "(".toList ++ w2 ++ b ++ w3 ++ ")".toList ++ w4, cap⟩).Data = b ∧
    (ParensWhitespaceStrip
        (ofString (w1 ++ "(".toList ++ w2 ++ b ++ w3 ++ ")".toList ++ w4))).Data = b ∧
    (∀ s : StringRange,
      s.ParensWhitespaceStrip.Data.count '(' ≤ s.Data.count '(' ∧
      s.Data.count '(' ≤ s.ParensWhitespaceStrip.Data.count '(' + 1 ∧
      s.ParensWhitespaceStrip.Data.count ')' ≤ s.Data.count ')' ∧
      s.Data.count ')' ≤ s.ParensWhitespaceStrip.Data.count ')' + 1) ∧
    (ParensWhitespaceStrip ⟨"((a))".toList, []⟩).Data = "(a)".toList ∧
    (b.getLast? ≠ some ')' → (ParensWhitespaceStrip ⟨"(".toList ++ b, cap⟩).Data = b) ∧
    (b.head? ≠ some '(' → (ParensWhitespaceStrip ⟨b ++ ")".toList, cap⟩).Data = b) ∧
    (ParensWhitespaceStrip ⟨"(a".toList, []⟩).Data = "a".toList ∧
    (ParensWhitespaceStrip ⟨"a)".toList, []⟩).Data = "a".toList := by
  have f : w1 ++ "(".toList ++ w2 ++ b ++ w3 ++ ")".toList ++ w4
      = w1 ++ (('(' :: (w2 ++ b ++ w3 ++ [')'])) ++ w4) := by
    rw [show "(".toList = ['('] from rfl, show ")".toList = [')'] from rfl]
    simp only [List.append_assoc, List.cons_append, List.nil_append]
  have e : pwsData (w1 ++ "(".toList ++ w2 ++ b ++ w3 ++ ")".toList ++ w4) = b := by
    rw [f, pwsData_AllSpace_append _ _ h1, pwsData_append_AllSpace _ _ h4, pwsData_parens,
      trim_pad _ _ _ h2 h3, trim_of_Trimmed b hb]
  refine ⟨?_, ?_, ?_, by decide, ?_, ?_, by decide, by decide⟩
  · rw [Data, ParensWhitespaceStrip_data]
    exact e
  · rw [Data, ParensWhitespaceStrip_data, ofString_data]
    obtain ⟨v1, v2, hv1, hv2, hd⟩ :=
      trim_decompose (w1 ++ "(".toList ++ w2 ++ b ++ w3 ++ ")".toList ++ w4)
    rw [hd, List.append_assoc, pwsData_AllSpace_append _ _ hv1,
      pwsData_append_AllSpace _ _ hv2] at e
    exact e
  · intro s
    rw [Data, Data, ParensWhitespaceStrip_data]
    exact pwsData_count s.m_data
  · intro hl
    rw [Data, ParensWhitespaceStrip_data]
    exact pwsData_open b hb hl
  · intro hh
    rw [Data, ParensWhitespaceStrip_data]
    exact pwsData_close b hb hh

/-- Witness for C21 (amended): the body `(x)` between blanks and an outer pair of
parentheses. -/
theorem ParensWhitespaceStrip_outer_pair_witness :
    (ParensWhitespaceStrip
      ⟨" ".toList ++ "(".toList ++ "\t".toList ++ "(x)".toList ++ " ".toList ++ ")".toList
        ++ "\n".toList, []⟩).Data = "(x)".toList :=
  (ParensWhitespaceStrip_outer_pair "(x)".toList " ".toList "\t".toList " ".toList
    "\n".toList [] (Trimmed_of_all _ (by decide)) (by unfold AllSpace; decide)
    (by unfold AllSpace; decide) (by unfold AllSpace; decide)
    (by unfold AllSpace; decide)).1

end OpUtils
end Utils
end LotusIR

namespace LotusIR
namespace Utils
namespace OpUtils
open StringRange

/-! ## Type strings of values -/

theorem key_str_name (c : KeyCase) (k : List Char) (h : key_str c = some k) :
    ∃ e, k = ToString_DataType e := by
  cases c with
  | kS => exact ⟨.STRING, (Option.some.inj h).symm⟩
  | kI32 => exact ⟨.INT32, (Option.some.inj h).symm⟩
  | kI64 => exact ⟨.INT64, (Option.some.inj h).symm⟩
  | kUi64 => exact ⟨.UINT64, (Option.some.inj h).symm⟩
  | KEY_NOT_SET => exact Option.noConfusion h

mutual
/-- The type string of a value is the serialization of a descriptor that the parser gives
back. -/
theorem attr_type : ∀ (v : ValueProto) (t : List Char), ToAttrTypeString v = some t →
    KeysClean v = true →
    ∃ p, Lossless p = true ∧ VariantSet p = true ∧ ToString p = some t
  | .VALUE_NOT_SET, t, h, _ => by
    rw [ToAttrTypeString] at h
    exact Option.noConfusion h
  | .dense_tensor d, t, h, _ => by
    rw [ToAttrTypeString] at h
    split at h
    · exact ⟨.tensor_type d.data_type [⟨0⟩], rfl, rfl, by rw [← h]; simp [ToString]⟩
    · exact ⟨.tensor_type d.data_type [], rfl, rfl, by rw [← h]; simp [ToString]⟩
  | .sparse_tensor d, t, h, _ => by
    rw [ToAttrTypeString] at h
    exact ⟨.sparse_tensor_type d.values.data_type, rfl, rfl, by rw [← h]; rfl⟩
  | .seq [], t, h, _ => by
    rw [ToAttrTypeString] at h
    exact Option.noConfusion h
  | .seq (e :: es), t, h, hk => by
    rw [ToAttrTypeString] at h
    rw [KeysClean] at hk
    cases he : ToAttrTypeString e with
    | none => rw [he] at h; exact Option.noConfusion h
    | some s =>
      rw [he] at h
      obtain ⟨p, h1, h2, h3⟩ := attr_type e s he hk
      refine ⟨.seq_type p, by rw [Lossless]; exact h1, by rw [VariantSet]; exact h2, ?_⟩
      rw [ToString, h3]
      exact h
  | .scalar_map keys values, t, h, _ => by
    rw [ToAttrTypeString] at h
    split at h
    · cases hk : keys.head? with
      | none => rw [hk] at h; exact Option.noConfusion h
      | some k =>
        cases hv : values.head? with
        | none => rw [hk, hv] at h; exact Option.noConfusion h
        | some v =>
          rw [hk, hv] at h
          refine ⟨.map_type k.data_type (.tensor_type v.data_type []), rfl, rfl, ?_⟩
          rw [← Option.some.inj h]
          simp [ToString]
    · exact Option.noConfusion h
  | .map [], t, h, _ => by
    rw [ToAttrTypeString] at h
    exact Option.noConfusion h
  | .map (.mk key_case value :: rest), t, h, hk => by
    rw [ToAttrTypeString] at h
    rw [KeysClean] at hk
    cases hc : key_str key_case with
    | none => rw [hc] at h; exact Option.noConfusion h
    | some k =>
      cases hv : ToAttrTypeString value with
      | none => rw [hc, hv] at h; exact Option.noConfusion h
      | some s =>
        rw [hc, hv] at h
        obtain ⟨e, rfl⟩ := key_str_name key_case k hc
        obtain ⟨p, h1, h2, h3⟩ := attr_type value s hv hk
        refine ⟨.map_type e p, by rw [Lossless]; exact h1, by rw [VariantSet]; exact h2, ?_⟩
        rw [ToString, h3]
        exact h
  | .record fields, t, h, hk => by
    rw [ToAttrTypeString] at h
    rw [KeysClean] at hk
    cases hf : ToAttrTypeStringFields fields with
    | none => rw [hf] at h; exact Option.noConfusion h
    | some b =>
      rw [hf] at h
      obtain ⟨es, h0, h1, h2, h3⟩ := attr_fields fields b hf hk
      refine ⟨.record_type es, by rw [Lossless, h0, h1]; rfl, by rw [VariantSet]; exact h2, ?_⟩
      rw [ToString, h3]
      exact h
  | .union_ none, t, h, _ => by
    rw [ToAttrTypeString] at h
    exact Option.noConfusion h
  | .union_ (some (.mk key value)), t, h, hk => by
    rw [ToAttrTypeString] at h
    rw [KeysClean, Bool.and_eq_true] at hk
    cases hv : ToAttrTypeString value with
    | none => rw [hv] at h; exact Option.noConfusion h
    | some s =>
      rw [hv] at h
      obtain ⟨p, h1, h2, h3⟩ := attr_type value s hv hk.2
      refine ⟨.union_type [.mk key p], ?_, ?_, ?_⟩
      · rw [Lossless, LosslessEntries, LosslessEntries, hk.1, h1]; rfl
      · rw [VariantSet, VariantSetEntries, VariantSetEntries, h2]; rfl
      · rw [ToString, ToStringEntries, h3]
        rw [← Option.some.inj h]
        simp
/-- The text of the fields of a record value is the text of a list of entries. -/
theorem attr_fields : ∀ (fs : List NameValuePairProto) (b : List Char),
    ToAttrTypeStringFields fs = some b → KeysCleanFields fs = true →
    ∃ es, es.isEmpty = false ∧ LosslessEntries es = true ∧ VariantSetEntries es = true ∧
      ToStringEntries es = some b
  | [], b, h, _ => by
    rw [ToAttrTypeStringFields] at h
    exact Option.noConfusion h
  | [.mk key value], b, h, hk => by
    rw [ToAttrTypeStringFields] at h
    rw [KeysCleanFields, KeysCleanFields, Bool.and_true, Bool.and_eq_true] at hk
    cases hv : ToAttrTypeString value with
    | none => rw [hv] at h; exact Option.noConfusion h
    | some s =>
      rw [hv] at h
      obtain ⟨p, h1, h2, h3⟩ := attr_type value s hv hk.2
      refine ⟨[.mk key p], rfl, ?_, ?_, ?_⟩
      · rw [LosslessEntries, LosslessEntries, hk.1, h1]; rfl
      · rw [VariantSetEntries, VariantSetEntries, h2]; rfl
      · rw [ToStringEntries, h3]
        exact h
  | (.mk key value) :: g :: rest, b, h, hk => by
    rw [ToAttrTypeStringFields] at h
    rw [KeysCleanFields, Bool.and_eq_true, Bool.and_eq_true] at hk
    cases hv : ToAttrTypeString value with
    | none => rw [hv] at h; exact Option.noConfusion h
    | some s =>
      cases hr : ToAttrTypeStringFields (g :: rest) with
      | none => rw [hv, hr] at h; exact Option.noConfusion h
      | some r =>
        rw [hv, hr] at h
        obtain ⟨p, h1, h2, h3⟩ := attr_type value s hv hk.1.2
        obtain ⟨es, h0, e1, e2, e3⟩ := attr_fields (g :: rest) r hr hk.2
        cases es with
        | nil => exact absurd h0 (by decide)
        | cons x es =>
          refine ⟨.mk key p :: x :: es, rfl, ?_, ?_, ?_⟩
          · rw [LosslessEntries, hk.1.1, h1, e1]; rfl
          · rw [VariantSetEntries, h2, e2]; rfl
          · rw [ToStringEntries, h3, e3]
            exact h
end

end OpUtils
end Utils
end LotusIR

namespace LotusIR
namespace Utils
namespace OpUtils

theorem dims_scalar_iff (dims : List Int) :
    (dims.length = 1 ∧ dims.head? = some 0) ↔ dims = [0] := by
  constructor
  · rintro ⟨h1, h2⟩
    cases dims with
    | nil => exact absurd h1 (by decide)
    | cons x rest =>
      cases rest with
      | nil =>
        rw [List.head?_cons] at h2
        rw [Option.some.inj h2]
      | cons y rest =>
        rw [List.length_cons, List.length_cons] at h1
        omega
  · intro h
    rw [h]
    exact ⟨rfl, rfl⟩

/-- C26: for every value on which `ToAttrTypeString` returns a string `t`, with the
record and union keys it reads free of `(`, `)`, `,`, `:` and of leading and trailing
whitespace, `FromString` accepts `t` and `ToString` of the parsed descriptor is `t`
again; a dense tensor with dims `[0]` gives the bare element name and every other dense
tensor gives `tensor(<name>)`; a value without variant, an empty sequence, map or record
and a union without choice give no string. -/
theorem attr_type_string_canonical (v : ValueProto) (t : List Char)
    (h : ToAttrTypeString v = some t) (hk : KeysClean v = true) :
    (∃ p, FromString t = some p ∧ ToString p = some t) ∧
    (FromString t).bind ToString = some t ∧
    (∀ e, ToAttrTypeString (.dense_tensor ⟨[0], e⟩) = some (ToString_DataType e)) ∧
    (∀ e dims, dims ≠ [0] →
      ToAttrTypeString (.dense_tensor ⟨dims, e⟩)
        = some ("tensor(".toList ++ ToString_DataType e ++ ")".toList)) ∧
    (ToAttrTypeString .VALUE_NOT_SET = none ∧ ToAttrTypeString (.seq []) = none ∧
      ToAttrTypeString (.map []) = none ∧ ToAttrTypeString (.record []) = none ∧
      ToAttrTypeString (.union_ none) = none ∧
      ToAttrTypeString (.scalar_map [] []) = none) := by
  obtain ⟨p, h1, h2, h3⟩ := attr_type v t h hk
  have hp := FromString_ToString p t h1 h2 h3
  refine ⟨⟨p, hp, h3⟩, by rw [hp]; exact h3, ?_, ?_, ⟨rfl, rfl, rfl, rfl, rfl, rfl⟩⟩
  · intro e
    rw [ToAttrTypeString, if_pos ⟨rfl, rfl⟩]
  · intro e dims hd
    rw [ToAttrTypeString, if_neg (fun hc => hd ((dims_scalar_iff dims).mp hc))]

/-- Witness for C26: a sequence whose first element is a record with a scalar field and a
map field holding a union. -/
theorem attr_type_string_canonical_witness :
    ToAttrTypeString (.seq [.record [.mk "a".toList (.dense_tensor ⟨[0], .FLOAT⟩),
        .mk "b".toList (.map [.mk .kI64
          (.union_ (some (.mk "c".toList (.sparse_tensor ⟨⟨[], .INT8⟩⟩))))])]])
      = some "seq(record(a:float,b:map(int64,union(c:sparse(int8)))))".toList ∧
    (FromString "seq(record(a:float,b:map(int64,union(c:sparse(int8)))))".toList).bind
        ToString
      = some "seq(record(a:float,b:map(int64,union(c:sparse(int8)))))".toList :=
  ⟨by decide,
   (attr_type_string_canonical
      (.seq [.record [.mk "a".toList (.dense_tensor ⟨[0], .FLOAT⟩),
        .mk "b".toList (.map [.mk .kI64
          (.union_ (some (.mk "c".toList (.sparse_tensor ⟨⟨[], .INT8⟩⟩))))])]])
      "seq(record(a:float,b:map(int64,union(c:sparse(int8)))))".toList (by decide)
      (by decide)).2.1⟩

end OpUtils
end Utils
end LotusIR
